import Mathlib

/-!
Verification development for the slog-dedup structured-logging middleware.

The Go sources are shallowly embedded: the ordered key map (`modernc.org/b`
B-tree keyed by the default `CaseSensitiveCmp` comparison) becomes a sorted
association list, `slog.Attr`/`slog.Value` become the `Attr`/`Value`
inductives, and each handler's `createAttrTree`/`resolveValues`/`Handle`
becomes a Lean function of the same name and structure.
-/

/-- Scalar payloads of an `slog.Value` that are not groups, slices or maps.
`nil` models the zero `slog.Value` (kind Any holding nil). -/
inductive Scalar where
  | nil
  | str (s : String)
  | int (n : Int)
  | bool (b : Bool)
  deriving DecidableEq, Repr

mutual
/-- Model of `slog.Value`: a scalar, a group (`slog.KindGroup`), a slice of
values (`[]any`, as produced by `slog.Any(k, anys)` in `buildAttrs`), or a
string-keyed map (`map[string]any`, as produced by `buildGroupMap`). -/
inductive Value where
  | scalar (s : Scalar)
  | group (gAttrs : List Attr)
  | list (vs : List Value)
  | map (entries : List (String × Value))

/-- Model of `slog.Attr`: a key/value pair. -/
inductive Attr where
  | mk (key : String) (value : Value)
end

/-- The key of an attribute. -/
def Attr.key : Attr → String
  | .mk k _ => k

/-- The value of an attribute. -/
def Attr.value : Attr → Value
  | .mk _ v => v

/-- `slog.Value.Resolve` forces lazy `LogValuer` values; the embedding has no
lazy variant, so resolution is the identity function. -/
def Value.resolve (v : Value) : Value := v

/-- Whether a value is a group, i.e. `Value.Kind() == slog.KindGroup`. -/
def Value.isGroup : Value → Bool
  | .group _ => true
  | _ => false

/-- Model of `a.Equal(slog.Attr{})`: the empty-attribute sentinel has an empty
key and the zero value (kind Any holding nil). -/
def Attr.isEmpty : Attr → Bool
  | .mk k (.scalar .nil) => k == ""
  | _ => false

/-- Values stored in the ordered key map (`b.Tree[string, any]`): an attribute,
a subtree, or (append handler only) an `appended` slice; see the type switch in
`buildAttrs` (src/helpers.go). -/
inductive TreeVal where
  | attr (a : Attr)
  | tree (t : List (String × TreeVal))
  | appended (vs : List TreeVal)

/-- The ordered key map `b.Tree[string, any]` keyed by the default
`CaseSensitiveCmp` comparison: a sorted association list over the string
order. -/
abbrev UniqMap := List (String × TreeVal)

/-- Lexicographic order on character lists: the order Go uses when comparing
strings with `<`, `>` (UTF-8 byte order coincides with code-point order). -/
def charListLt : List Char → List Char → Bool
  | [], [] => false
  | [], _ :: _ => true
  | _ :: _, [] => false
  | a :: as, b :: bs => decide (a < b) || (a == b && charListLt as bs)

/-- Go string comparison `a < b`. -/
def strLt (a b : String) : Bool := charListLt a.data b.data

/-- `CaseSensitiveCmp` (src/helpers.go): the default key comparison and
ordering function, ordering by byte values. -/
def CaseSensitiveCmp (a b : String) : Int :=
  if a == b then 0 else if strLt b a then 1 else -1

/-- `Tree.Set` of the `modernc.org/b` B-tree under the default
`CaseSensitiveCmp` comparison: insert or replace the value at a key. -/
def BTree.set (m : UniqMap) (k : String) (v : TreeVal) : UniqMap :=
  match m with
  | [] => [(k, v)]
  | (k', v') :: rest =>
    if k == k' then (k', v) :: rest
    else if strLt k k' then (k, v) :: (k', v') :: rest
    else (k', v') :: BTree.set rest k v

/-- `Tree.Put` of the `modernc.org/b` B-tree under the default comparison.
The updater receives `some old` when the key exists and `none` otherwise; it
returns `some new` to write and `none` to leave the tree unchanged. -/
def BTree.put (m : UniqMap) (k : String) (upd : Option TreeVal → Option TreeVal) : UniqMap :=
  match m with
  | [] =>
    match upd none with
    | some v => [(k, v)]
    | none => []
  | (k', v') :: rest =>
    if k == k' then
      match upd (some v') with
      | some v => (k', v) :: rest
      | none => (k', v') :: rest
    else if strLt k k' then
      match upd none with
      | some v => (k, v) :: (k', v') :: rest
      | none => (k', v') :: rest
    else (k', v') :: BTree.put rest k upd

/-- `Tree.Seek` of the B-tree: an enumerator positioned at the first key
greater than or equal to `k`, modelled as the corresponding suffix of the
sorted association list. -/
def BTree.seekTail (m : UniqMap) (k : String) : UniqMap :=
  m.dropWhile (fun p => strLt p.1 k)

/-- Point lookup in the ordered key map (used to state properties). -/
def BTree.get : UniqMap → String → Option TreeVal
  | [], _ => none
  | (k', v') :: rest, k => if k == k' then some v' else BTree.get rest k

/-- `slog.TimeKey`. -/
def TimeKey : String := "time"

/-- `slog.LevelKey`. -/
def LevelKey : String := "level"

/-- `slog.MessageKey`. -/
def MessageKey : String := "msg"

/-- `slog.SourceKey`. -/
def SourceKey : String := "source"

/-- `DoesBuiltinKeyConflict` (src/helpers.go): whether the key conflicts with
the four built-in record keys. -/
def DoesBuiltinKeyConflict (key : String) : Bool :=
  key == TimeKey || key == LevelKey || key == MessageKey || key == SourceKey

/-- Zero-padded two-digit rendering `fmt.Sprintf("%02d", n)` of a natural
number. -/
def pad2 (n : Nat) : String :=
  if n < 10 then "0" ++ toString n else toString n

/-- `IncrementKeyName` (src/helpers.go): adds a count onto the key name after
the first seen, as in `keyname, keyname#01, keyname#02`. -/
def IncrementKeyName (key : String) (index : Nat) : String :=
  if index = 0 then key else key ++ "#" ++ pad2 index

/-- `IncrementIfBuiltinKeyConflict` (src/helpers.go): the one-argument
builtin-conflict resolver of the earlier generation, wrapped by
`getKeyClosure`. -/
def IncrementIfBuiltinKeyConflict (key : String) : String × Bool :=
  if DoesBuiltinKeyConflict key then (IncrementKeyName key 1, true) else (key, true)

/-- `getKeyClosure` (src/helpers.go): applies the builtin-conflict resolver at
depth 0 only. -/
def getKeyClosure (resolveBuiltinKeyConflict : String → String × Bool) :
    String → Nat → String × Bool :=
  fun key depth => if depth = 0 then resolveBuiltinKeyConflict key else (key, true)

/-- A `ResolveKey` function as taken by the handler options: groups path,
original key, occurrence index; returns the resolved key and whether to keep
the attribute. -/
abbrev ResolveKeyFn := List String → String → Nat → String × Bool

/-- Modelled from the spec: the default `ResolveKey` wired in by
`NewOverwriteHandler`, `NewIgnoreHandler`, `NewIncrementHandler` and
`NewAppendHandler`. The three-argument form of `IncrementIfBuiltinKeyConflict`
used by the current `slogdedup` generation is not among the provided sources
(src/helpers.go holds only the earlier one-argument form shown above). Per the
spec: the default transform leaves the key unchanged at index 0 and otherwise
appends a `#`-separated zero-padded two-digit index, and, at groups-path-empty
only, a key textually equal to one of the four reserved names starts at index
1 instead of 0. -/
def defaultResolveKey (groups : List String) (key : String) (index : Nat) : String × Bool :=
  if groups = [] && DoesBuiltinKeyConflict key then (IncrementKeyName key (index + 1), true)
  else (IncrementKeyName key index, true)

/-- `resolveIncrementKeyClosure` (src/increment_handler.go): the inner probe
loop over the enumerator returned by `Tree.Seek`. Each `en.Next()` step is one
element of the remaining suffix. -/
def resolveIncrementKeyLoop (resolveKey : ResolveKeyFn) (groups : List String) (key : String) :
    UniqMap → Nat → String × Bool → String × Bool
  | [], _, cand => cand
  | (k, _) :: rest, index, cand =>
    if strLt cand.1 k then cand
    else if k == cand.1 then
      resolveIncrementKeyLoop resolveKey groups key rest (index + 1) (resolveKey groups key (index + 1))
    else resolveIncrementKeyLoop resolveKey groups key rest index cand

/-- `resolveIncrementKeyClosure` (src/increment_handler.go): resolve a key for
the `IncrementHandler` by seeking to the first key at least the candidate and
probing forward until a free candidate is found. -/
def resolveIncrementKey (resolveKey : ResolveKeyFn) (uniq : UniqMap) (groups : List String)
    (key : String) : String × Bool :=
  let cand := resolveKey groups key 0
  resolveIncrementKeyLoop resolveKey groups key (BTree.seekTail uniq cand.1) 0 cand

/-- `groupOrAttrs` (src/helpers.go): one link of the handler's chain, holding
either a group name or a list of attributes. The backward-linked chain is
modelled as a newest-first list. -/
structure groupOrAttrs where
  group : String
  attrs : List Attr

/-- `groupOrAttrs.WithGroup` (src/helpers.go) on the newest-first chain. -/
def groupOrAttrs.withGroupChain (g : List groupOrAttrs) (name : String) : List groupOrAttrs :=
  if name = "" then g else { group := name, attrs := [] } :: g

/-- `groupOrAttrs.WithAttrs` (src/helpers.go) on the newest-first chain. -/
def groupOrAttrs.withAttrsChain (g : List groupOrAttrs) (attrs : List Attr) : List groupOrAttrs :=
  if attrs.isEmpty then g else { group := "", attrs := attrs } :: g

/-- `collectGroupOrAttrs` (src/helpers.go): unroll the newest-first chains
into a single oldest-to-newest sequence. -/
def collectGroupOrAttrs (gs : List (List groupOrAttrs)) : List groupOrAttrs :=
  (gs.map List.reverse).flatten

/-- `OverwriteHandler.resolveValues` (src/overwrite_handler.go lines 158-192):
iterate through the attributes, resolving them and putting them into the map,
overwriting keys as it goes. Group-valued attributes with empty resolved keys
are inlined; non-empty groups become subtrees, attached only when
non-empty. -/
def OverwriteHandler.resolveValues (rk : ResolveKeyFn) (uniq : UniqMap) (attrs : List Attr)
    (groups : List String) : UniqMap :=
  match attrs with
  | [] => uniq
  | a :: rest =>
    if (Attr.mk a.key a.value.resolve).isEmpty then
      OverwriteHandler.resolveValues rk uniq rest groups
    else
      let r := rk groups a.key 0
      if !r.2 then
        OverwriteHandler.resolveValues rk uniq rest groups
      else
        match hv : a.value.resolve with
        | .group gAttrs =>
          if r.1 = "" then
            OverwriteHandler.resolveValues rk
              (OverwriteHandler.resolveValues rk uniq gAttrs groups) rest groups
          else
            let uniqGroup := OverwriteHandler.resolveValues rk [] gAttrs (groups ++ [r.1])
            if 0 < uniqGroup.length then
              OverwriteHandler.resolveValues rk (BTree.set uniq r.1 (.tree uniqGroup)) rest groups
            else
              OverwriteHandler.resolveValues rk uniq rest groups
        | v =>
          OverwriteHandler.resolveValues rk (BTree.set uniq r.1 (.attr (.mk r.1 v))) rest groups
  termination_by sizeOf attrs
  decreasing_by
    all_goals simp_wf
    all_goals try omega
    all_goals (simp only [Value.resolve] at hv; cases a; simp_all [Attr.value]; omega)

/-- `OverwriteHandler.createAttrTree` (src/overwrite_handler.go lines 132-153):
recursively go through all `groupOrAttrs`; a kept named group becomes a
subtree holding everything after it, attached only when non-empty; otherwise
the attributes are resolved into the current map and the remaining sequence is
processed at the same level. -/
def OverwriteHandler.createAttrTree (rk : ResolveKeyFn) (uniq : UniqMap)
    (goas : List groupOrAttrs) (groups : List String) : UniqMap :=
  match goas with
  | [] => uniq
  | g :: rest =>
    let r := rk groups g.group 0
    if g.group != "" && r.2 then
      let uniqGroup := OverwriteHandler.createAttrTree rk [] rest (groups ++ [r.1])
      if 0 < uniqGroup.length then BTree.set uniq r.1 (.tree uniqGroup) else uniq
    else
      OverwriteHandler.createAttrTree rk
        (OverwriteHandler.resolveValues rk uniq g.attrs groups) rest groups

/-- The `Put` updater used by `IgnoreHandler` (src/ignore_handler.go): keep the
old value if the key exists, insert otherwise. -/
def IgnoreHandler.putIfAbsent (uniq : UniqMap) (key : String) (v : TreeVal) : UniqMap :=
  BTree.put uniq key (fun oldValue =>
    match oldValue with
    | some _ => none
    | none => some v)

/-- `IgnoreHandler.resolveValues` (src/ignore_handler.go lines 165-209): like
the overwrite variant but ignoring keys that already exist. -/
def IgnoreHandler.resolveValues (rk : ResolveKeyFn) (uniq : UniqMap) (attrs : List Attr)
    (groups : List String) : UniqMap :=
  match attrs with
  | [] => uniq
  | a :: rest =>
    if (Attr.mk a.key a.value.resolve).isEmpty then
      IgnoreHandler.resolveValues rk uniq rest groups
    else
      let r := rk groups a.key 0
      if !r.2 then
        IgnoreHandler.resolveValues rk uniq rest groups
      else
        match hv : a.value.resolve with
        | .group gAttrs =>
          if r.1 = "" then
            IgnoreHandler.resolveValues rk
              (IgnoreHandler.resolveValues rk uniq gAttrs groups) rest groups
          else
            let uniqGroup := IgnoreHandler.resolveValues rk [] gAttrs (groups ++ [r.1])
            if 0 < uniqGroup.length then
              IgnoreHandler.resolveValues rk
                (IgnoreHandler.putIfAbsent uniq r.1 (.tree uniqGroup)) rest groups
            else
              IgnoreHandler.resolveValues rk uniq rest groups
        | v =>
          IgnoreHandler.resolveValues rk
            (IgnoreHandler.putIfAbsent uniq r.1 (.attr (.mk r.1 v))) rest groups
  termination_by sizeOf attrs
  decreasing_by
    all_goals simp_wf
    all_goals try omega
    all_goals (simp only [Value.resolve] at hv; cases a; simp_all [Attr.value]; omega)

/-- `IgnoreHandler.createAttrTree` (src/ignore_handler.go lines 132-160). -/
def IgnoreHandler.createAttrTree (rk : ResolveKeyFn) (uniq : UniqMap)
    (goas : List groupOrAttrs) (groups : List String) : UniqMap :=
  match goas with
  | [] => uniq
  | g :: rest =>
    let r := rk groups g.group 0
    if g.group != "" && r.2 then
      let uniqGroup := IgnoreHandler.createAttrTree rk [] rest (groups ++ [r.1])
      if 0 < uniqGroup.length then IgnoreHandler.putIfAbsent uniq r.1 (.tree uniqGroup) else uniq
    else
      IgnoreHandler.createAttrTree rk
        (IgnoreHandler.resolveValues rk uniq g.attrs groups) rest groups

/-- `IncrementHandler.resolveValues` (src/increment_handler.go lines 158-192):
like the overwrite variant but resolving each key against the current map via
the seek-based probe. -/
def IncrementHandler.resolveValues (rk : ResolveKeyFn) (uniq : UniqMap) (attrs : List Attr)
    (groups : List String) : UniqMap :=
  match attrs with
  | [] => uniq
  | a :: rest =>
    if (Attr.mk a.key a.value.resolve).isEmpty then
      IncrementHandler.resolveValues rk uniq rest groups
    else
      let r := resolveIncrementKey rk uniq groups a.key
      if !r.2 then
        IncrementHandler.resolveValues rk uniq rest groups
      else
        match hv : a.value.resolve with
        | .group gAttrs =>
          if r.1 = "" then
            IncrementHandler.resolveValues rk
              (IncrementHandler.resolveValues rk uniq gAttrs groups) rest groups
          else
            let uniqGroup := IncrementHandler.resolveValues rk [] gAttrs (groups ++ [r.1])
            if 0 < uniqGroup.length then
              IncrementHandler.resolveValues rk (BTree.set uniq r.1 (.tree uniqGroup)) rest groups
            else
              IncrementHandler.resolveValues rk uniq rest groups
        | v =>
          IncrementHandler.resolveValues rk (BTree.set uniq r.1 (.attr (.mk r.1 v))) rest groups
  termination_by sizeOf attrs
  decreasing_by
    all_goals simp_wf
    all_goals try omega
    all_goals (simp only [Value.resolve] at hv; cases a; simp_all [Attr.value]; omega)

/-- `IncrementHandler.createAttrTree` (src/increment_handler.go lines
132-153). -/
def IncrementHandler.createAttrTree (rk : ResolveKeyFn) (uniq : UniqMap)
    (goas : List groupOrAttrs) (groups : List String) : UniqMap :=
  match goas with
  | [] => uniq
  | g :: rest =>
    let r := resolveIncrementKey rk uniq groups g.group
    if g.group != "" && r.2 then
      let uniqGroup := IncrementHandler.createAttrTree rk [] rest (groups ++ [r.1])
      if 0 < uniqGroup.length then BTree.set uniq r.1 (.tree uniqGroup) else uniq
    else
      IncrementHandler.createAttrTree rk
        (IncrementHandler.resolveValues rk uniq g.attrs groups) rest groups

/-- The value written by the `AppendHandler` `Put` updater: wrap an existing
value together with the new one in an `appended` slice, extend an existing
`appended` slice, or store the new value when the key is fresh. -/
def appendCombine (oldValue : Option TreeVal) (v : TreeVal) : TreeVal :=
  match oldValue with
  | none => v
  | some (.appended slice) => .appended (slice ++ [v])
  | some old => .appended [old, v]

/-- The `Put` updater used by `AppendHandler` (src/helpers.go, the
`AppendHandler` part): it always writes, storing `appendCombine` of the old
value. -/
def AppendHandler.putAppend (uniq : UniqMap) (key : String) (v : TreeVal) : UniqMap :=
  BTree.put uniq key (fun oldValue => some (appendCombine oldValue v))

/-- `AppendHandler.resolveValues` (src/helpers.go lines 371-423 of the
`AppendHandler` part): like the overwrite variant but accumulating duplicate
keys into `appended` slices. -/
def AppendHandler.resolveValues (rk : ResolveKeyFn) (uniq : UniqMap) (attrs : List Attr)
    (groups : List String) : UniqMap :=
  match attrs with
  | [] => uniq
  | a :: rest =>
    if (Attr.mk a.key a.value.resolve).isEmpty then
      AppendHandler.resolveValues rk uniq rest groups
    else
      let r := rk groups a.key 0
      if !r.2 then
        AppendHandler.resolveValues rk uniq rest groups
      else
        match hv : a.value.resolve with
        | .group gAttrs =>
          if r.1 = "" then
            AppendHandler.resolveValues rk
              (AppendHandler.resolveValues rk uniq gAttrs groups) rest groups
          else
            let uniqGroup := AppendHandler.resolveValues rk [] gAttrs (groups ++ [r.1])
            if 0 < uniqGroup.length then
              AppendHandler.resolveValues rk
                (AppendHandler.putAppend uniq r.1 (.tree uniqGroup)) rest groups
            else
              AppendHandler.resolveValues rk uniq rest groups
        | v =>
          AppendHandler.resolveValues rk
            (AppendHandler.putAppend uniq r.1 (.attr (.mk r.1 v))) rest groups
  termination_by sizeOf attrs
  decreasing_by
    all_goals simp_wf
    all_goals try omega
    all_goals (simp only [Value.resolve] at hv; cases a; simp_all [Attr.value]; omega)

/-- `AppendHandler.createAttrTree` (src/helpers.go lines 333-365 of the
`AppendHandler` part). -/
def AppendHandler.createAttrTree (rk : ResolveKeyFn) (uniq : UniqMap)
    (goas : List groupOrAttrs) (groups : List String) : UniqMap :=
  match goas with
  | [] => uniq
  | g :: rest =>
    let r := rk groups g.group 0
    if g.group != "" && r.2 then
      let uniqGroup := AppendHandler.createAttrTree rk [] rest (groups ++ [r.1])
      if 0 < uniqGroup.length then AppendHandler.putAppend uniq r.1 (.tree uniqGroup) else uniq
    else
      AppendHandler.createAttrTree rk
        (AppendHandler.resolveValues rk uniq g.attrs groups) rest groups

/-- `buildGroupMap` (src/helpers.go): turn the attributes within a group into
a string-keyed map of resolved values, recursing into nested groups. Go's
`map[string]any` is modelled as an association list in iteration order. -/
def buildGroupMap : List Attr → List (String × Value)
  | [] => []
  | .mk key (.group g) :: rest => (key, Value.map (buildGroupMap g)) :: buildGroupMap rest
  | .mk key v :: rest => (key, v) :: buildGroupMap rest
  termination_by attrs => sizeOf attrs

mutual
/-- `buildAttrs` (src/helpers.go lines 97-134): convert the deduplicated map
back into an attribute array, with subtrees converted into groups and
`appended` slices into slice-valued attributes. `none` models the
`panic("unexpected type in attribute map")` branches; in this embedding the
only ill-shaped value is an `appended` slice nested inside another. -/
def buildAttrs : UniqMap → Option (List Attr)
  | [] => some []
  | (k, v) :: rest =>
    match v with
    | .attr a => (buildAttrs rest).map (fun as => a :: as)
    | .tree t =>
      (buildAttrs t).bind fun sub =>
        (buildAttrs rest).map (fun as => Attr.mk k (.group sub) :: as)
    | .appended vs =>
      (buildAppendedAnys vs).bind fun anys =>
        (buildAttrs rest).map (fun as => Attr.mk k (.list anys) :: as)
  termination_by m => sizeOf m

/-- The inner loop of `buildAttrs` over an `appended` slice: attribute values
are emitted as-is (`sliceV.Value.Any()`), subtrees are converted to maps via
`buildGroupMap`, and anything else panics (`none`). -/
def buildAppendedAnys : List TreeVal → Option (List Value)
  | [] => some []
  | .attr a :: rest => (buildAppendedAnys rest).map (fun vs => a.value :: vs)
  | .tree t :: rest =>
    (buildAttrs t).bind fun sub =>
      (buildAppendedAnys rest).map (fun vs => Value.map (buildGroupMap sub) :: vs)
  | .appended _ :: _ => none
  termination_by vs => sizeOf vs
end

/-- The parts of an `slog.Record` relevant to the middleware: timestamp,
level, message, program counter of the call site, and the flat attribute
list added at the log call. -/
structure Record where
  time : Int
  level : Int
  message : String
  pc : Nat
  attrs : List Attr

/-- `OverwriteHandler.Handle` (src/overwrite_handler.go lines 88-113): collect
the record's attributes as a final batch, build the deduplicated tree, copy
the record's time, level, message and program counter onto a fresh record
carrying the deduplicated attributes, and pass it to the next handler. `next`
is the downstream `h.next.Handle` call; `none` models a panic while
reconstructing the attributes. -/
def OverwriteHandler.Handle {E : Type} (rk : ResolveKeyFn) (goa : List groupOrAttrs)
    (next : Record → E) (r : Record) : Option E :=
  let goas := collectGroupOrAttrs [goa, [{ group := "", attrs := r.attrs }]]
  let uniq := OverwriteHandler.createAttrTree rk [] goas []
  (buildAttrs uniq).map fun newAttrs =>
    next { time := r.time, level := r.level, message := r.message, pc := r.pc,
           attrs := newAttrs }

/-- `IgnoreHandler.Handle` (src/ignore_handler.go lines 88-113). -/
def IgnoreHandler.Handle {E : Type} (rk : ResolveKeyFn) (goa : List groupOrAttrs)
    (next : Record → E) (r : Record) : Option E :=
  let goas := collectGroupOrAttrs [goa, [{ group := "", attrs := r.attrs }]]
  let uniq := IgnoreHandler.createAttrTree rk [] goas []
  (buildAttrs uniq).map fun newAttrs =>
    next { time := r.time, level := r.level, message := r.message, pc := r.pc,
           attrs := newAttrs }

/-- `IncrementHandler.Handle` (src/increment_handler.go lines 88-113). -/
def IncrementHandler.Handle {E : Type} (rk : ResolveKeyFn) (goa : List groupOrAttrs)
    (next : Record → E) (r : Record) : Option E :=
  let goas := collectGroupOrAttrs [goa, [{ group := "", attrs := r.attrs }]]
  let uniq := IncrementHandler.createAttrTree rk [] goas []
  (buildAttrs uniq).map fun newAttrs =>
    next { time := r.time, level := r.level, message := r.message, pc := r.pc,
           attrs := newAttrs }

/-- `AppendHandler.Handle` (src/helpers.go lines 289-314 of the
`AppendHandler` part). -/
def AppendHandler.Handle {E : Type} (rk : ResolveKeyFn) (goa : List groupOrAttrs)
    (next : Record → E) (r : Record) : Option E :=
  let goas := collectGroupOrAttrs [goa, [{ group := "", attrs := r.attrs }]]
  let uniq := AppendHandler.createAttrTree rk [] goas []
  (buildAttrs uniq).map fun newAttrs =>
    next { time := r.time, level := r.level, message := r.message, pc := r.pc,
           attrs := newAttrs }

/-- The keys of an ordered key map, in iteration order. -/
def mapKeys (m : UniqMap) : List String := m.map Prod.fst

/-- Sorted association list: every key strictly precedes all later keys in the
default comparison order. This is the B-tree representation invariant. -/
abbrev SortedMap (m : UniqMap) : Prop := List.Pairwise (fun p q => strLt p.1 q.1 = true) m

/-- An attribute whose value is not a group: it is stored directly in the map
level being built rather than becoming a subtree. -/
def Attr.isFlat (a : Attr) : Bool := !a.value.isGroup

/-- Specification-side helper (for the per-level claims): the sequence of
resolved occurrences of a flat attribute batch, in input order: values are
resolved, empty-attribute sentinels and not-kept attributes are dropped, and
each key is rewritten to its resolved key at index 0. -/
def specResolvedAttrs (rk : ResolveKeyFn) (groups : List String) (attrs : List Attr) :
    List Attr :=
  attrs.filterMap fun a =>
    if (Attr.mk a.key a.value.resolve).isEmpty then none
    else
      let r := rk groups a.key 0
      if r.2 then some (Attr.mk r.1 a.value.resolve) else none

/-- Specification-side helper (for the Ignore claim): the distinct resolved
keys in order of first occurrence. -/
def specDistinctKeysFirstOccurrence (rk : ResolveKeyFn) (groups : List String)
    (attrs : List Attr) : List String :=
  ((specResolvedAttrs rk groups attrs).map Attr.key).eraseDups

/-- Specification-side helper (for the Increment claim): pair each occurrence
with the key the claim assigns it, `IncrementKeyName k c` where `c` counts the
earlier occurrences of the same original key. -/
def specIncrementAssign : List Attr → (String → Nat) → List (String × Attr)
  | [], _ => []
  | a :: rest, cnt =>
    (IncrementKeyName a.key (cnt a.key), a) ::
      specIncrementAssign rest (fun k => if k = a.key then cnt k + 1 else cnt k)

mutual
/-- Shape invariant of stored values matching the type switches of
`buildAttrs`: attributes, subtrees, and `appended` slices whose elements are
attributes or subtrees (never nested `appended` slices). -/
def wfShapeVal : TreeVal → Bool
  | .attr _ => true
  | .tree t => wfShapeMap t
  | .appended vs => wfShapeElems vs
  termination_by v => sizeOf v

/-- Shape invariant for the elements of an `appended` slice. -/
def wfShapeElems : List TreeVal → Bool
  | [] => true
  | .attr _ :: rest => wfShapeElems rest
  | .tree t :: rest => wfShapeMap t && wfShapeElems rest
  | .appended _ :: _ => false
  termination_by vs => sizeOf vs

/-- Shape invariant over all values of a map, recursively. -/
def wfShapeMap : List (String × TreeVal) → Bool
  | [] => true
  | (_, v) :: rest => wfShapeVal v && wfShapeMap rest
  termination_by m => sizeOf m
end

/-- All entries of the remainder of a map have keys strictly greater
than `k`. -/
def keyLtAllB (k : String) : List (String × TreeVal) → Bool
  | [] => true
  | (k', _) :: rest => strLt k k' && keyLtAllB k rest

mutual
/-- Invariant of the maps produced by the Overwrite, Ignore and Increment
handlers under the default key resolution: a value stored under key `k` is
either an attribute whose own key is `k`, with a non-group value, not equal to
the empty-attribute sentinel, or a non-empty well-formed subtree stored under
a non-empty key; at the root level no key collides with the four builtin
keys. -/
def wfDedupVal (root : Bool) (k : String) : TreeVal → Bool
  | .attr (.mk ak av) =>
    ak == k && !av.isGroup && !(Attr.mk ak av).isEmpty && !(root && DoesBuiltinKeyConflict k)
  | .tree t =>
    !(k == "") && !(root && DoesBuiltinKeyConflict k) && !t.isEmpty && wfDedupMap false t
  | .appended _ => false
  termination_by v => sizeOf v

/-- Map-level form of `wfDedupVal`, including strict key sortedness. -/
def wfDedupMap (root : Bool) : List (String × TreeVal) → Bool
  | [] => true
  | (k, v) :: rest => wfDedupVal root k v && keyLtAllB k rest && wfDedupMap root rest
  termination_by m => sizeOf m
end

/-- Total specification-side mirror of `buildAttrs` on well-shaped maps
(`appended` entries, which the three non-append handlers never store, are
skipped). -/
def attrsOfMap : List (String × TreeVal) → List Attr
  | [] => []
  | (_, .attr a) :: rest => a :: attrsOfMap rest
  | (k, .tree t) :: rest => Attr.mk k (.group (attrsOfMap t)) :: attrsOfMap rest
  | (_, .appended _) :: rest => attrsOfMap rest
  termination_by m => sizeOf m

/-- Specification-side helper (for the Append claim): fold the occurrences of
one key through the append combination, starting from the value already under
the key. -/
def appendList : Option TreeVal → List Attr → Option TreeVal
  | o, [] => o
  | o, a :: rest => appendList (some (appendCombine o (.attr a))) rest


/-- A concrete flat attribute batch with a duplicated key, the spec's
`[(a,1),(b,2),(a,3)]` scenario. -/
def exampleAttrs : List Attr :=
  [Attr.mk "a" (.scalar (.str "1")), Attr.mk "b" (.scalar (.str "2")),
   Attr.mk "a" (.scalar (.str "3"))]


/-! ### Order theory for the default key comparison -/

theorem charListLt_irrefl (l : List Char) : charListLt l l = false := by
  induction l with
  | nil => rfl
  | cons a as ih => simp [charListLt, ih]

theorem charListLt_trans : ∀ {a b c : List Char},
    charListLt a b = true → charListLt b c = true → charListLt a c = true
  | [], [], _ :: _, _, _ => rfl
  | [], _ :: _, _ :: _, _, _ => rfl
  | a :: as, b :: bs, c :: cs, hab, hbc => by
    simp only [charListLt, Bool.or_eq_true, decide_eq_true_eq, Bool.and_eq_true,
      beq_iff_eq] at hab hbc ⊢
    rcases hab with h1 | ⟨rfl, h1⟩
    · rcases hbc with h2 | ⟨rfl, h2⟩
      · exact Or.inl (lt_trans h1 h2)
      · exact Or.inl h1
    · rcases hbc with h2 | ⟨rfl, h2⟩
      · exact Or.inl h2
      · exact Or.inr ⟨rfl, charListLt_trans h1 h2⟩

theorem charListLt_asymm : ∀ {a b : List Char},
    charListLt a b = true → charListLt b a = false
  | [], [], h => by simp [charListLt] at h
  | [], _ :: _, _ => rfl
  | _ :: _, [], h => by simp [charListLt] at h
  | a :: as, b :: bs, h => by
    simp only [charListLt, Bool.or_eq_true, decide_eq_true_eq, Bool.and_eq_true,
      beq_iff_eq, Bool.or_eq_false_iff, decide_eq_false_iff_not,
      Bool.and_eq_false_iff] at h ⊢
    rcases h with h1 | ⟨rfl, h1⟩
    · exact ⟨not_lt_of_lt h1, Or.inl (by simp [ne_of_gt h1])⟩
    · exact ⟨lt_irrefl a, Or.inr (charListLt_asymm h1)⟩

theorem charListLt_connex : ∀ {a b : List Char}, a ≠ b →
    charListLt a b = true ∨ charListLt b a = true
  | [], [], h => absurd rfl h
  | [], _ :: _, _ => Or.inl rfl
  | _ :: _, [], _ => Or.inr rfl
  | a :: as, b :: bs, h => by
    simp only [charListLt, Bool.or_eq_true, decide_eq_true_eq, Bool.and_eq_true, beq_iff_eq]
    rcases lt_trichotomy a b with hab | rfl | hab
    · exact Or.inl (Or.inl hab)
    · have : as ≠ bs := fun hh => h (by rw [hh])
      rcases charListLt_connex this with h1 | h1
      · exact Or.inl (Or.inr ⟨rfl, h1⟩)
      · exact Or.inr (Or.inr ⟨rfl, h1⟩)
    · exact Or.inr (Or.inl hab)

theorem strLt_irrefl (s : String) : strLt s s = false := charListLt_irrefl s.data

theorem strLt_trans {a b c : String} (h1 : strLt a b = true) (h2 : strLt b c = true) :
    strLt a c = true := charListLt_trans h1 h2

theorem strLt_asymm {a b : String} (h : strLt a b = true) : strLt b a = false :=
  charListLt_asymm h

theorem strLt_connex {a b : String} (h : a ≠ b) : strLt a b = true ∨ strLt b a = true :=
  charListLt_connex (fun hd => h (String.toList_inj.mp hd))

theorem strLt_ne {a b : String} (h : strLt a b = true) : a ≠ b := by
  rintro rfl
  rw [strLt_irrefl] at h
  exact Bool.false_ne_true h

theorem charListLt_append_self : ∀ (l t : List Char), t ≠ [] → charListLt l (l ++ t) = true
  | [], [], h => absurd rfl h
  | [], c :: t, _ => rfl
  | a :: as, t, h => by
    simp only [List.cons_append, charListLt, Bool.or_eq_true, Bool.and_eq_true, beq_iff_eq]
    exact Or.inr ⟨by simp, charListLt_append_self as t h⟩

theorem charListLt_append_left : ∀ (l t₁ t₂ : List Char),
    charListLt (l ++ t₁) (l ++ t₂) = charListLt t₁ t₂
  | [], _, _ => rfl
  | a :: as, t₁, t₂ => by
    simp only [List.cons_append, charListLt]
    simp [lt_irrefl, charListLt_append_left as t₁ t₂]

theorem strLt_append_right (s t : String) (h : t ≠ "") : strLt s (s ++ t) = true := by
  have hd : t.data ≠ [] := fun hh => h (String.toList_inj.mp hh)
  simpa [strLt, String.data_append] using charListLt_append_self s.data t.data hd

theorem strLt_append_left (s t₁ t₂ : String) : strLt (s ++ t₁) (s ++ t₂) = strLt t₁ t₂ := by
  simpa [strLt, String.data_append] using charListLt_append_left s.data t₁.data t₂.data

set_option maxRecDepth 10000 in
set_option maxHeartbeats 1000000 in
theorem pad2_mono : ∀ i < 100, ∀ j < 100, i < j → strLt (pad2 i) (pad2 j) = true := by decide

theorem hash_append_ne_empty (s : String) : ("#" ++ s) ≠ "" := by
  intro h
  have hd := congrArg String.data h
  simp [String.data_append] at hd

theorem IncrementKeyName_zero (k : String) : IncrementKeyName k 0 = k := rfl

theorem IncrementKeyName_mono (k : String) {i j : Nat} (hij : i < j) (hj : j ≤ 99) :
    strLt (IncrementKeyName k i) (IncrementKeyName k j) = true := by
  have hj0 : j ≠ 0 := by omega
  rcases Nat.eq_zero_or_pos i with rfl | hi
  · rw [IncrementKeyName, IncrementKeyName, if_pos rfl, if_neg hj0, String.append_assoc]
    exact strLt_append_right k _ (hash_append_ne_empty _)
  · rw [IncrementKeyName, IncrementKeyName, if_neg (by omega : i ≠ 0), if_neg hj0,
      String.append_assoc, String.append_assoc, strLt_append_left]
    have h2 : ("#" ++ pad2 i) = "#" ++ pad2 i := rfl
    rw [strLt_append_left]
    exact pad2_mono i (by omega) j (by omega) hij

theorem mem_hash_IncrementKeyName (k : String) {i : Nat} (h : i ≠ 0) :
    '#' ∈ (IncrementKeyName k i).data := by
  rw [IncrementKeyName, if_neg h]
  simp [String.data_append]

theorem beq_eq_false_of_hash {s b : String} (hs : '#' ∈ s.data) (hb : '#' ∉ b.data) :
    (s == b) = false := by
  simp only [beq_eq_false_iff_ne, ne_eq]
  rintro rfl
  exact hb hs

theorem DoesBuiltinKeyConflict_IncrementKeyName_succ (k : String) (i : Nat) :
    DoesBuiltinKeyConflict (IncrementKeyName k (i + 1)) = false := by
  have hmem := mem_hash_IncrementKeyName k (Nat.succ_ne_zero i)
  have h1 : (IncrementKeyName k (i + 1) == "time") = false :=
    beq_eq_false_of_hash hmem (by decide)
  have h2 : (IncrementKeyName k (i + 1) == "level") = false :=
    beq_eq_false_of_hash hmem (by decide)
  have h3 : (IncrementKeyName k (i + 1) == "msg") = false :=
    beq_eq_false_of_hash hmem (by decide)
  have h4 : (IncrementKeyName k (i + 1) == "source") = false :=
    beq_eq_false_of_hash hmem (by decide)
  simp [DoesBuiltinKeyConflict, TimeKey, LevelKey, MessageKey, SourceKey, h1, h2, h3, h4]

theorem IncrementKeyName_succ_ne_empty (k : String) (i : Nat) :
    IncrementKeyName k (i + 1) ≠ "" := by
  intro h
  have := mem_hash_IncrementKeyName k (Nat.succ_ne_zero i)
  rw [h] at this
  simp at this


/-! ### Ordered key map lemmas -/

theorem BTree.get_eq_none_iff (m : UniqMap) (k : String) :
    BTree.get m k = none ↔ k ∉ mapKeys m := by
  induction m with
  | nil => simp [BTree.get, mapKeys]
  | cons p rest ih =>
    obtain ⟨k', v'⟩ := p
    by_cases h : k = k'
    · simp [BTree.get, mapKeys, h]
    · simp [BTree.get, mapKeys, h, ih]

theorem BTree.get_isSome_iff (m : UniqMap) (k : String) :
    (BTree.get m k).isSome = true ↔ k ∈ mapKeys m := by
  rw [Option.isSome_iff_ne_none, ne_eq, BTree.get_eq_none_iff, not_not]

theorem BTree.get_set (m : UniqMap) (k : String) (v : TreeVal) (k2 : String) :
    BTree.get (BTree.set m k v) k2 = if k2 = k then some v else BTree.get m k2 := by
  induction m with
  | nil => by_cases h : k2 = k <;> simp [BTree.set, BTree.get, h]
  | cons p rest ih =>
    obtain ⟨k', v'⟩ := p
    by_cases h1 : k = k'
    · subst h1
      by_cases h : k2 = k <;> simp [BTree.set, BTree.get, h]
    · by_cases h2 : strLt k k' = true
      · have hset : BTree.set ((k', v') :: rest) k v = (k, v) :: (k', v') :: rest := by
          simp [BTree.set, h1, h2]
        rw [hset]
        by_cases h : k2 = k <;> simp [BTree.get, h]
      · have hset : BTree.set ((k', v') :: rest) k v = (k', v') :: BTree.set rest k v := by
          simp [BTree.set, h1, h2]
        rw [hset]
        by_cases h3 : k2 = k'
        · have hk : ¬ k2 = k := fun hh => h1 (hh ▸ h3)
          simp [BTree.get, h3, hk, Ne.symm h1]
        · simp [BTree.get, h3, ih]

theorem BTree.mem_keys_set (m : UniqMap) (k : String) (v : TreeVal) (k2 : String) :
    k2 ∈ mapKeys (BTree.set m k v) ↔ k2 = k ∨ k2 ∈ mapKeys m := by
  rw [← BTree.get_isSome_iff, BTree.get_set]
  by_cases h : k2 = k <;> simp [h, BTree.get_isSome_iff]

theorem strLt_of_connex_not {a b : String} (h1 : ¬ a = b) (h2 : ¬ strLt a b = true) :
    strLt b a = true := by
  rcases strLt_connex h1 with h | h
  · exact absurd h h2
  · exact h

theorem BTree.sorted_set (m : UniqMap) (k : String) (v : TreeVal) (h : SortedMap m) :
    SortedMap (BTree.set m k v) := by
  induction m with
  | nil => simp [BTree.set, SortedMap]
  | cons p rest ih =>
    obtain ⟨k', v'⟩ := p
    simp only [SortedMap, List.pairwise_cons] at h
    obtain ⟨hall, hrest⟩ := h
    by_cases h1 : k = k'
    · subst h1
      have hset : BTree.set ((k, v') :: rest) k v = (k, v) :: rest := by
        simp [BTree.set]
      rw [hset]
      exact List.Pairwise.cons hall hrest
    · by_cases h2 : strLt k k' = true
      · have hset : BTree.set ((k', v') :: rest) k v = (k, v) :: (k', v') :: rest := by
          simp [BTree.set, h1, h2]
        rw [hset]
        refine List.Pairwise.cons ?_ (List.Pairwise.cons hall hrest)
        intro q hq
        rcases List.mem_cons.mp hq with rfl | hq2
        · exact h2
        · exact strLt_trans h2 (hall q hq2)
      · have hset : BTree.set ((k', v') :: rest) k v = (k', v') :: BTree.set rest k v := by
          simp [BTree.set, h1, h2]
        rw [hset]
        refine List.Pairwise.cons ?_ (ih hrest)
        intro q hq
        have hqk : q.1 ∈ mapKeys (BTree.set rest k v) := List.mem_map_of_mem Prod.fst hq
        rcases (BTree.mem_keys_set rest k v q.1).mp hqk with hq1 | hq1
        · rw [hq1]
          show strLt k' k = true
          exact strLt_of_connex_not h1 h2
        · obtain ⟨q', hq', hq'1⟩ := List.mem_map.mp hq1
          exact hq'1 ▸ hall q' hq'

theorem BTree.set_append (m : UniqMap) (k : String) (v : TreeVal)
    (h : ∀ p ∈ m, strLt p.1 k = true) : BTree.set m k v = m ++ [(k, v)] := by
  induction m with
  | nil => simp [BTree.set]
  | cons p rest ih =>
    obtain ⟨k', v'⟩ := p
    have hk' : strLt k' k = true := h _ (List.mem_cons_self _ _)
    have h1 : ¬ k = k' := fun hh => strLt_ne hk' hh.symm
    have h2 : strLt k k' = false := strLt_asymm hk'
    simp only [BTree.set, beq_iff_eq, h1, if_false, h2, Bool.false_eq_true, List.cons_append,
      List.cons.injEq, true_and]
    exact ih (fun p hp => h p (List.mem_cons_of_mem _ hp))

theorem BTree.get_eq_none_of_lt (m : UniqMap) (k : String)
    (h : ∀ p ∈ m, strLt k p.1 = true) : BTree.get m k = none := by
  rw [BTree.get_eq_none_iff]
  intro hk
  obtain ⟨p, hp, hpk⟩ := List.mem_map.mp hk
  have := h p hp
  rw [hpk] at this
  rw [strLt_irrefl] at this
  exact Bool.false_ne_true this

theorem IgnoreHandler.get_putIfAbsent (m : UniqMap) (k : String) (v : TreeVal) (k2 : String)
    (hs : SortedMap m) :
    BTree.get (IgnoreHandler.putIfAbsent m k v) k2 =
      if k2 = k then some ((BTree.get m k).getD v) else BTree.get m k2 := by
  induction m with
  | nil => by_cases h : k2 = k <;> simp [putIfAbsent, BTree.put, BTree.get, h]
  | cons p rest ih =>
    obtain ⟨k', v'⟩ := p
    simp only [SortedMap, List.pairwise_cons] at hs
    obtain ⟨hall, hrest⟩ := hs
    by_cases h1 : k = k'
    · subst h1
      have hput : IgnoreHandler.putIfAbsent ((k, v') :: rest) k v = (k, v') :: rest := by
        simp [putIfAbsent, BTree.put]
      rw [hput]
      by_cases h : k2 = k <;> simp [BTree.get, h]
    · by_cases h2 : strLt k k' = true
      · have hput : IgnoreHandler.putIfAbsent ((k', v') :: rest) k v =
            (k, v) :: (k', v') :: rest := by
          simp [putIfAbsent, BTree.put, h1, h2]
        rw [hput]
        have hget : BTree.get ((k', v') :: rest) k = none := by
          apply BTree.get_eq_none_of_lt
          intro p hp
          rcases List.mem_cons.mp hp with rfl | hp2
          · exact h2
          · exact strLt_trans h2 (hall p hp2)
        by_cases h : k2 = k
        · subst h
          rw [if_pos rfl, hget]
          simp [BTree.get]
        · rw [if_neg h]
          simp [BTree.get, h]
      · have hput : IgnoreHandler.putIfAbsent ((k', v') :: rest) k v =
            (k', v') :: IgnoreHandler.putIfAbsent rest k v := by
          simp [putIfAbsent, BTree.put, h1, h2]
        rw [hput]
        by_cases h3 : k2 = k'
        · subst h3
          have hk : ¬ k2 = k := fun hh => h1 (hh ▸ rfl)
          simp [BTree.get, hk, h1, Ne.symm h1]
        · simp only [BTree.get, beq_iff_eq, h3, if_false, ih hrest]
          by_cases h : k2 = k <;> simp [h, BTree.get, Ne.symm h1, h1]

theorem AppendHandler.get_putAppend (m : UniqMap) (k : String) (v : TreeVal) (k2 : String)
    (hs : SortedMap m) :
    BTree.get (AppendHandler.putAppend m k v) k2 =
      if k2 = k then some (appendCombine (BTree.get m k) v) else BTree.get m k2 := by
  induction m with
  | nil => by_cases h : k2 = k <;> simp [putAppend, BTree.put, BTree.get, h, appendCombine]
  | cons p rest ih =>
    obtain ⟨k', v'⟩ := p
    simp only [SortedMap, List.pairwise_cons] at hs
    obtain ⟨hall, hrest⟩ := hs
    by_cases h1 : k = k'
    · subst h1
      have hput : AppendHandler.putAppend ((k, v') :: rest) k v =
          (k, appendCombine (some v') v) :: rest := by
        simp [putAppend, BTree.put]
      rw [hput]
      by_cases h : k2 = k <;> simp [BTree.get, h]
    · by_cases h2 : strLt k k' = true
      · have hput : AppendHandler.putAppend ((k', v') :: rest) k v =
            (k, v) :: (k', v') :: rest := by
          simp [putAppend, BTree.put, h1, h2, appendCombine]
        rw [hput]
        have hget : BTree.get ((k', v') :: rest) k = none := by
          apply BTree.get_eq_none_of_lt
          intro p hp
          rcases List.mem_cons.mp hp with rfl | hp2
          · exact h2
          · exact strLt_trans h2 (hall p hp2)
        by_cases h : k2 = k
        · subst h
          rw [if_pos rfl, hget]
          simp [BTree.get, appendCombine]
        · rw [if_neg h]
          simp [BTree.get, h]
      · have hput : AppendHandler.putAppend ((k', v') :: rest) k v =
            (k', v') :: AppendHandler.putAppend rest k v := by
          simp [putAppend, BTree.put, h1, h2]
        rw [hput]
        by_cases h3 : k2 = k'
        · subst h3
          have hk : ¬ k2 = k := fun hh => h1 (hh ▸ rfl)
          simp [BTree.get, hk, h1, Ne.symm h1]
        · simp only [BTree.get, beq_iff_eq, h3, if_false, ih hrest]
          by_cases h : k2 = k <;> simp [h, BTree.get, Ne.symm h1, h1]

theorem IgnoreHandler.mem_keys_putIfAbsent (m : UniqMap) (k : String) (v : TreeVal)
    (k2 : String) (hs : SortedMap m) :
    k2 ∈ mapKeys (IgnoreHandler.putIfAbsent m k v) ↔ k2 = k ∨ k2 ∈ mapKeys m := by
  rw [← BTree.get_isSome_iff, IgnoreHandler.get_putIfAbsent m k v k2 hs]
  by_cases h : k2 = k <;> simp [h, BTree.get_isSome_iff]

theorem AppendHandler.mem_keys_putAppend (m : UniqMap) (k : String) (v : TreeVal)
    (k2 : String) (hs : SortedMap m) :
    k2 ∈ mapKeys (AppendHandler.putAppend m k v) ↔ k2 = k ∨ k2 ∈ mapKeys m := by
  rw [← BTree.get_isSome_iff, AppendHandler.get_putAppend m k v k2 hs]
  by_cases h : k2 = k <;> simp [h, BTree.get_isSome_iff]

theorem IgnoreHandler.sorted_putIfAbsent (m : UniqMap) (k : String) (v : TreeVal)
    (h : SortedMap m) : SortedMap (IgnoreHandler.putIfAbsent m k v) := by
  induction m with
  | nil => simp [putIfAbsent, BTree.put, SortedMap]
  | cons p rest ih =>
    obtain ⟨k', v'⟩ := p
    simp only [SortedMap, List.pairwise_cons] at h
    obtain ⟨hall, hrest⟩ := h
    by_cases h1 : k = k'
    · subst h1
      have hput : IgnoreHandler.putIfAbsent ((k, v') :: rest) k v = (k, v') :: rest := by
        simp [putIfAbsent, BTree.put]
      rw [hput]
      exact List.Pairwise.cons hall hrest
    · by_cases h2 : strLt k k' = true
      · have hput : IgnoreHandler.putIfAbsent ((k', v') :: rest) k v =
            (k, v) :: (k', v') :: rest := by
          simp [putIfAbsent, BTree.put, h1, h2]
        rw [hput]
        refine List.Pairwise.cons ?_ (List.Pairwise.cons hall hrest)
        intro q hq
        rcases List.mem_cons.mp hq with rfl | hq2
        · exact h2
        · exact strLt_trans h2 (hall q hq2)
      · have hput : IgnoreHandler.putIfAbsent ((k', v') :: rest) k v =
            (k', v') :: IgnoreHandler.putIfAbsent rest k v := by
          simp [putIfAbsent, BTree.put, h1, h2]
        rw [hput]
        refine List.Pairwise.cons ?_ (ih hrest)
        intro q hq
        have hqk : q.1 ∈ mapKeys (IgnoreHandler.putIfAbsent rest k v) :=
          List.mem_map_of_mem Prod.fst hq
        rcases (IgnoreHandler.mem_keys_putIfAbsent rest k v q.1 hrest).mp hqk with hq1 | hq1
        · rw [hq1]
          show strLt k' k = true
          exact strLt_of_connex_not h1 h2
        · obtain ⟨q', hq', hq'1⟩ := List.mem_map.mp hq1
          exact hq'1 ▸ hall q' hq'

theorem AppendHandler.sorted_putAppend (m : UniqMap) (k : String) (v : TreeVal)
    (h : SortedMap m) : SortedMap (AppendHandler.putAppend m k v) := by
  induction m with
  | nil => simp [putAppend, BTree.put, SortedMap]
  | cons p rest ih =>
    obtain ⟨k', v'⟩ := p
    simp only [SortedMap, List.pairwise_cons] at h
    obtain ⟨hall, hrest⟩ := h
    by_cases h1 : k = k'
    · subst h1
      have hput : AppendHandler.putAppend ((k, v') :: rest) k v =
          (k, appendCombine (some v') v) :: rest := by
        simp [putAppend, BTree.put]
      rw [hput]
      exact List.Pairwise.cons hall hrest
    · by_cases h2 : strLt k k' = true
      · have hput : AppendHandler.putAppend ((k', v') :: rest) k v =
            (k, v) :: (k', v') :: rest := by
          simp [putAppend, BTree.put, h1, h2, appendCombine]
        rw [hput]
        refine List.Pairwise.cons ?_ (List.Pairwise.cons hall hrest)
        intro q hq
        rcases List.mem_cons.mp hq with rfl | hq2
        · exact h2
        · exact strLt_trans h2 (hall q hq2)
      · have hput : AppendHandler.putAppend ((k', v') :: rest) k v =
            (k', v') :: AppendHandler.putAppend rest k v := by
          simp [putAppend, BTree.put, h1, h2]
        rw [hput]
        refine List.Pairwise.cons ?_ (ih hrest)
        intro q hq
        have hqk : q.1 ∈ mapKeys (AppendHandler.putAppend rest k v) :=
          List.mem_map_of_mem Prod.fst hq
        rcases (AppendHandler.mem_keys_putAppend rest k v q.1 hrest).mp hqk with hq1 | hq1
        · rw [hq1]
          show strLt k' k = true
          exact strLt_of_connex_not h1 h2
        · obtain ⟨q', hq', hq'1⟩ := List.mem_map.mp hq1
          exact hq'1 ▸ hall q' hq'

theorem IgnoreHandler.putIfAbsent_append (m : UniqMap) (k : String) (v : TreeVal)
    (h : ∀ p ∈ m, strLt p.1 k = true) :
    IgnoreHandler.putIfAbsent m k v = m ++ [(k, v)] := by
  induction m with
  | nil => simp [putIfAbsent, BTree.put]
  | cons p rest ih =>
    obtain ⟨k', v'⟩ := p
    have hk' : strLt k' k = true := h _ (List.mem_cons_self _ _)
    have h1 : ¬ k = k' := fun hh => strLt_ne hk' hh.symm
    have h2 : strLt k k' = false := strLt_asymm hk'
    simp only [putIfAbsent, BTree.put, beq_iff_eq, h1, if_false, h2, Bool.false_eq_true,
      List.cons_append, List.cons.injEq, true_and]
    exact ih (fun p hp => h p (List.mem_cons_of_mem _ hp))

theorem AppendHandler.putAppend_append (m : UniqMap) (k : String) (v : TreeVal)
    (h : ∀ p ∈ m, strLt p.1 k = true) :
    AppendHandler.putAppend m k v = m ++ [(k, v)] := by
  induction m with
  | nil => simp [putAppend, BTree.put, appendCombine]
  | cons p rest ih =>
    obtain ⟨k', v'⟩ := p
    have hk' : strLt k' k = true := h _ (List.mem_cons_self _ _)
    have h1 : ¬ k = k' := fun hh => strLt_ne hk' hh.symm
    have h2 : strLt k k' = false := strLt_asymm hk'
    simp only [putAppend, BTree.put, beq_iff_eq, h1, if_false, h2, Bool.false_eq_true,
      List.cons_append, List.cons.injEq, true_and]
    exact ih (fun p hp => h p (List.mem_cons_of_mem _ hp))

theorem BTree.mem_seekTail (m : UniqMap) (c : String) (p : String × TreeVal)
    (hp : p ∈ m) (hge : strLt p.1 c = false) : p ∈ BTree.seekTail m c := by
  have hsplit := List.takeWhile_append_dropWhile (p := fun q => strLt q.1 c) (l := m)
  rw [← hsplit] at hp
  rcases List.mem_append.mp hp with h | h
  · have := List.mem_takeWhile_imp h
    rw [hge] at this
    exact absurd this (by simp)
  · exact h

theorem BTree.seekTail_subset (m : UniqMap) (c : String) :
    ∀ p ∈ BTree.seekTail m c, p ∈ m :=
  fun p hp => (List.dropWhile_sublist _).subset hp

theorem BTree.seekTail_sorted (m : UniqMap) (c : String) (hs : SortedMap m) :
    SortedMap (BTree.seekTail m c) :=
  List.Pairwise.sublist (List.dropWhile_sublist _) hs

theorem resolveIncrementKeyLoop_spec (rk : ResolveKeyFn) (groups : List String) (key : String)
    (c : Nat) :
    ∀ (L : UniqMap) (i : Nat),
    SortedMap L →
    (∀ i1 i2, i1 < i2 → i2 ≤ c → strLt (rk groups key i1).1 (rk groups key i2).1 = true) →
    (∀ j, i ≤ j → j < c → (rk groups key j).1 ∈ mapKeys L) →
    (rk groups key c).1 ∉ mapKeys L →
    i ≤ c →
    resolveIncrementKeyLoop rk groups key L i (rk groups key i) = rk groups key c := by
  intro L
  induction L with
  | nil =>
    intro i _ _ hcover hfree hic
    have : i = c := by
      by_contra hne
      have hlt : i < c := lt_of_le_of_ne hic hne
      simpa [mapKeys] using hcover i le_rfl hlt
    subst this
    rfl
  | cons p rest ih =>
    intro i hs hmono hcover hfree hic
    obtain ⟨k0, v0⟩ := p
    simp only [SortedMap, List.pairwise_cons] at hs
    obtain ⟨hall, hrest⟩ := hs
    rw [resolveIncrementKeyLoop]
    by_cases hlt : strLt (rk groups key i).1 k0 = true
    · rw [if_pos hlt]
      have : i = c := by
        by_contra hne
        have hltc : i < c := lt_of_le_of_ne hic hne
        have hmem := hcover i le_rfl hltc
        simp only [mapKeys, List.map_cons, List.mem_cons] at hmem
        rcases hmem with hmem | hmem
        · rw [hmem] at hlt
          rw [strLt_irrefl] at hlt
          exact Bool.false_ne_true hlt
        · obtain ⟨q, hq, hqk⟩ := List.mem_map.mp hmem
          have h1 : strLt k0 q.1 = true := hall q hq
          rw [hqk] at h1
          have h2 : strLt (rk groups key i).1 (rk groups key i).1 = true := strLt_trans hlt h1
          rw [strLt_irrefl] at h2
          exact Bool.false_ne_true h2
      subst this
      rfl
    · rw [if_neg hlt]
      by_cases heq : k0 = (rk groups key i).1
      · rw [if_pos (by simpa using heq)]
        have hiltc : i < c := by
          by_contra hne
          have : i = c := le_antisymm hic (not_lt.mp hne)
          subst this
          apply hfree
          simp only [mapKeys, List.map_cons, List.mem_cons]
          exact Or.inl heq.symm
        apply ih (i + 1) hrest hmono ?_ ?_ hiltc
        · intro j hj1 hj2
          have hmem := hcover j (by omega) hj2
          simp only [mapKeys, List.map_cons, List.mem_cons] at hmem ⊢
          rcases hmem with hmem | hmem
          · exfalso
            have hne : (rk groups key i).1 ≠ (rk groups key j).1 :=
              strLt_ne (hmono i j (by omega) (by omega))
            rw [← heq] at hne
            exact hne hmem.symm
          · exact hmem
        · intro hmem
          apply hfree
          simp only [mapKeys, List.map_cons, List.mem_cons]
          exact Or.inr hmem
      · rw [if_neg (by simpa using heq)]
        have h3 : strLt k0 (rk groups key i).1 = true :=
          strLt_of_connex_not (fun hh => heq hh.symm) hlt
        apply ih i hrest hmono ?_ ?_ hic
        · intro j hj1 hj2
          have hmem := hcover j hj1 hj2
          simp only [mapKeys, List.map_cons, List.mem_cons] at hmem ⊢
          rcases hmem with hmem | hmem
          · exfalso
            rcases lt_or_eq_of_le hj1 with hj | hj
            · have hij : strLt (rk groups key i).1 (rk groups key j).1 = true :=
                hmono i j hj (by omega)
              have : strLt k0 (rk groups key j).1 = true := strLt_trans h3 hij
              exact strLt_ne this hmem.symm
            · rw [← hj] at hmem
              exact heq hmem.symm
          · exact hmem
        · intro hmem
          apply hfree
          simp only [mapKeys, List.map_cons, List.mem_cons]
          exact Or.inr hmem

theorem resolveIncrementKey_spec (rk : ResolveKeyFn) (uniq : UniqMap) (groups : List String)
    (key : String) (c : Nat) (hs : SortedMap uniq)
    (hmono : ∀ i1 i2, i1 < i2 → i2 ≤ c → strLt (rk groups key i1).1 (rk groups key i2).1 = true)
    (hcover : ∀ j < c, (rk groups key j).1 ∈ mapKeys uniq)
    (hfree : (rk groups key c).1 ∉ mapKeys uniq) :
    resolveIncrementKey rk uniq groups key = rk groups key c := by
  rw [resolveIncrementKey]
  apply resolveIncrementKeyLoop_spec rk groups key c _ 0
    (BTree.seekTail_sorted _ _ hs) hmono ?_ ?_ (Nat.zero_le c)
  · intro j _ hj
    obtain ⟨q, hq, hqk⟩ := List.mem_map.mp (hcover j hj)
    have hge : strLt q.1 (rk groups key 0).1 = false := by
      rcases Nat.eq_zero_or_pos j with rfl | hjpos
      · rw [hqk]
        exact strLt_irrefl _
      · rw [hqk]
        exact strLt_asymm (hmono 0 j hjpos (by omega))
    have hmem2 : q ∈ BTree.seekTail uniq (rk groups key 0).1 :=
      BTree.mem_seekTail uniq _ q hq hge
    exact hqk ▸ List.mem_map_of_mem Prod.fst hmem2
  · intro hmem
    apply hfree
    obtain ⟨q, hq, hqk⟩ := List.mem_map.mp hmem
    exact hqk ▸ List.mem_map_of_mem Prod.fst (BTree.seekTail_subset uniq _ q hq)

theorem resolveIncrementKey_of_all_lt (rk : ResolveKeyFn) (uniq : UniqMap)
    (groups : List String) (key : String) (hs : SortedMap uniq)
    (h : ∀ p ∈ uniq, strLt p.1 (rk groups key 0).1 = true) :
    resolveIncrementKey rk uniq groups key = rk groups key 0 := by
  apply resolveIncrementKey_spec rk uniq groups key 0 hs
  · intro i1 i2 h1 h2
    omega
  · intro j hj
    omega
  · intro hmem
    obtain ⟨q, hq, hqk⟩ := List.mem_map.mp hmem
    have := h q hq
    rw [hqk, strLt_irrefl] at this
    exact Bool.false_ne_true this

theorem wfShapeMap_set (m : UniqMap) (k : String) (v : TreeVal)
    (hm : wfShapeMap m = true) (hv : wfShapeVal v = true) :
    wfShapeMap (BTree.set m k v) = true := by
  induction m with
  | nil => simp [BTree.set, wfShapeMap, hv]
  | cons p rest ih =>
    obtain ⟨k', v'⟩ := p
    rw [wfShapeMap, Bool.and_eq_true] at hm
    obtain ⟨hv', hrest⟩ := hm
    rw [BTree.set]
    by_cases h1 : k = k'
    · rw [if_pos (by simpa using h1)]
      simp [wfShapeMap, hv, hrest]
    · rw [if_neg (by simpa using h1)]
      by_cases h2 : strLt k k' = true
      · rw [if_pos h2]
        simp [wfShapeMap, hv, hv', hrest]
      · rw [if_neg h2]
        simp [wfShapeMap, hv', ih hrest]

theorem wfShapeMap_putIfAbsent (m : UniqMap) (k : String) (v : TreeVal)
    (hm : wfShapeMap m = true) (hv : wfShapeVal v = true) :
    wfShapeMap (IgnoreHandler.putIfAbsent m k v) = true := by
  induction m with
  | nil => simp [IgnoreHandler.putIfAbsent, BTree.put, wfShapeMap, hv]
  | cons p rest ih =>
    obtain ⟨k', v'⟩ := p
    rw [wfShapeMap, Bool.and_eq_true] at hm
    obtain ⟨hv', hrest⟩ := hm
    rw [IgnoreHandler.putIfAbsent, BTree.put]
    by_cases h1 : k = k'
    · rw [if_pos (by simpa using h1)]
      simp [wfShapeMap, hv', hrest]
    · rw [if_neg (by simpa using h1)]
      by_cases h2 : strLt k k' = true
      · rw [if_pos h2]
        simp [wfShapeMap, hv, hv', hrest]
      · rw [if_neg h2]
        have := ih hrest
        rw [IgnoreHandler.putIfAbsent] at this
        simp [wfShapeMap, hv', this]

theorem wfShapeElems_append (l1 l2 : List TreeVal) :
    wfShapeElems (l1 ++ l2) = (wfShapeElems l1 && wfShapeElems l2) := by
  induction l1 with
  | nil => simp [wfShapeElems]
  | cons v rest ih =>
    cases v with
    | attr a => simp [wfShapeElems, ih]
    | tree t => simp [wfShapeElems, ih, Bool.and_assoc]
    | appended vs => simp [wfShapeElems]

theorem wfShapeVal_appendCombine (old : TreeVal) (v : TreeVal)
    (hold : wfShapeVal old = true) (hv : wfShapeElems [v] = true) :
    wfShapeVal (appendCombine (some old) v) = true := by
  cases old with
  | attr a =>
    show wfShapeVal (.appended [.attr a, v]) = true
    simp only [wfShapeVal, wfShapeElems]
    exact hv
  | tree t =>
    show wfShapeVal (.appended [.tree t, v]) = true
    simp only [wfShapeVal, wfShapeElems, Bool.and_eq_true]
    rw [wfShapeVal] at hold
    exact ⟨hold, hv⟩
  | appended vs =>
    show wfShapeVal (.appended (vs ++ [v])) = true
    rw [wfShapeVal, wfShapeElems_append, Bool.and_eq_true]
    rw [wfShapeVal] at hold
    exact ⟨hold, hv⟩

theorem wfShapeMap_putAppend (m : UniqMap) (k : String) (v : TreeVal)
    (hm : wfShapeMap m = true) (hv : wfShapeElems [v] = true) :
    wfShapeMap (AppendHandler.putAppend m k v) = true := by
  have hv1 : wfShapeVal v = true := by
    cases v with
    | attr a => rw [wfShapeVal]
    | tree t => simpa [wfShapeElems, wfShapeVal] using hv
    | appended vs => simp [wfShapeElems] at hv
  induction m with
  | nil => simp [AppendHandler.putAppend, BTree.put, wfShapeMap, appendCombine, hv1]
  | cons p rest ih =>
    obtain ⟨k', v'⟩ := p
    rw [wfShapeMap, Bool.and_eq_true] at hm
    obtain ⟨hv', hrest⟩ := hm
    rw [AppendHandler.putAppend, BTree.put]
    by_cases h1 : k = k'
    · rw [if_pos (by simpa using h1)]
      simp only [wfShapeMap, Bool.and_eq_true]
      exact ⟨wfShapeVal_appendCombine v' v hv' hv, hrest⟩
    · rw [if_neg (by simpa using h1)]
      by_cases h2 : strLt k k' = true
      · rw [if_pos h2]
        simp [wfShapeMap, appendCombine, hv1, hv', hrest]
      · rw [if_neg h2]
        have := ih hrest
        rw [AppendHandler.putAppend] at this
        simp [wfShapeMap, hv', this]


theorem OverwriteHandler.wfShape_resolveValues_ow (rk : ResolveKeyFn) (uniq : UniqMap)
    (attrs : List Attr) (groups : List String) (h : wfShapeMap uniq = true) :
    wfShapeMap (OverwriteHandler.resolveValues rk uniq attrs groups) = true := by
  induction uniq, attrs, groups using OverwriteHandler.resolveValues.induct rk with
  | case1 uniq groups => rwa [OverwriteHandler.resolveValues]
  | case2 uniq groups a rest hemp ih =>
    rw [OverwriteHandler.resolveValues, if_pos hemp]
    exact ih h
  | case3 uniq groups a rest hemp r hkeep ih =>
    have hkeep' : (!(rk groups a.key 0).2) = true := hkeep
    rw [OverwriteHandler.resolveValues, if_neg hemp]
    simp only [hkeep', if_true]
    exact ih h
  | case4 uniq groups a rest hemp r hkeep gAttrs hv hkey ihg ih =>
    have hkeep' : ¬ (!(rk groups a.key 0).2) = true := hkeep
    have hkey' : (rk groups a.key 0).1 = "" := hkey
    rw [OverwriteHandler.resolveValues, if_neg hemp]
    simp only [hkeep', Bool.false_eq_true, if_false]
    split
    · rename_i gAttrs2 heq
      rw [hv] at heq
      injection heq with hg
      subst hg
      rw [if_pos hkey']
      exact ih (ihg h)
    · rename_i hne
      exact absurd hv (hne gAttrs)
  | case5 uniq groups a rest hemp r hkeep gAttrs hv hkey uniqGroup hlen ihg ihg2 ih =>
    have hkeep' : ¬ (!(rk groups a.key 0).2) = true := hkeep
    have hkey' : ¬ (rk groups a.key 0).1 = "" := hkey
    have hlen' : 0 < (OverwriteHandler.resolveValues rk [] gAttrs
        (groups ++ [(rk groups a.key 0).1])).length := hlen
    rw [OverwriteHandler.resolveValues, if_neg hemp]
    simp only [hkeep', Bool.false_eq_true, if_false]
    split
    · rename_i gAttrs2 heq
      rw [hv] at heq
      injection heq with hg
      subst hg
      rw [if_neg hkey', if_pos hlen']
      apply ih
      apply wfShapeMap_set _ _ _ h
      rw [wfShapeVal]
      exact ihg2 (by rw [wfShapeMap])
    · rename_i hne
      exact absurd hv (hne gAttrs)
  | case6 uniq groups a rest hemp r hkeep gAttrs hv hkey uniqGroup hlen ihg ih =>
    have hkeep' : ¬ (!(rk groups a.key 0).2) = true := hkeep
    have hkey' : ¬ (rk groups a.key 0).1 = "" := hkey
    have hlen' : ¬ 0 < (OverwriteHandler.resolveValues rk [] gAttrs
        (groups ++ [(rk groups a.key 0).1])).length := hlen
    rw [OverwriteHandler.resolveValues, if_neg hemp]
    simp only [hkeep', Bool.false_eq_true, if_false]
    split
    · rename_i gAttrs2 heq
      rw [hv] at heq
      injection heq with hg
      subst hg
      rw [if_neg hkey', if_neg hlen']
      exact ih h
    · rename_i hne
      exact absurd hv (hne gAttrs)
  | case7 uniq groups a rest hemp r hkeep hng ih =>
    have hkeep' : ¬ (!(rk groups a.key 0).2) = true := hkeep
    rw [OverwriteHandler.resolveValues, if_neg hemp]
    simp only [hkeep', Bool.false_eq_true, if_false]
    apply ih
    apply wfShapeMap_set _ _ _ h
    rw [wfShapeVal]


theorem IgnoreHandler.wfShape_resolveValues_ig (rk : ResolveKeyFn) (uniq : UniqMap)
    (attrs : List Attr) (groups : List String) (h : wfShapeMap uniq = true) :
    wfShapeMap (IgnoreHandler.resolveValues rk uniq attrs groups) = true := by
  induction uniq, attrs, groups using IgnoreHandler.resolveValues.induct rk with
  | case1 uniq groups => rwa [IgnoreHandler.resolveValues]
  | case2 uniq groups a rest hemp ih =>
    rw [IgnoreHandler.resolveValues, if_pos hemp]
    exact ih h
  | case3 uniq groups a rest hemp r hkeep ih =>
    have hkeep' : (!(rk groups a.key 0).2) = true := hkeep
    rw [IgnoreHandler.resolveValues, if_neg hemp]
    simp only [hkeep', if_true]
    exact ih h
  | case4 uniq groups a rest hemp r hkeep gAttrs hv hkey ihg ih =>
    have hkeep' : ¬ (!(rk groups a.key 0).2) = true := hkeep
    have hkey' : (rk groups a.key 0).1 = "" := hkey
    rw [IgnoreHandler.resolveValues, if_neg hemp]
    simp only [hkeep', Bool.false_eq_true, if_false]
    split
    · rename_i gAttrs2 heq
      rw [hv] at heq
      injection heq with hg
      subst hg
      rw [if_pos hkey']
      exact ih (ihg h)
    · rename_i hne
      exact absurd hv (hne gAttrs)
  | case5 uniq groups a rest hemp r hkeep gAttrs hv hkey uniqGroup hlen ihg ihg2 ih =>
    have hkeep' : ¬ (!(rk groups a.key 0).2) = true := hkeep
    have hkey' : ¬ (rk groups a.key 0).1 = "" := hkey
    have hlen' : 0 < (IgnoreHandler.resolveValues rk [] gAttrs
        (groups ++ [(rk groups a.key 0).1])).length := hlen
    rw [IgnoreHandler.resolveValues, if_neg hemp]
    simp only [hkeep', Bool.false_eq_true, if_false]
    split
    · rename_i gAttrs2 heq
      rw [hv] at heq
      injection heq with hg
      subst hg
      rw [if_neg hkey', if_pos hlen']
      apply ih
      apply wfShapeMap_putIfAbsent _ _ _ h
      rw [wfShapeVal]
      exact ihg2 (by rw [wfShapeMap])
    · rename_i hne
      exact absurd hv (hne gAttrs)
  | case6 uniq groups a rest hemp r hkeep gAttrs hv hkey uniqGroup hlen ihg ih =>
    have hkeep' : ¬ (!(rk groups a.key 0).2) = true := hkeep
    have hkey' : ¬ (rk groups a.key 0).1 = "" := hkey
    have hlen' : ¬ 0 < (IgnoreHandler.resolveValues rk [] gAttrs
        (groups ++ [(rk groups a.key 0).1])).length := hlen
    rw [IgnoreHandler.resolveValues, if_neg hemp]
    simp only [hkeep', Bool.false_eq_true, if_false]
    split
    · rename_i gAttrs2 heq
      rw [hv] at heq
      injection heq with hg
      subst hg
      rw [if_neg hkey', if_neg hlen']
      exact ih h
    · rename_i hne
      exact absurd hv (hne gAttrs)
  | case7 uniq groups a rest hemp r hkeep hng ih =>
    have hkeep' : ¬ (!(rk groups a.key 0).2) = true := hkeep
    rw [IgnoreHandler.resolveValues, if_neg hemp]
    simp only [hkeep', Bool.false_eq_true, if_false]
    apply ih
    apply wfShapeMap_putIfAbsent _ _ _ h
    rw [wfShapeVal]


theorem IncrementHandler.wfShape_resolveValues_inc (rk : ResolveKeyFn) (uniq : UniqMap)
    (attrs : List Attr) (groups : List String) (h : wfShapeMap uniq = true) :
    wfShapeMap (IncrementHandler.resolveValues rk uniq attrs groups) = true := by
  induction uniq, attrs, groups using IncrementHandler.resolveValues.induct rk with
  | case1 uniq groups => rwa [IncrementHandler.resolveValues]
  | case2 uniq groups a rest hemp ih =>
    rw [IncrementHandler.resolveValues, if_pos hemp]
    exact ih h
  | case3 uniq groups a rest hemp r hkeep ih =>
    have hkeep' : (!(resolveIncrementKey rk uniq groups a.key).2) = true := hkeep
    rw [IncrementHandler.resolveValues, if_neg hemp]
    simp only [hkeep', if_true]
    exact ih h
  | case4 uniq groups a rest hemp r hkeep gAttrs hv hkey ihg ih =>
    have hkeep' : ¬ (!(resolveIncrementKey rk uniq groups a.key).2) = true := hkeep
    have hkey' : (resolveIncrementKey rk uniq groups a.key).1 = "" := hkey
    rw [IncrementHandler.resolveValues, if_neg hemp]
    simp only [hkeep', Bool.false_eq_true, if_false]
    split
    · rename_i gAttrs2 heq
      rw [hv] at heq
      injection heq with hg
      subst hg
      rw [if_pos hkey']
      exact ih (ihg h)
    · rename_i hne
      exact absurd hv (hne gAttrs)
  | case5 uniq groups a rest hemp r hkeep gAttrs hv hkey uniqGroup hlen ihg ihg2 ih =>
    have hkeep' : ¬ (!(resolveIncrementKey rk uniq groups a.key).2) = true := hkeep
    have hkey' : ¬ (resolveIncrementKey rk uniq groups a.key).1 = "" := hkey
    have hlen' : 0 < (IncrementHandler.resolveValues rk [] gAttrs
        (groups ++ [(resolveIncrementKey rk uniq groups a.key).1])).length := hlen
    rw [IncrementHandler.resolveValues, if_neg hemp]
    simp only [hkeep', Bool.false_eq_true, if_false]
    split
    · rename_i gAttrs2 heq
      rw [hv] at heq
      injection heq with hg
      subst hg
      rw [if_neg hkey', if_pos hlen']
      apply ih
      apply wfShapeMap_set _ _ _ h
      rw [wfShapeVal]
      exact ihg2 (by rw [wfShapeMap])
    · rename_i hne
      exact absurd hv (hne gAttrs)
  | case6 uniq groups a rest hemp r hkeep gAttrs hv hkey uniqGroup hlen ihg ih =>
    have hkeep' : ¬ (!(resolveIncrementKey rk uniq groups a.key).2) = true := hkeep
    have hkey' : ¬ (resolveIncrementKey rk uniq groups a.key).1 = "" := hkey
    have hlen' : ¬ 0 < (IncrementHandler.resolveValues rk [] gAttrs
        (groups ++ [(resolveIncrementKey rk uniq groups a.key).1])).length := hlen
    rw [IncrementHandler.resolveValues, if_neg hemp]
    simp only [hkeep', Bool.false_eq_true, if_false]
    split
    · rename_i gAttrs2 heq
      rw [hv] at heq
      injection heq with hg
      subst hg
      rw [if_neg hkey', if_neg hlen']
      exact ih h
    · rename_i hne
      exact absurd hv (hne gAttrs)
  | case7 uniq groups a rest hemp r hkeep hng ih =>
    have hkeep' : ¬ (!(resolveIncrementKey rk uniq groups a.key).2) = true := hkeep
    rw [IncrementHandler.resolveValues, if_neg hemp]
    simp only [hkeep', Bool.false_eq_true, if_false]
    apply ih
    apply wfShapeMap_set _ _ _ h
    rw [wfShapeVal]


theorem AppendHandler.wfShape_resolveValues_ap (rk : ResolveKeyFn) (uniq : UniqMap)
    (attrs : List Attr) (groups : List String) (h : wfShapeMap uniq = true) :
    wfShapeMap (AppendHandler.resolveValues rk uniq attrs groups) = true := by
  induction uniq, attrs, groups using AppendHandler.resolveValues.induct rk with
  | case1 uniq groups => rwa [AppendHandler.resolveValues]
  | case2 uniq groups a rest hemp ih =>
    rw [AppendHandler.resolveValues, if_pos hemp]
    exact ih h
  | case3 uniq groups a rest hemp r hkeep ih =>
    have hkeep' : (!(rk groups a.key 0).2) = true := hkeep
    rw [AppendHandler.resolveValues, if_neg hemp]
    simp only [hkeep', if_true]
    exact ih h
  | case4 uniq groups a rest hemp r hkeep gAttrs hv hkey ihg ih =>
    have hkeep' : ¬ (!(rk groups a.key 0).2) = true := hkeep
    have hkey' : (rk groups a.key 0).1 = "" := hkey
    rw [AppendHandler.resolveValues, if_neg hemp]
    simp only [hkeep', Bool.false_eq_true, if_false]
    split
    · rename_i gAttrs2 heq
      rw [hv] at heq
      injection heq with hg
      subst hg
      rw [if_pos hkey']
      exact ih (ihg h)
    · rename_i hne
      exact absurd hv (hne gAttrs)
  | case5 uniq groups a rest hemp r hkeep gAttrs hv hkey uniqGroup hlen ihg ihg2 ih =>
    have hkeep' : ¬ (!(rk groups a.key 0).2) = true := hkeep
    have hkey' : ¬ (rk groups a.key 0).1 = "" := hkey
    have hlen' : 0 < (AppendHandler.resolveValues rk [] gAttrs
        (groups ++ [(rk groups a.key 0).1])).length := hlen
    rw [AppendHandler.resolveValues, if_neg hemp]
    simp only [hkeep', Bool.false_eq_true, if_false]
    split
    · rename_i gAttrs2 heq
      rw [hv] at heq
      injection heq with hg
      subst hg
      rw [if_neg hkey', if_pos hlen']
      apply ih
      apply wfShapeMap_putAppend _ _ _ h
      rw [wfShapeElems]
      simp only [Bool.and_eq_true]
      exact ⟨ihg2 (by rw [wfShapeMap]), by rw [wfShapeElems]⟩
    · rename_i hne
      exact absurd hv (hne gAttrs)
  | case6 uniq groups a rest hemp r hkeep gAttrs hv hkey uniqGroup hlen ihg ih =>
    have hkeep' : ¬ (!(rk groups a.key 0).2) = true := hkeep
    have hkey' : ¬ (rk groups a.key 0).1 = "" := hkey
    have hlen' : ¬ 0 < (AppendHandler.resolveValues rk [] gAttrs
        (groups ++ [(rk groups a.key 0).1])).length := hlen
    rw [AppendHandler.resolveValues, if_neg hemp]
    simp only [hkeep', Bool.false_eq_true, if_false]
    split
    · rename_i gAttrs2 heq
      rw [hv] at heq
      injection heq with hg
      subst hg
      rw [if_neg hkey', if_neg hlen']
      exact ih h
    · rename_i hne
      exact absurd hv (hne gAttrs)
  | case7 uniq groups a rest hemp r hkeep hng ih =>
    have hkeep' : ¬ (!(rk groups a.key 0).2) = true := hkeep
    rw [AppendHandler.resolveValues, if_neg hemp]
    simp only [hkeep', Bool.false_eq_true, if_false]
    apply ih
    apply wfShapeMap_putAppend _ _ _ h
    rw [wfShapeElems, wfShapeElems]


theorem OverwriteHandler.wfShape_createAttrTree_ow (rk : ResolveKeyFn) :
    ∀ (goas : List groupOrAttrs) (uniq : UniqMap) (groups : List String),
    wfShapeMap uniq = true → wfShapeMap (OverwriteHandler.createAttrTree rk uniq goas groups) = true := by
  intro goas
  induction goas with
  | nil =>
    intro uniq groups h
    rwa [OverwriteHandler.createAttrTree]
  | cons g rest ih =>
    intro uniq groups h
    rw [OverwriteHandler.createAttrTree]
    by_cases hc : (g.group != "" && (rk groups g.group 0).2) = true
    · simp only [hc, if_true]
      by_cases hlen : 0 < (OverwriteHandler.createAttrTree rk [] rest (groups ++ [(rk groups g.group 0).1])).length
      · rw [if_pos hlen]
        apply wfShapeMap_set _ _ _ h
        rw [wfShapeVal]
        exact ih [] _ (by rw [wfShapeMap])
      · rw [if_neg hlen]
        exact h
    · simp only [hc, Bool.false_eq_true, if_false]
      exact ih _ _ (OverwriteHandler.wfShape_resolveValues_ow rk uniq g.attrs groups h)


theorem IgnoreHandler.wfShape_createAttrTree_ig (rk : ResolveKeyFn) :
    ∀ (goas : List groupOrAttrs) (uniq : UniqMap) (groups : List String),
    wfShapeMap uniq = true → wfShapeMap (IgnoreHandler.createAttrTree rk uniq goas groups) = true := by
  intro goas
  induction goas with
  | nil =>
    intro uniq groups h
    rwa [IgnoreHandler.createAttrTree]
  | cons g rest ih =>
    intro uniq groups h
    rw [IgnoreHandler.createAttrTree]
    by_cases hc : (g.group != "" && (rk groups g.group 0).2) = true
    · simp only [hc, if_true]
      by_cases hlen : 0 < (IgnoreHandler.createAttrTree rk [] rest (groups ++ [(rk groups g.group 0).1])).length
      · rw [if_pos hlen]
        apply wfShapeMap_putIfAbsent _ _ _ h
        rw [wfShapeVal]
        exact ih [] _ (by rw [wfShapeMap])
      · rw [if_neg hlen]
        exact h
    · simp only [hc, Bool.false_eq_true, if_false]
      exact ih _ _ (IgnoreHandler.wfShape_resolveValues_ig rk uniq g.attrs groups h)


theorem IncrementHandler.wfShape_createAttrTree_inc (rk : ResolveKeyFn) :
    ∀ (goas : List groupOrAttrs) (uniq : UniqMap) (groups : List String),
    wfShapeMap uniq = true → wfShapeMap (IncrementHandler.createAttrTree rk uniq goas groups) = true := by
  intro goas
  induction goas with
  | nil =>
    intro uniq groups h
    rwa [IncrementHandler.createAttrTree]
  | cons g rest ih =>
    intro uniq groups h
    rw [IncrementHandler.createAttrTree]
    by_cases hc : (g.group != "" && (resolveIncrementKey rk uniq groups g.group).2) = true
    · simp only [hc, if_true]
      by_cases hlen : 0 < (IncrementHandler.createAttrTree rk [] rest (groups ++ [(resolveIncrementKey rk uniq groups g.group).1])).length
      · rw [if_pos hlen]
        apply wfShapeMap_set _ _ _ h
        rw [wfShapeVal]
        exact ih [] _ (by rw [wfShapeMap])
      · rw [if_neg hlen]
        exact h
    · simp only [hc, Bool.false_eq_true, if_false]
      exact ih _ _ (IncrementHandler.wfShape_resolveValues_inc rk uniq g.attrs groups h)


theorem AppendHandler.wfShape_createAttrTree_ap (rk : ResolveKeyFn) :
    ∀ (goas : List groupOrAttrs) (uniq : UniqMap) (groups : List String),
    wfShapeMap uniq = true → wfShapeMap (AppendHandler.createAttrTree rk uniq goas groups) = true := by
  intro goas
  induction goas with
  | nil =>
    intro uniq groups h
    rwa [AppendHandler.createAttrTree]
  | cons g rest ih =>
    intro uniq groups h
    rw [AppendHandler.createAttrTree]
    by_cases hc : (g.group != "" && (rk groups g.group 0).2) = true
    · simp only [hc, if_true]
      by_cases hlen : 0 < (AppendHandler.createAttrTree rk [] rest (groups ++ [(rk groups g.group 0).1])).length
      · rw [if_pos hlen]
        apply wfShapeMap_putAppend _ _ _ h
        rw [wfShapeElems]
        simp only [Bool.and_eq_true]
        exact ⟨ih [] _ (by rw [wfShapeMap]), by rw [wfShapeElems]⟩
      · rw [if_neg hlen]
        exact h
    · simp only [hc, Bool.false_eq_true, if_false]
      exact ih _ _ (AppendHandler.wfShape_resolveValues_ap rk uniq g.attrs groups h)


theorem buildAttrs_of_wfShape (m : UniqMap) :
    wfShapeMap m = true → ∃ as, buildAttrs m = some as := by
  refine buildAttrs.induct (fun m => wfShapeMap m = true → ∃ as, buildAttrs m = some as)
    (fun vs => wfShapeElems vs = true → ∃ xs, buildAppendedAnys vs = some xs)
    ?_ ?_ ?_ ?_ ?_ ?_ ?_ ?_ m
  · intro _
    exact ⟨[], by rw [buildAttrs]⟩
  · intro k' rest a ih h
    rw [wfShapeMap, Bool.and_eq_true] at h
    obtain ⟨as, hr⟩ := ih h.2
    refine ⟨a :: as, ?_⟩
    rw [buildAttrs, hr]
    rfl
  · intro k' rest t iht ihr h
    rw [wfShapeMap, Bool.and_eq_true] at h
    obtain ⟨hv, hrest⟩ := h
    rw [wfShapeVal] at hv
    obtain ⟨ts, ht⟩ := iht hv
    obtain ⟨as, hr⟩ := ihr hrest
    refine ⟨Attr.mk k' (.group ts) :: as, ?_⟩
    rw [buildAttrs, ht, hr]
    rfl
  · intro k' rest vs ihv ihr h
    rw [wfShapeMap, Bool.and_eq_true] at h
    obtain ⟨hv, hrest⟩ := h
    rw [wfShapeVal] at hv
    obtain ⟨xs, hx⟩ := ihv hv
    obtain ⟨as, hr⟩ := ihr hrest
    refine ⟨Attr.mk k' (.list xs) :: as, ?_⟩
    rw [buildAttrs, hx, hr]
    rfl
  · intro _
    exact ⟨[], by rw [buildAppendedAnys]⟩
  · intro a rest ih h
    rw [wfShapeElems] at h
    obtain ⟨xs, hx⟩ := ih h
    refine ⟨a.value :: xs, ?_⟩
    rw [buildAppendedAnys, hx]
    rfl
  · intro t rest iht ihr h
    rw [wfShapeElems, Bool.and_eq_true] at h
    obtain ⟨ts, ht⟩ := iht h.1
    obtain ⟨xs, hx⟩ := ihr h.2
    refine ⟨Value.map (buildGroupMap ts) :: xs, ?_⟩
    rw [buildAppendedAnys, ht, hx]
    rfl
  · intro vs tail h
    rw [wfShapeElems] at h
    exact absurd h (by simp)


/-- C10: every value stored by any of the four handlers' tree builders is an
attribute, a subtree, or (append only) an `appended` slice of attributes and
subtrees, so the reconstructor's `panic("unexpected type in attribute map")`
branches (modelled by `none`) are unreachable on handler-produced trees. -/
theorem c10_tree_values_well_shaped (rk : ResolveKeyFn) (goas : List groupOrAttrs) :
    wfShapeMap (OverwriteHandler.createAttrTree rk [] goas []) = true ∧
    wfShapeMap (IgnoreHandler.createAttrTree rk [] goas []) = true ∧
    wfShapeMap (IncrementHandler.createAttrTree rk [] goas []) = true ∧
    wfShapeMap (AppendHandler.createAttrTree rk [] goas []) = true ∧
    (buildAttrs (OverwriteHandler.createAttrTree rk [] goas [])).isSome = true ∧
    (buildAttrs (IgnoreHandler.createAttrTree rk [] goas [])).isSome = true ∧
    (buildAttrs (IncrementHandler.createAttrTree rk [] goas [])).isSome = true ∧
    (buildAttrs (AppendHandler.createAttrTree rk [] goas [])).isSome = true := by
  have hemp : wfShapeMap [] = true := by rw [wfShapeMap]
  have h1 := OverwriteHandler.wfShape_createAttrTree_ow rk goas [] [] hemp
  have h2 := IgnoreHandler.wfShape_createAttrTree_ig rk goas [] [] hemp
  have h3 := IncrementHandler.wfShape_createAttrTree_inc rk goas [] [] hemp
  have h4 := AppendHandler.wfShape_createAttrTree_ap rk goas [] [] hemp
  obtain ⟨as1, hb1⟩ := buildAttrs_of_wfShape _ h1
  obtain ⟨as2, hb2⟩ := buildAttrs_of_wfShape _ h2
  obtain ⟨as3, hb3⟩ := buildAttrs_of_wfShape _ h3
  obtain ⟨as4, hb4⟩ := buildAttrs_of_wfShape _ h4
  exact ⟨h1, h2, h3, h4, by rw [hb1]; rfl, by rw [hb2]; rfl, by rw [hb3]; rfl, by rw [hb4]; rfl⟩

/-- C8: for every handler variant and every record, `Handle` forwards the
record to the downstream handler exactly once: its result is `next` applied to
a single record whose time, level, message and program counter equal those of
the incoming record, with only the attribute list replaced. The `some` shows
the call is never suppressed (the reconstruction never panics), and because
the equation holds for every downstream `next`, the downstream handler cannot
have been invoked any other number of times. -/
theorem c8_handle_forwards_once (rk : ResolveKeyFn) (E : Type) (next : Record → E)
    (goa : List groupOrAttrs) (r : Record) :
    (∃ as, OverwriteHandler.Handle rk goa next r = some (next
      { time := r.time, level := r.level, message := r.message, pc := r.pc, attrs := as })) ∧
    (∃ as, IgnoreHandler.Handle rk goa next r = some (next
      { time := r.time, level := r.level, message := r.message, pc := r.pc, attrs := as })) ∧
    (∃ as, IncrementHandler.Handle rk goa next r = some (next
      { time := r.time, level := r.level, message := r.message, pc := r.pc, attrs := as })) ∧
    (∃ as, AppendHandler.Handle rk goa next r = some (next
      { time := r.time, level := r.level, message := r.message, pc := r.pc, attrs := as })) := by
  have hemp : wfShapeMap [] = true := by rw [wfShapeMap]
  refine ⟨?_, ?_, ?_, ?_⟩
  · obtain ⟨as, hb⟩ := buildAttrs_of_wfShape _
      (OverwriteHandler.wfShape_createAttrTree_ow rk
        (collectGroupOrAttrs [goa, [{ group := "", attrs := r.attrs }]]) [] [] hemp)
    refine ⟨as, ?_⟩
    simp only [OverwriteHandler.Handle]
    rw [hb]
    rfl
  · obtain ⟨as, hb⟩ := buildAttrs_of_wfShape _
      (IgnoreHandler.wfShape_createAttrTree_ig rk
        (collectGroupOrAttrs [goa, [{ group := "", attrs := r.attrs }]]) [] [] hemp)
    refine ⟨as, ?_⟩
    simp only [IgnoreHandler.Handle]
    rw [hb]
    rfl
  · obtain ⟨as, hb⟩ := buildAttrs_of_wfShape _
      (IncrementHandler.wfShape_createAttrTree_inc rk
        (collectGroupOrAttrs [goa, [{ group := "", attrs := r.attrs }]]) [] [] hemp)
    refine ⟨as, ?_⟩
    simp only [IncrementHandler.Handle]
    rw [hb]
    rfl
  · obtain ⟨as, hb⟩ := buildAttrs_of_wfShape _
      (AppendHandler.wfShape_createAttrTree_ap rk
        (collectGroupOrAttrs [goa, [{ group := "", attrs := r.attrs }]]) [] [] hemp)
    refine ⟨as, ?_⟩
    simp only [AppendHandler.Handle]
    rw [hb]
    rfl

/-- C5: with pre-existing keys `msg#01`, `msg#01a` and `msg#02` in the level
map, resolving a new occurrence of the builtin key `msg` at the root under the
Increment policy's default key resolution yields `msg#03`: the ceiling-based
probe advances past the lexicographically interleaved non-matching key
`msg#01a` instead of stopping at the first key that differs from the
candidate. -/
theorem c5_increment_seek_probe : resolveIncrementKey defaultResolveKey
    [("msg#01", .attr (.mk "msg#01" (.scalar (.str "prexisting01")))),
     ("msg#01a", .attr (.mk "msg#01a" (.scalar (.str "seekbug01a")))),
     ("msg#02", .attr (.mk "msg#02" (.scalar (.str "seekbug02"))))] [] "msg"
    = ("msg#03", true) := by decide

/-- C2 counterexample: for the input `[(b,1),(a,2)]` the Ignore policy's level
map iterates its keys in comparator order `[a, b]`, not in order of first
occurrence `[b, a]`: the output key sequence (as reconstructed by
`buildAttrs`) does not equal the distinct resolved keys in order of first
occurrence. -/
theorem c2_counterexample :
    mapKeys (IgnoreHandler.resolveValues defaultResolveKey []
      [Attr.mk "b" (.scalar (.str "1")), Attr.mk "a" (.scalar (.str "2"))] []) = ["a", "b"] ∧
    (buildAttrs (IgnoreHandler.resolveValues defaultResolveKey []
      [Attr.mk "b" (.scalar (.str "1")), Attr.mk "a" (.scalar (.str "2"))] [])).map
        (fun as => as.map Attr.key) = some ["a", "b"] ∧
    specDistinctKeysFirstOccurrence defaultResolveKey []
      [Attr.mk "b" (.scalar (.str "1")), Attr.mk "a" (.scalar (.str "2"))] = ["b", "a"] ∧
    (["a", "b"] : List String) ≠ ["b", "a"] := by
  refine ⟨?_, ?_, by decide, by decide⟩
  · simp [IgnoreHandler.resolveValues, IgnoreHandler.putIfAbsent, BTree.put, defaultResolveKey,
      DoesBuiltinKeyConflict, TimeKey, LevelKey, MessageKey, SourceKey, IncrementKeyName,
      Attr.isEmpty, Attr.key, Attr.value, Value.resolve, mapKeys, strLt, charListLt, pad2]
  · simp [IgnoreHandler.resolveValues, IgnoreHandler.putIfAbsent, BTree.put, defaultResolveKey,
      DoesBuiltinKeyConflict, TimeKey, LevelKey, MessageKey, SourceKey, IncrementKeyName,
      Attr.isEmpty, Attr.key, Attr.value, Value.resolve, strLt, charListLt, pad2, buildAttrs]

/-- C7 counterexample: when the resolver drops the group name `g`
(keep = false), the batches following the dropped namespace are not omitted:
their attributes are written into the current (parent) map. Both for the
Overwrite and the Increment tree builders, the attribute `a` logged after the
dropped namespace appears at the root of the output, where the claim requires
an empty output. -/
theorem c7_counterexample :
    OverwriteHandler.createAttrTree (fun _ key _ => if key = "g" then ("", false) else (key, true))
      [] [{ group := "g", attrs := [] },
          { group := "", attrs := [Attr.mk "a" (.scalar (.int 1))] }] []
      = [("a", TreeVal.attr (Attr.mk "a" (.scalar (.int 1))))] ∧
    IncrementHandler.createAttrTree (fun _ key _ => if key = "g" then ("", false) else (key, true))
      [] [{ group := "g", attrs := [] },
          { group := "", attrs := [Attr.mk "a" (.scalar (.int 1))] }] []
      = [("a", TreeVal.attr (Attr.mk "a" (.scalar (.int 1))))] ∧
    ([("a", TreeVal.attr (Attr.mk "a" (.scalar (.int 1))))] : UniqMap) ≠ [] := by
  refine ⟨?_, ?_, by simp⟩
  · simp [OverwriteHandler.createAttrTree, OverwriteHandler.resolveValues, BTree.set,
      Attr.isEmpty, Attr.key, Attr.value, Value.resolve]
  · simp [IncrementHandler.createAttrTree, IncrementHandler.resolveValues, BTree.set,
      resolveIncrementKey, resolveIncrementKeyLoop, BTree.seekTail,
      Attr.isEmpty, Attr.key, Attr.value, Value.resolve]

/-- C7 as amended: for every policy, when the key resolver returns keep =
false for a named group batch, only the namespace marker itself is dropped:
the remaining batches are processed at the current groups depth into the
current (parent) map, so attributes logged after the dropped namespace are
kept and promoted to the parent level rather than discarded. -/
theorem c7_amended_drop_promotes_rest (rk : ResolveKeyFn) (uniq : UniqMap) (name : String)
    (rest : List groupOrAttrs) (groups : List String) (hname : name ≠ "") :
    ((rk groups name 0).2 = false →
      OverwriteHandler.createAttrTree rk uniq ({ group := name, attrs := [] } :: rest) groups =
        OverwriteHandler.createAttrTree rk uniq rest groups) ∧
    ((rk groups name 0).2 = false →
      IgnoreHandler.createAttrTree rk uniq ({ group := name, attrs := [] } :: rest) groups =
        IgnoreHandler.createAttrTree rk uniq rest groups) ∧
    ((resolveIncrementKey rk uniq groups name).2 = false →
      IncrementHandler.createAttrTree rk uniq ({ group := name, attrs := [] } :: rest) groups =
        IncrementHandler.createAttrTree rk uniq rest groups) ∧
    ((rk groups name 0).2 = false →
      AppendHandler.createAttrTree rk uniq ({ group := name, attrs := [] } :: rest) groups =
        AppendHandler.createAttrTree rk uniq rest groups) := by
  refine ⟨?_, ?_, ?_, ?_⟩ <;> intro hdrop
  · rw [OverwriteHandler.createAttrTree]
    simp only [hdrop, Bool.and_false, Bool.false_eq_true, if_false]
    rw [OverwriteHandler.resolveValues]
  · rw [IgnoreHandler.createAttrTree]
    simp only [hdrop, Bool.and_false, Bool.false_eq_true, if_false]
    rw [IgnoreHandler.resolveValues]
  · rw [IncrementHandler.createAttrTree]
    simp only [hdrop, Bool.and_false, Bool.false_eq_true, if_false]
    rw [IncrementHandler.resolveValues]
  · rw [AppendHandler.createAttrTree]
    simp only [hdrop, Bool.and_false, Bool.false_eq_true, if_false]
    rw [AppendHandler.resolveValues]

/-- Witness for the amended C7 statement at a concrete dropped namespace. -/
theorem c7_amended_witness :
    ("g" : String) ≠ "" ∧
    (((fun (_ : List String) (key : String) (_ : Nat) =>
        if key = "g" then (("" : String), false) else (key, true)) [] "g" 0).2 = false ∧
      OverwriteHandler.createAttrTree
        (fun _ key _ => if key = "g" then ("", false) else (key, true)) []
        ({ group := "g", attrs := [] } ::
          [{ group := "", attrs := [Attr.mk "a" (.scalar (.int 1))] }]) [] =
      OverwriteHandler.createAttrTree
        (fun _ key _ => if key = "g" then ("", false) else (key, true)) []
        [{ group := "", attrs := [Attr.mk "a" (.scalar (.int 1))] }] []) := by
  refine ⟨by decide, by decide, ?_⟩
  exact (c7_amended_drop_promotes_rest _ [] "g"
    [{ group := "", attrs := [Attr.mk "a" (.scalar (.int 1))] }] [] (by decide)).1 (by decide)

theorem OverwriteHandler.resolveValues_flat_ow (rk : ResolveKeyFn) (uniq : UniqMap)
    (attrs : List Attr) (groups : List String) (hflat : attrs.all Attr.isFlat = true) :
    OverwriteHandler.resolveValues rk uniq attrs groups =
      (specResolvedAttrs rk groups attrs).foldl
        (fun m a => BTree.set m a.key (TreeVal.attr a)) uniq := by
  induction uniq, attrs, groups using OverwriteHandler.resolveValues.induct rk with
  | case1 uniq groups =>
    rw [OverwriteHandler.resolveValues, specResolvedAttrs]
    rfl
  | case2 uniq groups a rest hemp ih =>
    rw [List.all_cons, Bool.and_eq_true] at hflat
    rw [OverwriteHandler.resolveValues, if_pos hemp, specResolvedAttrs, List.filterMap_cons,
      if_pos hemp]
    exact ih hflat.2
  | case3 uniq groups a rest hemp r hkeep ih =>
    rw [List.all_cons, Bool.and_eq_true] at hflat
    have hkeep' : (!(rk groups a.key 0).2) = true := hkeep
    have hkeep2 : (rk groups a.key 0).2 = false := by simpa using hkeep'
    rw [OverwriteHandler.resolveValues, if_neg hemp]
    simp only [hkeep', if_true]
    rw [specResolvedAttrs, List.filterMap_cons, if_neg hemp]
    simp only [hkeep2, Bool.false_eq_true, if_false]
    exact ih hflat.2
  | case4 uniq groups a rest hemp r hkeep gAttrs hv hkey ihg ih =>
    exfalso
    rw [List.all_cons, Bool.and_eq_true] at hflat
    have h1 := hflat.1
    rw [Attr.isFlat] at h1
    have : a.value.isGroup = true := by
      have hv' : a.value = Value.group gAttrs := hv
      rw [hv', Value.isGroup]
    rw [this] at h1
    exact Bool.false_ne_true (by simpa using h1)
  | case5 uniq groups a rest hemp r hkeep gAttrs hv hkey uniqGroup hlen ihg ihg2 ih =>
    exfalso
    rw [List.all_cons, Bool.and_eq_true] at hflat
    have h1 := hflat.1
    rw [Attr.isFlat] at h1
    have : a.value.isGroup = true := by
      have hv' : a.value = Value.group gAttrs := hv
      rw [hv', Value.isGroup]
    rw [this] at h1
    exact Bool.false_ne_true (by simpa using h1)
  | case6 uniq groups a rest hemp r hkeep gAttrs hv hkey uniqGroup hlen ihg ih =>
    exfalso
    rw [List.all_cons, Bool.and_eq_true] at hflat
    have h1 := hflat.1
    rw [Attr.isFlat] at h1
    have : a.value.isGroup = true := by
      have hv' : a.value = Value.group gAttrs := hv
      rw [hv', Value.isGroup]
    rw [this] at h1
    exact Bool.false_ne_true (by simpa using h1)
  | case7 uniq groups a rest hemp r hkeep hng ih =>
    rw [List.all_cons, Bool.and_eq_true] at hflat
    have hkeep' : ¬ (!(rk groups a.key 0).2) = true := hkeep
    have hkeep2 : (rk groups a.key 0).2 = true := by simpa using hkeep'
    rw [OverwriteHandler.resolveValues, if_neg hemp]
    simp only [hkeep', Bool.false_eq_true, if_false]
    rw [specResolvedAttrs, List.filterMap_cons, if_neg hemp]
    simp only [hkeep2, if_true, List.foldl_cons]
    rw [← specResolvedAttrs]
    exact ih hflat.2

theorem IgnoreHandler.resolveValues_flat_ig (rk : ResolveKeyFn) (uniq : UniqMap)
    (attrs : List Attr) (groups : List String) (hflat : attrs.all Attr.isFlat = true) :
    IgnoreHandler.resolveValues rk uniq attrs groups =
      (specResolvedAttrs rk groups attrs).foldl
        (fun m a => IgnoreHandler.putIfAbsent m a.key (TreeVal.attr a)) uniq := by
  induction uniq, attrs, groups using IgnoreHandler.resolveValues.induct rk with
  | case1 uniq groups =>
    rw [IgnoreHandler.resolveValues, specResolvedAttrs]
    rfl
  | case2 uniq groups a rest hemp ih =>
    rw [List.all_cons, Bool.and_eq_true] at hflat
    rw [IgnoreHandler.resolveValues, if_pos hemp, specResolvedAttrs, List.filterMap_cons,
      if_pos hemp]
    exact ih hflat.2
  | case3 uniq groups a rest hemp r hkeep ih =>
    rw [List.all_cons, Bool.and_eq_true] at hflat
    have hkeep' : (!(rk groups a.key 0).2) = true := hkeep
    have hkeep2 : (rk groups a.key 0).2 = false := by simpa using hkeep'
    rw [IgnoreHandler.resolveValues, if_neg hemp]
    simp only [hkeep', if_true]
    rw [specResolvedAttrs, List.filterMap_cons, if_neg hemp]
    simp only [hkeep2, Bool.false_eq_true, if_false]
    exact ih hflat.2
  | case4 uniq groups a rest hemp r hkeep gAttrs hv hkey ihg ih =>
    exfalso
    rw [List.all_cons, Bool.and_eq_true] at hflat
    have h1 := hflat.1
    rw [Attr.isFlat] at h1
    have : a.value.isGroup = true := by
      have hv' : a.value = Value.group gAttrs := hv
      rw [hv', Value.isGroup]
    rw [this] at h1
    exact Bool.false_ne_true (by simpa using h1)
  | case5 uniq groups a rest hemp r hkeep gAttrs hv hkey uniqGroup hlen ihg ihg2 ih =>
    exfalso
    rw [List.all_cons, Bool.and_eq_true] at hflat
    have h1 := hflat.1
    rw [Attr.isFlat] at h1
    have : a.value.isGroup = true := by
      have hv' : a.value = Value.group gAttrs := hv
      rw [hv', Value.isGroup]
    rw [this] at h1
    exact Bool.false_ne_true (by simpa using h1)
  | case6 uniq groups a rest hemp r hkeep gAttrs hv hkey uniqGroup hlen ihg ih =>
    exfalso
    rw [List.all_cons, Bool.and_eq_true] at hflat
    have h1 := hflat.1
    rw [Attr.isFlat] at h1
    have : a.value.isGroup = true := by
      have hv' : a.value = Value.group gAttrs := hv
      rw [hv', Value.isGroup]
    rw [this] at h1
    exact Bool.false_ne_true (by simpa using h1)
  | case7 uniq groups a rest hemp r hkeep hng ih =>
    rw [List.all_cons, Bool.and_eq_true] at hflat
    have hkeep' : ¬ (!(rk groups a.key 0).2) = true := hkeep
    have hkeep2 : (rk groups a.key 0).2 = true := by simpa using hkeep'
    rw [IgnoreHandler.resolveValues, if_neg hemp]
    simp only [hkeep', Bool.false_eq_true, if_false]
    rw [specResolvedAttrs, List.filterMap_cons, if_neg hemp]
    simp only [hkeep2, if_true, List.foldl_cons]
    rw [← specResolvedAttrs]
    exact ih hflat.2

theorem AppendHandler.resolveValues_flat_ap (rk : ResolveKeyFn) (uniq : UniqMap)
    (attrs : List Attr) (groups : List String) (hflat : attrs.all Attr.isFlat = true) :
    AppendHandler.resolveValues rk uniq attrs groups =
      (specResolvedAttrs rk groups attrs).foldl
        (fun m a => AppendHandler.putAppend m a.key (TreeVal.attr a)) uniq := by
  induction uniq, attrs, groups using AppendHandler.resolveValues.induct rk with
  | case1 uniq groups =>
    rw [AppendHandler.resolveValues, specResolvedAttrs]
    rfl
  | case2 uniq groups a rest hemp ih =>
    rw [List.all_cons, Bool.and_eq_true] at hflat
    rw [AppendHandler.resolveValues, if_pos hemp, specResolvedAttrs, List.filterMap_cons,
      if_pos hemp]
    exact ih hflat.2
  | case3 uniq groups a rest hemp r hkeep ih =>
    rw [List.all_cons, Bool.and_eq_true] at hflat
    have hkeep' : (!(rk groups a.key 0).2) = true := hkeep
    have hkeep2 : (rk groups a.key 0).2 = false := by simpa using hkeep'
    rw [AppendHandler.resolveValues, if_neg hemp]
    simp only [hkeep', if_true]
    rw [specResolvedAttrs, List.filterMap_cons, if_neg hemp]
    simp only [hkeep2, Bool.false_eq_true, if_false]
    exact ih hflat.2
  | case4 uniq groups a rest hemp r hkeep gAttrs hv hkey ihg ih =>
    exfalso
    rw [List.all_cons, Bool.and_eq_true] at hflat
    have h1 := hflat.1
    rw [Attr.isFlat] at h1
    have : a.value.isGroup = true := by
      have hv' : a.value = Value.group gAttrs := hv
      rw [hv', Value.isGroup]
    rw [this] at h1
    exact Bool.false_ne_true (by simpa using h1)
  | case5 uniq groups a rest hemp r hkeep gAttrs hv hkey uniqGroup hlen ihg ihg2 ih =>
    exfalso
    rw [List.all_cons, Bool.and_eq_true] at hflat
    have h1 := hflat.1
    rw [Attr.isFlat] at h1
    have : a.value.isGroup = true := by
      have hv' : a.value = Value.group gAttrs := hv
      rw [hv', Value.isGroup]
    rw [this] at h1
    exact Bool.false_ne_true (by simpa using h1)
  | case6 uniq groups a rest hemp r hkeep gAttrs hv hkey uniqGroup hlen ihg ih =>
    exfalso
    rw [List.all_cons, Bool.and_eq_true] at hflat
    have h1 := hflat.1
    rw [Attr.isFlat] at h1
    have : a.value.isGroup = true := by
      have hv' : a.value = Value.group gAttrs := hv
      rw [hv', Value.isGroup]
    rw [this] at h1
    exact Bool.false_ne_true (by simpa using h1)
  | case7 uniq groups a rest hemp r hkeep hng ih =>
    rw [List.all_cons, Bool.and_eq_true] at hflat
    have hkeep' : ¬ (!(rk groups a.key 0).2) = true := hkeep
    have hkeep2 : (rk groups a.key 0).2 = true := by simpa using hkeep'
    rw [AppendHandler.resolveValues, if_neg hemp]
    simp only [hkeep', Bool.false_eq_true, if_false]
    rw [specResolvedAttrs, List.filterMap_cons, if_neg hemp]
    simp only [hkeep2, if_true, List.foldl_cons]
    rw [← specResolvedAttrs]
    exact ih hflat.2

theorem foldl_insert_sorted (f : UniqMap → Attr → UniqMap)
    (hf : ∀ m a, SortedMap m → SortedMap (f m a)) (res : List Attr) :
    ∀ m : UniqMap, SortedMap m → SortedMap (res.foldl f m) := by
  induction res with
  | nil => intro m hm; exact hm
  | cons a tl ih =>
    intro m hm
    rw [List.foldl_cons]
    exact ih _ (hf m a hm)

theorem sortedMap_keys_nodup (m : UniqMap) (h : SortedMap m) : (mapKeys m).Nodup := by
  rw [mapKeys, List.Nodup, List.pairwise_map]
  exact h.imp (fun hab => strLt_ne hab)

theorem foldl_set_get (res : List Attr) :
    ∀ (m : UniqMap) (k2 : String),
    BTree.get (res.foldl (fun m a => BTree.set m a.key (TreeVal.attr a)) m) k2 =
      match res.reverse.find? (fun a => a.key == k2) with
      | some a => some (TreeVal.attr a)
      | none => BTree.get m k2 := by
  induction res with
  | nil => intro m k2; simp
  | cons a tl ih =>
    intro m k2
    rw [List.foldl_cons, ih, List.reverse_cons, List.find?_append]
    cases hfind : tl.reverse.find? (fun a => a.key == k2) with
    | some b => simp
    | none =>
      simp only [Option.none_orElse]
      rw [BTree.get_set]
      by_cases h : k2 = a.key
      · have hfa : (a.key == k2) = true := by simpa using h.symm
        simp [List.find?_cons, hfa, h]
      · have hfa : (a.key == k2) = false := by simpa using fun hh => h hh.symm
        simp [List.find?_cons, hfa, h]

theorem foldl_putIfAbsent_get (res : List Attr) :
    ∀ (m : UniqMap) (k2 : String), SortedMap m →
    BTree.get (res.foldl (fun m a => IgnoreHandler.putIfAbsent m a.key (TreeVal.attr a)) m) k2 =
      Option.or (BTree.get m k2) ((res.find? (fun a => a.key == k2)).map TreeVal.attr) := by
  induction res with
  | nil => intro m k2 hm; simp
  | cons a tl ih =>
    intro m k2 hm
    rw [List.foldl_cons, ih _ _ (IgnoreHandler.sorted_putIfAbsent m _ _ hm),
      IgnoreHandler.get_putIfAbsent m _ _ _ hm]
    by_cases h : k2 = a.key
    · subst h
      rw [if_pos rfl]
      rw [List.find?_cons_of_pos _ (by simp)]
      cases hget : BTree.get m a.key with
      | some o => simp [hget]
      | none => simp [hget]
    · rw [if_neg h]
      rw [List.find?_cons_of_neg _ (by simpa using fun hh => h hh.symm)]

theorem foldl_putAppend_get (res : List Attr) :
    ∀ (m : UniqMap) (k2 : String), SortedMap m →
    BTree.get (res.foldl (fun m a => AppendHandler.putAppend m a.key (TreeVal.attr a)) m) k2 =
      appendList (BTree.get m k2) (res.filter (fun a => a.key == k2)) := by
  induction res with
  | nil => intro m k2 hm; simp [appendList]
  | cons a tl ih =>
    intro m k2 hm
    rw [List.foldl_cons, ih _ _ (AppendHandler.sorted_putAppend m _ _ hm),
      AppendHandler.get_putAppend m _ _ _ hm]
    by_cases h : k2 = a.key
    · subst h
      rw [if_pos rfl]
      rw [List.filter_cons, if_pos (by simp), appendList]
    · rw [if_neg h]
      have hfa : (a.key == k2) = false := by simpa using fun hh => h hh.symm
      rw [List.filter_cons, if_neg (by simp [hfa])]

theorem appendList_appended (vs : List TreeVal) (l : List Attr) :
    appendList (some (.appended vs)) l = some (.appended (vs ++ l.map TreeVal.attr)) := by
  induction l generalizing vs with
  | nil => simp [appendList]
  | cons a tl ih =>
    rw [appendList]
    show appendList (some (.appended (vs ++ [TreeVal.attr a]))) tl = _
    rw [ih]
    simp

theorem appendList_none_shape (l : List Attr) :
    appendList none l = match l with
      | [] => none
      | [a] => some (TreeVal.attr a)
      | occs => some (TreeVal.appended (occs.map TreeVal.attr)) := by
  match l with
  | [] => rfl
  | [a] => rfl
  | a :: b :: rest =>
    show appendList (some (appendCombine none (TreeVal.attr a))) (b :: rest) = _
    rw [show appendCombine none (TreeVal.attr a) = TreeVal.attr a from rfl, appendList]
    show appendList (some (.appended [TreeVal.attr a, TreeVal.attr b])) rest = _
    rw [appendList_appended]
    simp

/-- C1: for every flat attribute batch processed into one map level by the
Overwrite policy, the output has exactly one entry per distinct resolved key
(keys are nodup, and a key is present exactly when it is a resolved key of the
input), and the entry stored under a key is the last occurrence, in
oldest-to-newest order, among the resolved input occurrences of that key. -/
theorem c1_overwrite_last_wins (rk : ResolveKeyFn) (attrs : List Attr) (groups : List String)
    (hflat : attrs.all Attr.isFlat = true) :
    (mapKeys (OverwriteHandler.resolveValues rk [] attrs groups)).Nodup ∧
    (∀ k, k ∈ mapKeys (OverwriteHandler.resolveValues rk [] attrs groups) ↔
      k ∈ (specResolvedAttrs rk groups attrs).map Attr.key) ∧
    (∀ k, BTree.get (OverwriteHandler.resolveValues rk [] attrs groups) k =
      ((specResolvedAttrs rk groups attrs).reverse.find? (fun a => a.key == k)).map
        TreeVal.attr) := by
  rw [OverwriteHandler.resolveValues_flat_ow rk [] attrs groups hflat]
  have hsorted : SortedMap ((specResolvedAttrs rk groups attrs).foldl
      (fun m a => BTree.set m a.key (TreeVal.attr a)) []) :=
    foldl_insert_sorted _ (fun m a hm => BTree.sorted_set _ _ _ hm) _ [] List.Pairwise.nil
  have hget : ∀ k, BTree.get ((specResolvedAttrs rk groups attrs).foldl
      (fun m a => BTree.set m a.key (TreeVal.attr a)) []) k =
      ((specResolvedAttrs rk groups attrs).reverse.find? (fun a => a.key == k)).map
        TreeVal.attr := by
    intro k
    rw [foldl_set_get]
    cases hf : (specResolvedAttrs rk groups attrs).reverse.find? (fun a => a.key == k) with
    | some a => rfl
    | none => rw [BTree.get]; rfl
  refine ⟨sortedMap_keys_nodup _ hsorted, ?_, hget⟩
  intro k
  rw [← BTree.get_isSome_iff, hget k]
  simp only [Option.isSome_map', List.find?_isSome, List.mem_reverse, List.mem_map,
    beq_iff_eq]

/-- C2 as amended: for every flat attribute batch processed into one map level
by the Ignore policy, the output key set equals the set of distinct resolved
keys of the input (keys are nodup, iterated in the order of the default key
comparison rather than in order of first occurrence), and the entry stored
under a key is its first occurrence among the resolved input occurrences. -/
theorem c2_amended_ignore_first_wins (rk : ResolveKeyFn) (attrs : List Attr)
    (groups : List String) (hflat : attrs.all Attr.isFlat = true) :
    SortedMap (IgnoreHandler.resolveValues rk [] attrs groups) ∧
    (mapKeys (IgnoreHandler.resolveValues rk [] attrs groups)).Nodup ∧
    (∀ k, k ∈ mapKeys (IgnoreHandler.resolveValues rk [] attrs groups) ↔
      k ∈ (specResolvedAttrs rk groups attrs).map Attr.key) ∧
    (∀ k, BTree.get (IgnoreHandler.resolveValues rk [] attrs groups) k =
      ((specResolvedAttrs rk groups attrs).find? (fun a => a.key == k)).map TreeVal.attr) := by
  rw [IgnoreHandler.resolveValues_flat_ig rk [] attrs groups hflat]
  have hsorted : SortedMap ((specResolvedAttrs rk groups attrs).foldl
      (fun m a => IgnoreHandler.putIfAbsent m a.key (TreeVal.attr a)) []) :=
    foldl_insert_sorted _ (fun m a hm => IgnoreHandler.sorted_putIfAbsent _ _ _ hm) _ []
      List.Pairwise.nil
  have hget : ∀ k, BTree.get ((specResolvedAttrs rk groups attrs).foldl
      (fun m a => IgnoreHandler.putIfAbsent m a.key (TreeVal.attr a)) []) k =
      ((specResolvedAttrs rk groups attrs).find? (fun a => a.key == k)).map TreeVal.attr := by
    intro k
    rw [foldl_putIfAbsent_get _ [] k List.Pairwise.nil]
    rw [BTree.get]
    exact Option.none_or
  refine ⟨hsorted, sortedMap_keys_nodup _ hsorted, ?_, hget⟩
  intro k
  rw [← BTree.get_isSome_iff, hget k]
  simp only [Option.isSome_map', List.find?_isSome, List.mem_map, beq_iff_eq]

/-- C4: for every flat attribute batch processed into one map level by the
Append policy, the output has exactly one entry per distinct resolved key; a
key with one resolved occurrence is stored as that bare attribute, and a key
with two or more occurrences is stored as the `appended` slice of all its
occurrence values in occurrence order. -/
theorem c4_append_accumulates (rk : ResolveKeyFn) (attrs : List Attr) (groups : List String)
    (hflat : attrs.all Attr.isFlat = true) :
    (mapKeys (AppendHandler.resolveValues rk [] attrs groups)).Nodup ∧
    (∀ k, k ∈ mapKeys (AppendHandler.resolveValues rk [] attrs groups) ↔
      k ∈ (specResolvedAttrs rk groups attrs).map Attr.key) ∧
    (∀ k, BTree.get (AppendHandler.resolveValues rk [] attrs groups) k =
      match (specResolvedAttrs rk groups attrs).filter (fun a => a.key == k) with
      | [] => none
      | [a] => some (TreeVal.attr a)
      | occs => some (TreeVal.appended (occs.map TreeVal.attr))) := by
  rw [AppendHandler.resolveValues_flat_ap rk [] attrs groups hflat]
  have hsorted : SortedMap ((specResolvedAttrs rk groups attrs).foldl
      (fun m a => AppendHandler.putAppend m a.key (TreeVal.attr a)) []) :=
    foldl_insert_sorted _ (fun m a hm => AppendHandler.sorted_putAppend _ _ _ hm) _ []
      List.Pairwise.nil
  have hget : ∀ k, BTree.get ((specResolvedAttrs rk groups attrs).foldl
      (fun m a => AppendHandler.putAppend m a.key (TreeVal.attr a)) []) k =
      appendList none ((specResolvedAttrs rk groups attrs).filter (fun a => a.key == k)) := by
    intro k
    rw [foldl_putAppend_get _ [] k List.Pairwise.nil]
    rw [BTree.get]
  refine ⟨sortedMap_keys_nodup _ hsorted, ?_, ?_⟩
  · intro k
    rw [← BTree.get_isSome_iff, hget k, appendList_none_shape]
    cases hf : (specResolvedAttrs rk groups attrs).filter (fun a => a.key == k) with
    | nil =>
      simp only [Option.isSome_none, Bool.false_eq_true, false_iff]
      intro hmem
      obtain ⟨a, ha, hk⟩ := List.mem_map.mp hmem
      have : a ∈ (specResolvedAttrs rk groups attrs).filter (fun x => x.key == k) :=
        List.mem_filter.mpr ⟨ha, by simpa using hk⟩
      rw [hf] at this
      exact absurd this (List.not_mem_nil a)
    | cons b tl =>
      have hb : b ∈ (specResolvedAttrs rk groups attrs).filter (fun a => a.key == k) := by
        rw [hf]; exact List.mem_cons_self _ _
      obtain ⟨hbmem, hbk⟩ := List.mem_filter.mp hb
      have : k ∈ (specResolvedAttrs rk groups attrs).map Attr.key :=
        List.mem_map.mpr ⟨b, hbmem, by simpa using hbk⟩
      cases tl <;> simp [this]
  · intro k
    rw [hget k, appendList_none_shape]


/-- Witness for C1 at the concrete scenario attributes. -/
theorem c1_overwrite_last_wins_witness :
    (exampleAttrs.all Attr.isFlat = true) ∧
    ((mapKeys (OverwriteHandler.resolveValues defaultResolveKey [] exampleAttrs [])).Nodup ∧
    (∀ k, k ∈ mapKeys (OverwriteHandler.resolveValues defaultResolveKey [] exampleAttrs []) ↔
      k ∈ (specResolvedAttrs defaultResolveKey [] exampleAttrs).map Attr.key) ∧
    (∀ k, BTree.get (OverwriteHandler.resolveValues defaultResolveKey [] exampleAttrs []) k =
      ((specResolvedAttrs defaultResolveKey [] exampleAttrs).reverse.find?
        (fun a => a.key == k)).map TreeVal.attr)) :=
  ⟨by decide, c1_overwrite_last_wins defaultResolveKey exampleAttrs [] (by decide)⟩

/-- Witness for the amended C2 at the concrete scenario attributes. -/
theorem c2_amended_ignore_first_wins_witness :
    (exampleAttrs.all Attr.isFlat = true) ∧
    (SortedMap (IgnoreHandler.resolveValues defaultResolveKey [] exampleAttrs []) ∧
    (mapKeys (IgnoreHandler.resolveValues defaultResolveKey [] exampleAttrs [])).Nodup ∧
    (∀ k, k ∈ mapKeys (IgnoreHandler.resolveValues defaultResolveKey [] exampleAttrs []) ↔
      k ∈ (specResolvedAttrs defaultResolveKey [] exampleAttrs).map Attr.key) ∧
    (∀ k, BTree.get (IgnoreHandler.resolveValues defaultResolveKey [] exampleAttrs []) k =
      ((specResolvedAttrs defaultResolveKey [] exampleAttrs).find?
        (fun a => a.key == k)).map TreeVal.attr)) :=
  ⟨by decide, c2_amended_ignore_first_wins defaultResolveKey exampleAttrs [] (by decide)⟩

/-- Witness for C4 at the concrete scenario attributes. -/
theorem c4_append_accumulates_witness :
    (exampleAttrs.all Attr.isFlat = true) ∧
    ((mapKeys (AppendHandler.resolveValues defaultResolveKey [] exampleAttrs [])).Nodup ∧
    (∀ k, k ∈ mapKeys (AppendHandler.resolveValues defaultResolveKey [] exampleAttrs []) ↔
      k ∈ (specResolvedAttrs defaultResolveKey [] exampleAttrs).map Attr.key) ∧
    (∀ k, BTree.get (AppendHandler.resolveValues defaultResolveKey [] exampleAttrs []) k =
      match (specResolvedAttrs defaultResolveKey [] exampleAttrs).filter (fun a => a.key == k) with
      | [] => none
      | [a] => some (TreeVal.attr a)
      | occs => some (TreeVal.appended (occs.map TreeVal.attr)))) :=
  ⟨by decide, c4_append_accumulates defaultResolveKey exampleAttrs [] (by decide)⟩

theorem resolveIncrementKeyLoop_mem_range (rk : ResolveKeyFn) (groups : List String)
    (key : String) :
    ∀ (L : UniqMap) (i : Nat), ∃ j, resolveIncrementKeyLoop rk groups key L i (rk groups key i)
      = rk groups key j := by
  intro L
  induction L with
  | nil => intro i; exact ⟨i, rfl⟩
  | cons p rest ih =>
    intro i
    obtain ⟨k0, v0⟩ := p
    rw [resolveIncrementKeyLoop]
    by_cases hlt : strLt (rk groups key i).1 k0 = true
    · rw [if_pos hlt]
      exact ⟨i, rfl⟩
    · rw [if_neg hlt]
      by_cases heq : k0 = (rk groups key i).1
      · rw [if_pos (by simpa using heq)]
        exact ih (i + 1)
      · rw [if_neg (by simpa using heq)]
        exact ih i

theorem resolveIncrementKey_mem_range (rk : ResolveKeyFn) (uniq : UniqMap)
    (groups : List String) (key : String) :
    ∃ j, resolveIncrementKey rk uniq groups key = rk groups key j := by
  rw [resolveIncrementKey]
  exact resolveIncrementKeyLoop_mem_range rk groups key _ 0

theorem defaultResolveKey_keep (groups : List String) (key : String) (i : Nat) :
    (defaultResolveKey groups key i).2 = true := by
  rw [defaultResolveKey]
  split <;> rfl

theorem defaultResolveKey_builtin_root (key : String) (hk : DoesBuiltinKeyConflict key = true)
    (i : Nat) : defaultResolveKey [] key i = (IncrementKeyName key (i + 1), true) := by
  simp [defaultResolveKey, hk]

theorem defaultResolveKey_not_builtin_root (key : String)
    (hk : DoesBuiltinKeyConflict key = false) (i : Nat) :
    defaultResolveKey [] key i = (IncrementKeyName key i, true) := by
  simp [defaultResolveKey, hk]

theorem defaultResolveKey_nonroot (groups : List String) (hg : groups ≠ []) (key : String)
    (i : Nat) : defaultResolveKey groups key i = (IncrementKeyName key i, true) := by
  simp [defaultResolveKey, hg]

theorem defaultResolveKey_root_not_builtin (key : String) (i : Nat) :
    DoesBuiltinKeyConflict (defaultResolveKey [] key i).1 = false := by
  by_cases hk : DoesBuiltinKeyConflict key = true
  · rw [defaultResolveKey_builtin_root key hk i]
    exact DoesBuiltinKeyConflict_IncrementKeyName_succ key i
  · rw [defaultResolveKey_not_builtin_root key (by simpa using hk) i]
    cases i with
    | zero => simpa using hk
    | succ j => exact DoesBuiltinKeyConflict_IncrementKeyName_succ key j

theorem IncrementHandler.mem_keys_resolveValues (rk : ResolveKeyFn) (uniq : UniqMap)
    (attrs : List Attr) (groups : List String) (k : String)
    (hk : k ∈ mapKeys (IncrementHandler.resolveValues rk uniq attrs groups)) :
    k ∈ mapKeys uniq ∨ ∃ k0 i, k = (rk groups k0 i).1 := by
  induction uniq, attrs, groups using IncrementHandler.resolveValues.induct rk with
  | case1 uniq groups =>
    rw [IncrementHandler.resolveValues] at hk
    exact Or.inl hk
  | case2 uniq groups a rest hemp ih =>
    rw [IncrementHandler.resolveValues, if_pos hemp] at hk
    exact ih hk
  | case3 uniq groups a rest hemp r hkeep ih =>
    have hkeep' : (!(resolveIncrementKey rk uniq groups a.key).2) = true := hkeep
    rw [IncrementHandler.resolveValues, if_neg hemp] at hk
    simp only [hkeep', if_true] at hk
    exact ih hk
  | case4 uniq groups a rest hemp r hkeep gAttrs hv hkey ihg ih =>
    have hkeep' : ¬ (!(resolveIncrementKey rk uniq groups a.key).2) = true := hkeep
    have hkey' : (resolveIncrementKey rk uniq groups a.key).1 = "" := hkey
    rw [IncrementHandler.resolveValues, if_neg hemp] at hk
    simp only [hkeep', Bool.false_eq_true, if_false] at hk
    split at hk
    · rename_i gAttrs2 heq
      rw [hv] at heq
      injection heq with hg
      subst hg
      rw [if_pos hkey] at hk
      rcases ih hk with h1 | h1
      · exact ihg h1
      · exact Or.inr h1
    · rename_i hne
      exact absurd hv (hne gAttrs)
  | case5 uniq groups a rest hemp r hkeep gAttrs hv hkey uniqGroup hlen ihg ihg2 ih =>
    have hkeep' : ¬ (!(resolveIncrementKey rk uniq groups a.key).2) = true := hkeep
    have hkey' : ¬ (resolveIncrementKey rk uniq groups a.key).1 = "" := hkey
    have hlen' : 0 < (IncrementHandler.resolveValues rk [] gAttrs
        (groups ++ [(resolveIncrementKey rk uniq groups a.key).1])).length := hlen
    rw [IncrementHandler.resolveValues, if_neg hemp] at hk
    simp only [hkeep', Bool.false_eq_true, if_false] at hk
    split at hk
    · rename_i gAttrs2 heq
      rw [hv] at heq
      injection heq with hg
      subst hg
      rw [if_neg hkey, if_pos hlen] at hk
      rcases ih hk with h1 | h1
      · rcases (BTree.mem_keys_set uniq _ _ k).mp h1 with h2 | h2
        · obtain ⟨j, hj⟩ := resolveIncrementKey_mem_range rk uniq groups a.key
          refine Or.inr ⟨a.key, j, ?_⟩
          rw [h2]
          exact congrArg Prod.fst hj
        · exact Or.inl h2
      · exact Or.inr h1
    · rename_i hne
      exact absurd hv (hne gAttrs)
  | case6 uniq groups a rest hemp r hkeep gAttrs hv hkey uniqGroup hlen ihg ih =>
    have hkeep' : ¬ (!(resolveIncrementKey rk uniq groups a.key).2) = true := hkeep
    have hkey' : ¬ (resolveIncrementKey rk uniq groups a.key).1 = "" := hkey
    have hlen' : ¬ 0 < (IncrementHandler.resolveValues rk [] gAttrs
        (groups ++ [(resolveIncrementKey rk uniq groups a.key).1])).length := hlen
    rw [IncrementHandler.resolveValues, if_neg hemp] at hk
    simp only [hkeep', Bool.false_eq_true, if_false] at hk
    split at hk
    · rename_i gAttrs2 heq
      rw [hv] at heq
      injection heq with hg
      subst hg
      rw [if_neg hkey, if_neg hlen] at hk
      exact ih hk
    · rename_i hne
      exact absurd hv (hne gAttrs)
  | case7 uniq groups a rest hemp r hkeep hng ih =>
    have hkeep' : ¬ (!(resolveIncrementKey rk uniq groups a.key).2) = true := hkeep
    rw [IncrementHandler.resolveValues, if_neg hemp] at hk
    simp only [hkeep', Bool.false_eq_true, if_false] at hk
    rcases ih hk with h1 | h1
    · rcases (BTree.mem_keys_set uniq _ _ k).mp h1 with h2 | h2
      · obtain ⟨j, hj⟩ := resolveIncrementKey_mem_range rk uniq groups a.key
        refine Or.inr ⟨a.key, j, ?_⟩
        rw [h2]
        exact congrArg Prod.fst hj
      · exact Or.inl h2
    · exact Or.inr h1

theorem IncrementHandler.mem_keys_createAttrTree (rk : ResolveKeyFn)
    (goas : List groupOrAttrs) :
    ∀ (uniq : UniqMap) (groups : List String) (k : String),
    k ∈ mapKeys (IncrementHandler.createAttrTree rk uniq goas groups) →
    k ∈ mapKeys uniq ∨ ∃ k0 i, k = (rk groups k0 i).1 := by
  induction goas with
  | nil =>
    intro uniq groups k hk
    rw [IncrementHandler.createAttrTree] at hk
    exact Or.inl hk
  | cons g rest ih =>
    intro uniq groups k hk
    rw [IncrementHandler.createAttrTree] at hk
    by_cases hc : (g.group != "" && (resolveIncrementKey rk uniq groups g.group).2) = true
    · simp only [hc, if_true] at hk
      by_cases hlen : 0 < (IncrementHandler.createAttrTree rk [] rest
          (groups ++ [(resolveIncrementKey rk uniq groups g.group).1])).length
      · rw [if_pos hlen] at hk
        rcases (BTree.mem_keys_set uniq _ _ k).mp hk with h2 | h2
        · obtain ⟨j, hj⟩ := resolveIncrementKey_mem_range rk uniq groups g.group
          refine Or.inr ⟨g.group, j, ?_⟩
          rw [h2]
          exact congrArg Prod.fst hj
        · exact Or.inl h2
      · rw [if_neg hlen] at hk
        exact Or.inl hk
    · simp only [hc, Bool.false_eq_true, if_false] at hk
      rcases ih _ _ _ hk with h1 | h1
      · exact IncrementHandler.mem_keys_resolveValues rk uniq g.attrs groups k h1
      · exact Or.inr h1

/-- C6: under the Increment policy with the default builtin-conflict
resolution, any occurrence of one of the four reserved keys at the root level
resolves to a suffixed key with index at least 1 (for example `time` on an
empty level resolves to `time#01`), and no key of a tree built at the root
level ever equals a reserved name. -/
theorem c6_increment_builtin_never_bare (uniq : UniqMap) (k : String)
    (goas : List groupOrAttrs) :
    (DoesBuiltinKeyConflict k = true →
      ∃ i, resolveIncrementKey defaultResolveKey uniq [] k =
        (IncrementKeyName k (i + 1), true)) ∧
    resolveIncrementKey defaultResolveKey [] [] "time" = ("time#01", true) ∧
    (∀ k2 ∈ mapKeys (IncrementHandler.createAttrTree defaultResolveKey [] goas []),
      DoesBuiltinKeyConflict k2 = false) := by
  refine ⟨?_, by decide, ?_⟩
  · intro hb
    obtain ⟨j, hj⟩ := resolveIncrementKey_mem_range defaultResolveKey uniq [] k
    rw [defaultResolveKey_builtin_root k hb j] at hj
    exact ⟨j, hj⟩
  · intro k2 hk2
    rcases IncrementHandler.mem_keys_createAttrTree defaultResolveKey goas [] [] k2 hk2 with
      h | ⟨k0, i, hk⟩
    · exact absurd h (by simp [mapKeys])
    · rw [hk]
      exact defaultResolveKey_root_not_builtin k0 i

/-- Witness for C6 at the reserved key `time` on a concrete level map. -/
theorem c6_increment_builtin_never_bare_witness :
    DoesBuiltinKeyConflict "time" = true ∧
    (∃ i, resolveIncrementKey defaultResolveKey
      [("time#01", TreeVal.attr (Attr.mk "time#01" (.scalar (.str "t1"))))] [] "time" =
        (IncrementKeyName "time" (i + 1), true)) :=
  ⟨by decide, (c6_increment_builtin_never_bare
    [("time#01", TreeVal.attr (Attr.mk "time#01" (.scalar (.str "t1"))))] "time" []).1
    (by decide)⟩

theorem keyLtAllB_iff (a : String) (m : UniqMap) :
    keyLtAllB a m = true ↔ ∀ p ∈ m, strLt a p.1 = true := by
  induction m with
  | nil => simp [keyLtAllB]
  | cons p rest ih =>
    obtain ⟨k', v'⟩ := p
    rw [keyLtAllB, Bool.and_eq_true, ih]
    constructor
    · rintro ⟨h1, h2⟩ q hq
      rcases List.mem_cons.mp hq with rfl | hq2
      · exact h1
      · exact h2 q hq2
    · intro h
      exact ⟨h _ (List.mem_cons_self _ _), fun q hq => h q (List.mem_cons_of_mem _ hq)⟩

theorem wfDedupMap_iff_parts (root : Bool) (m : UniqMap) :
    wfDedupMap root m = true ↔
      (SortedMap m ∧ ∀ p ∈ m, wfDedupVal root p.1 p.2 = true) := by
  induction m with
  | nil => simp [wfDedupMap, SortedMap]
  | cons p rest ih =>
    obtain ⟨k', v'⟩ := p
    rw [wfDedupMap, Bool.and_eq_true, Bool.and_eq_true, ih, keyLtAllB_iff]
    constructor
    · rintro ⟨⟨h1, h2⟩, h3, h4⟩
      refine ⟨List.Pairwise.cons h2 h3, ?_⟩
      intro q hq
      rcases List.mem_cons.mp hq with rfl | hq2
      · exact h1
      · exact h4 q hq2
    · rintro ⟨hs, hv⟩
      simp only [SortedMap, List.pairwise_cons] at hs
      exact ⟨⟨hv _ (List.mem_cons_self _ _), hs.1⟩, hs.2,
        fun q hq => hv q (List.mem_cons_of_mem _ hq)⟩

theorem wfDedupMap_sorted (root : Bool) (m : UniqMap) (h : wfDedupMap root m = true) :
    SortedMap m := ((wfDedupMap_iff_parts root m).mp h).1

theorem BTree.mem_set_elim (m : UniqMap) (k : String) (v : TreeVal) (p : String × TreeVal)
    (hp : p ∈ BTree.set m k v) : p = (k, v) ∨ p ∈ m := by
  induction m with
  | nil => simpa [BTree.set] using hp
  | cons q rest ih =>
    obtain ⟨k', v'⟩ := q
    rw [BTree.set] at hp
    by_cases h1 : k = k'
    · rw [if_pos (by simpa using h1)] at hp
      rcases List.mem_cons.mp hp with rfl | hp2
      · exact Or.inl (by rw [h1])
      · exact Or.inr (List.mem_cons_of_mem _ hp2)
    · rw [if_neg (by simpa using h1)] at hp
      by_cases h2 : strLt k k' = true
      · rw [if_pos h2] at hp
        rcases List.mem_cons.mp hp with rfl | hp2
        · exact Or.inl rfl
        · exact Or.inr hp2
      · rw [if_neg h2] at hp
        rcases List.mem_cons.mp hp with rfl | hp2
        · exact Or.inr (List.mem_cons_self _ _)
        · rcases ih hp2 with h3 | h3
          · exact Or.inl h3
          · exact Or.inr (List.mem_cons_of_mem _ h3)

theorem IgnoreHandler.mem_putIfAbsent_elim (m : UniqMap) (k : String) (v : TreeVal)
    (p : String × TreeVal) (hp : p ∈ IgnoreHandler.putIfAbsent m k v) :
    p = (k, v) ∨ p ∈ m := by
  induction m with
  | nil => simpa [IgnoreHandler.putIfAbsent, BTree.put] using hp
  | cons q rest ih =>
    obtain ⟨k', v'⟩ := q
    rw [IgnoreHandler.putIfAbsent, BTree.put] at hp
    by_cases h1 : k = k'
    · rw [if_pos (by simpa using h1)] at hp
      exact Or.inr hp
    · rw [if_neg (by simpa using h1)] at hp
      by_cases h2 : strLt k k' = true
      · rw [if_pos h2] at hp
        rcases List.mem_cons.mp hp with rfl | hp2
        · exact Or.inl rfl
        · exact Or.inr hp2
      · rw [if_neg h2] at hp
        rcases List.mem_cons.mp hp with rfl | hp2
        · exact Or.inr (List.mem_cons_self _ _)
        · rcases ih hp2 with h3 | h3
          · exact Or.inl h3
          · exact Or.inr (List.mem_cons_of_mem _ h3)

theorem wfDedupMap_set (root : Bool) (m : UniqMap) (k : String) (v : TreeVal)
    (hm : wfDedupMap root m = true) (hv : wfDedupVal root k v = true) :
    wfDedupMap root (BTree.set m k v) = true := by
  rw [wfDedupMap_iff_parts] at hm ⊢
  refine ⟨BTree.sorted_set m k v hm.1, ?_⟩
  intro p hp
  rcases BTree.mem_set_elim m k v p hp with rfl | hp2
  · exact hv
  · exact hm.2 p hp2

theorem wfDedupMap_putIfAbsent (root : Bool) (m : UniqMap) (k : String) (v : TreeVal)
    (hm : wfDedupMap root m = true) (hv : wfDedupVal root k v = true) :
    wfDedupMap root (IgnoreHandler.putIfAbsent m k v) = true := by
  rw [wfDedupMap_iff_parts] at hm ⊢
  refine ⟨IgnoreHandler.sorted_putIfAbsent m k v hm.1, ?_⟩
  intro p hp
  rcases IgnoreHandler.mem_putIfAbsent_elim m k v p hp with rfl | hp2
  · exact hv
  · exact hm.2 p hp2

theorem Attr.isEmpty_eq_true_key (a : Attr) (h : Attr.isEmpty a = true) : a.key = "" := by
  cases a with
  | mk k v =>
    cases v with
    | scalar s =>
      cases s with
      | nil => simpa [Attr.isEmpty, Attr.key] using h
      | str s => simp [Attr.isEmpty] at h
      | int n => simp [Attr.isEmpty] at h
      | bool b => simp [Attr.isEmpty] at h
    | group g => simp [Attr.isEmpty] at h
    | list vs => simp [Attr.isEmpty] at h
    | map e => simp [Attr.isEmpty] at h

theorem defaultResolveKey_fst_eq_or_ne_empty (groups : List String) (k : String) (i : Nat) :
    (defaultResolveKey groups k i).1 = k ∨ (defaultResolveKey groups k i).1 ≠ "" := by
  rw [defaultResolveKey]
  split
  · exact Or.inr (IncrementKeyName_succ_ne_empty k i)
  · cases i with
    | zero => exact Or.inl rfl
    | succ j => exact Or.inr (IncrementKeyName_succ_ne_empty k j)

theorem defaultResolveKey_zero_id (groups : List String) (k : String)
    (h : (groups.isEmpty && DoesBuiltinKeyConflict k) = false) :
    defaultResolveKey groups k 0 = (k, true) := by
  rw [defaultResolveKey]
  cases groups with
  | nil =>
    simp only [List.isEmpty_nil, Bool.true_and] at h
    simp [h, IncrementKeyName]
  | cons g gs =>
    simp [IncrementKeyName]

theorem defaultResolveKey_okKey (groups : List String) (k : String) (i : Nat) :
    (groups.isEmpty && DoesBuiltinKeyConflict (defaultResolveKey groups k i).1) = false := by
  cases groups with
  | nil => simp [defaultResolveKey_root_not_builtin k i]
  | cons g gs => simp

theorem groups_append_not_root (groups : List String) (k : String) :
    (groups ++ [k]).isEmpty = false := by
  simp

theorem Value.isGroup_eq_false_of_not_group (v : Value)
    (h : ∀ g, v = Value.group g → False) : v.isGroup = false := by
  cases v with
  | group g => exact absurd rfl (h g)
  | scalar s => rfl
  | list vs => rfl
  | map e => rfl

theorem Attr.isEmpty_resolved (groups : List String) (k : String) (v : Value) (i : Nat)
    (hemp : ¬ (Attr.mk k v).isEmpty = true) :
    ¬ (Attr.mk (defaultResolveKey groups k i).1 v).isEmpty = true := by
  rcases defaultResolveKey_fst_eq_or_ne_empty groups k i with hk | hk
  · rw [hk]
    exact hemp
  · intro hcontra
    exact hk (Attr.isEmpty_eq_true_key _ hcontra)

theorem OverwriteHandler.wfDedup_resolveValues_ow (uniq : UniqMap) (attrs : List Attr)
    (groups : List String) (h : wfDedupMap groups.isEmpty uniq = true) :
    wfDedupMap groups.isEmpty
      (OverwriteHandler.resolveValues defaultResolveKey uniq attrs groups) = true := by
  induction uniq, attrs, groups using OverwriteHandler.resolveValues.induct defaultResolveKey with
  | case1 uniq groups => rwa [OverwriteHandler.resolveValues]
  | case2 uniq groups a rest hemp ih =>
    rw [OverwriteHandler.resolveValues, if_pos hemp]
    exact ih h
  | case3 uniq groups a rest hemp r hkeep ih =>
    have hkeep' : (!(defaultResolveKey groups a.key 0).2) = true := hkeep
    rw [defaultResolveKey_keep] at hkeep'
    exact absurd hkeep' (by simp)
  | case4 uniq groups a rest hemp r hkeep gAttrs hv hkey ihg ih =>
    have hkeep' : ¬ (!(defaultResolveKey groups a.key 0).2) = true := hkeep
    have hkey' : (defaultResolveKey groups a.key 0).1 = "" := hkey
    rw [OverwriteHandler.resolveValues, if_neg hemp]
    simp only [hkeep', Bool.false_eq_true, if_false]
    split
    · rename_i gAttrs2 heq
      rw [hv] at heq
      injection heq with hg
      subst hg
      rw [if_pos hkey']
      exact ih (ihg h)
    · rename_i hne
      exact absurd hv (hne gAttrs)
  | case5 uniq groups a rest hemp r hkeep gAttrs hv hkey uniqGroup hlen ihg ihg2 ih =>
    have hkeep' : ¬ (!(defaultResolveKey groups a.key 0).2) = true := hkeep
    have hkey' : ¬ (defaultResolveKey groups a.key 0).1 = "" := hkey
    have hlen' : 0 < (OverwriteHandler.resolveValues defaultResolveKey [] gAttrs
        (groups ++ [(defaultResolveKey groups a.key 0).1])).length := hlen
    rw [OverwriteHandler.resolveValues, if_neg hemp]
    simp only [hkeep', Bool.false_eq_true, if_false]
    split
    · rename_i gAttrs2 heq
      rw [hv] at heq
      injection heq with hg
      subst hg
      rw [if_neg hkey', if_pos hlen']
      apply ih
      apply wfDedupMap_set _ _ _ _ h
      rw [wfDedupVal]
      simp only [Bool.and_eq_true]
      refine ⟨⟨⟨by simpa using hkey', ?_⟩, ?_⟩, ?_⟩
      · rw [defaultResolveKey_okKey groups a.key 0]
        rfl
      · simp only [Bool.not_eq_true', List.isEmpty_eq_false]
        exact List.length_pos.mp hlen'
      · have := ihg2 (by rw [wfDedupMap])
        rwa [groups_append_not_root] at this
    · rename_i hne
      exact absurd hv (hne gAttrs)
  | case6 uniq groups a rest hemp r hkeep gAttrs hv hkey uniqGroup hlen ihg ih =>
    have hkeep' : ¬ (!(defaultResolveKey groups a.key 0).2) = true := hkeep
    have hkey' : ¬ (defaultResolveKey groups a.key 0).1 = "" := hkey
    have hlen' : ¬ 0 < (OverwriteHandler.resolveValues defaultResolveKey [] gAttrs
        (groups ++ [(defaultResolveKey groups a.key 0).1])).length := hlen
    rw [OverwriteHandler.resolveValues, if_neg hemp]
    simp only [hkeep', Bool.false_eq_true, if_false]
    split
    · rename_i gAttrs2 heq
      rw [hv] at heq
      injection heq with hg
      subst hg
      rw [if_neg hkey', if_neg hlen']
      exact ih h
    · rename_i hne
      exact absurd hv (hne gAttrs)
  | case7 uniq groups a rest hemp r hkeep hng ih =>
    have hkeep' : ¬ (!(defaultResolveKey groups a.key 0).2) = true := hkeep
    rw [OverwriteHandler.resolveValues, if_neg hemp]
    simp only [hkeep', Bool.false_eq_true, if_false]
    apply ih
    apply wfDedupMap_set _ _ _ _ h
    rw [wfDedupVal]
    simp only [Bool.and_eq_true]
    refine ⟨⟨⟨by simp, ?_⟩, ?_⟩, ?_⟩
    · simp only [Bool.not_eq_true']
      exact Value.isGroup_eq_false_of_not_group _ hng
    · simp only [Bool.not_eq_true']
      rw [Bool.eq_false_iff]
      intro hcontra
      exact Attr.isEmpty_resolved groups a.key a.value.resolve 0 hemp hcontra
    · rw [defaultResolveKey_okKey groups a.key 0]
      rfl

theorem IgnoreHandler.wfDedup_resolveValues_ig (uniq : UniqMap) (attrs : List Attr)
    (groups : List String) (h : wfDedupMap groups.isEmpty uniq = true) :
    wfDedupMap groups.isEmpty
      (IgnoreHandler.resolveValues defaultResolveKey uniq attrs groups) = true := by
  induction uniq, attrs, groups using IgnoreHandler.resolveValues.induct defaultResolveKey with
  | case1 uniq groups => rwa [IgnoreHandler.resolveValues]
  | case2 uniq groups a rest hemp ih =>
    rw [IgnoreHandler.resolveValues, if_pos hemp]
    exact ih h
  | case3 uniq groups a rest hemp r hkeep ih =>
    have hkeep' : (!(defaultResolveKey groups a.key 0).2) = true := hkeep
    rw [defaultResolveKey_keep] at hkeep'
    exact absurd hkeep' (by simp)
  | case4 uniq groups a rest hemp r hkeep gAttrs hv hkey ihg ih =>
    have hkeep' : ¬ (!(defaultResolveKey groups a.key 0).2) = true := hkeep
    have hkey' : (defaultResolveKey groups a.key 0).1 = "" := hkey
    rw [IgnoreHandler.resolveValues, if_neg hemp]
    simp only [hkeep', Bool.false_eq_true, if_false]
    split
    · rename_i gAttrs2 heq
      rw [hv] at heq
      injection heq with hg
      subst hg
      rw [if_pos hkey']
      exact ih (ihg h)
    · rename_i hne
      exact absurd hv (hne gAttrs)
  | case5 uniq groups a rest hemp r hkeep gAttrs hv hkey uniqGroup hlen ihg ihg2 ih =>
    have hkeep' : ¬ (!(defaultResolveKey groups a.key 0).2) = true := hkeep
    have hkey' : ¬ (defaultResolveKey groups a.key 0).1 = "" := hkey
    have hlen' : 0 < (IgnoreHandler.resolveValues defaultResolveKey [] gAttrs
        (groups ++ [(defaultResolveKey groups a.key 0).1])).length := hlen
    rw [IgnoreHandler.resolveValues, if_neg hemp]
    simp only [hkeep', Bool.false_eq_true, if_false]
    split
    · rename_i gAttrs2 heq
      rw [hv] at heq
      injection heq with hg
      subst hg
      rw [if_neg hkey', if_pos hlen']
      apply ih
      apply wfDedupMap_putIfAbsent _ _ _ _ h
      rw [wfDedupVal]
      simp only [Bool.and_eq_true]
      refine ⟨⟨⟨by simpa using hkey', ?_⟩, ?_⟩, ?_⟩
      · rw [defaultResolveKey_okKey groups a.key 0]
        rfl
      · simp only [Bool.not_eq_true', List.isEmpty_eq_false]
        exact List.length_pos.mp hlen'
      · have := ihg2 (by rw [wfDedupMap])
        rwa [groups_append_not_root] at this
    · rename_i hne
      exact absurd hv (hne gAttrs)
  | case6 uniq groups a rest hemp r hkeep gAttrs hv hkey uniqGroup hlen ihg ih =>
    have hkeep' : ¬ (!(defaultResolveKey groups a.key 0).2) = true := hkeep
    have hkey' : ¬ (defaultResolveKey groups a.key 0).1 = "" := hkey
    have hlen' : ¬ 0 < (IgnoreHandler.resolveValues defaultResolveKey [] gAttrs
        (groups ++ [(defaultResolveKey groups a.key 0).1])).length := hlen
    rw [IgnoreHandler.resolveValues, if_neg hemp]
    simp only [hkeep', Bool.false_eq_true, if_false]
    split
    · rename_i gAttrs2 heq
      rw [hv] at heq
      injection heq with hg
      subst hg
      rw [if_neg hkey', if_neg hlen']
      exact ih h
    · rename_i hne
      exact absurd hv (hne gAttrs)
  | case7 uniq groups a rest hemp r hkeep hng ih =>
    have hkeep' : ¬ (!(defaultResolveKey groups a.key 0).2) = true := hkeep
    rw [IgnoreHandler.resolveValues, if_neg hemp]
    simp only [hkeep', Bool.false_eq_true, if_false]
    apply ih
    apply wfDedupMap_putIfAbsent _ _ _ _ h
    rw [wfDedupVal]
    simp only [Bool.and_eq_true]
    refine ⟨⟨⟨by simp, ?_⟩, ?_⟩, ?_⟩
    · simp only [Bool.not_eq_true']
      exact Value.isGroup_eq_false_of_not_group _ hng
    · simp only [Bool.not_eq_true']
      rw [Bool.eq_false_iff]
      intro hcontra
      exact Attr.isEmpty_resolved groups a.key a.value.resolve 0 hemp hcontra
    · rw [defaultResolveKey_okKey groups a.key 0]
      rfl

theorem IncrementHandler.wfDedup_resolveValues_inc (uniq : UniqMap) (attrs : List Attr)
    (groups : List String) (h : wfDedupMap groups.isEmpty uniq = true) :
    wfDedupMap groups.isEmpty
      (IncrementHandler.resolveValues defaultResolveKey uniq attrs groups) = true := by
  induction uniq, attrs, groups using IncrementHandler.resolveValues.induct defaultResolveKey with
  | case1 uniq groups => rwa [IncrementHandler.resolveValues]
  | case2 uniq groups a rest hemp ih =>
    rw [IncrementHandler.resolveValues, if_pos hemp]
    exact ih h
  | case3 uniq groups a rest hemp r hkeep ih =>
    have hkeep' : (!(resolveIncrementKey defaultResolveKey uniq groups a.key).2) = true := hkeep
    obtain ⟨j, hj⟩ := resolveIncrementKey_mem_range defaultResolveKey uniq groups a.key
    rw [hj, defaultResolveKey_keep] at hkeep'
    exact absurd hkeep' (by simp)
  | case4 uniq groups a rest hemp r hkeep gAttrs hv hkey ihg ih =>
    have hkeep' : ¬ (!(resolveIncrementKey defaultResolveKey uniq groups a.key).2) = true := hkeep
    have hkey' : (resolveIncrementKey defaultResolveKey uniq groups a.key).1 = "" := hkey
    rw [IncrementHandler.resolveValues, if_neg hemp]
    simp only [hkeep', Bool.false_eq_true, if_false]
    split
    · rename_i gAttrs2 heq
      rw [hv] at heq
      injection heq with hg
      subst hg
      rw [if_pos hkey']
      exact ih (ihg h)
    · rename_i hne
      exact absurd hv (hne gAttrs)
  | case5 uniq groups a rest hemp r hkeep gAttrs hv hkey uniqGroup hlen ihg ihg2 ih =>
    have hkeep' : ¬ (!(resolveIncrementKey defaultResolveKey uniq groups a.key).2) = true := hkeep
    have hkey' : ¬ (resolveIncrementKey defaultResolveKey uniq groups a.key).1 = "" := hkey
    have hlen' : 0 < (IncrementHandler.resolveValues defaultResolveKey [] gAttrs
        (groups ++ [(resolveIncrementKey defaultResolveKey uniq groups a.key).1])).length := hlen
    rw [IncrementHandler.resolveValues, if_neg hemp]
    simp only [hkeep', Bool.false_eq_true, if_false]
    split
    · rename_i gAttrs2 heq
      rw [hv] at heq
      injection heq with hg
      subst hg
      rw [if_neg hkey', if_pos hlen']
      apply ih
      apply wfDedupMap_set _ _ _ _ h
      rw [wfDedupVal]
      simp only [Bool.and_eq_true]
      refine ⟨⟨⟨by simpa using hkey', ?_⟩, ?_⟩, ?_⟩
      · obtain ⟨j, hj⟩ := resolveIncrementKey_mem_range defaultResolveKey uniq groups a.key
        rw [congrArg Prod.fst hj, defaultResolveKey_okKey groups a.key j]
        rfl
      · simp only [Bool.not_eq_true', List.isEmpty_eq_false]
        exact List.length_pos.mp hlen'
      · have := ihg2 (by rw [wfDedupMap])
        rwa [groups_append_not_root] at this
    · rename_i hne
      exact absurd hv (hne gAttrs)
  | case6 uniq groups a rest hemp r hkeep gAttrs hv hkey uniqGroup hlen ihg ih =>
    have hkeep' : ¬ (!(resolveIncrementKey defaultResolveKey uniq groups a.key).2) = true := hkeep
    have hkey' : ¬ (resolveIncrementKey defaultResolveKey uniq groups a.key).1 = "" := hkey
    have hlen' : ¬ 0 < (IncrementHandler.resolveValues defaultResolveKey [] gAttrs
        (groups ++ [(resolveIncrementKey defaultResolveKey uniq groups a.key).1])).length := hlen
    rw [IncrementHandler.resolveValues, if_neg hemp]
    simp only [hkeep', Bool.false_eq_true, if_false]
    split
    · rename_i gAttrs2 heq
      rw [hv] at heq
      injection heq with hg
      subst hg
      rw [if_neg hkey', if_neg hlen']
      exact ih h
    · rename_i hne
      exact absurd hv (hne gAttrs)
  | case7 uniq groups a rest hemp r hkeep hng ih =>
    have hkeep' : ¬ (!(resolveIncrementKey defaultResolveKey uniq groups a.key).2) = true := hkeep
    rw [IncrementHandler.resolveValues, if_neg hemp]
    simp only [hkeep', Bool.false_eq_true, if_false]
    apply ih
    apply wfDedupMap_set _ _ _ _ h
    rw [wfDedupVal]
    simp only [Bool.and_eq_true]
    refine ⟨⟨⟨by simp, ?_⟩, ?_⟩, ?_⟩
    · simp only [Bool.not_eq_true']
      exact Value.isGroup_eq_false_of_not_group _ hng
    · simp only [Bool.not_eq_true']
      rw [Bool.eq_false_iff]
      intro hcontra
      obtain ⟨j, hj⟩ := resolveIncrementKey_mem_range defaultResolveKey uniq groups a.key
      rw [congrArg Prod.fst hj] at hcontra
      exact Attr.isEmpty_resolved groups a.key a.value.resolve j hemp hcontra
    · obtain ⟨j, hj⟩ := resolveIncrementKey_mem_range defaultResolveKey uniq groups a.key
      rw [congrArg Prod.fst hj, defaultResolveKey_okKey groups a.key j]
      rfl

theorem OverwriteHandler.wfDedup_createAttrTree_ow :
    ∀ (goas : List groupOrAttrs) (uniq : UniqMap) (groups : List String),
    wfDedupMap groups.isEmpty uniq = true →
    wfDedupMap groups.isEmpty
      (OverwriteHandler.createAttrTree defaultResolveKey uniq goas groups) = true := by
  intro goas
  induction goas with
  | nil =>
    intro uniq groups h
    rwa [OverwriteHandler.createAttrTree]
  | cons g rest ih =>
    intro uniq groups h
    rw [OverwriteHandler.createAttrTree]
    by_cases hc : (g.group != "" && (defaultResolveKey groups g.group 0).2) = true
    · simp only [hc, if_true]
      by_cases hlen : 0 < (OverwriteHandler.createAttrTree defaultResolveKey [] rest
          (groups ++ [(defaultResolveKey groups g.group 0).1])).length
      · rw [if_pos hlen]
        apply wfDedupMap_set _ _ _ _ h
        rw [wfDedupVal]
        simp only [Bool.and_eq_true]
        refine ⟨⟨⟨?_, ?_⟩, ?_⟩, ?_⟩
        · have hg : g.group ≠ "" := by
            simp only [Bool.and_eq_true, bne_iff_ne, ne_eq] at hc
            exact hc.1
          have hne : (defaultResolveKey groups g.group 0).1 ≠ "" := by
            rcases defaultResolveKey_fst_eq_or_ne_empty groups g.group 0 with hk | hk
            · rw [hk]; exact hg
            · exact hk
          simpa using hne
        · rw [defaultResolveKey_okKey groups g.group 0]
          rfl
        · simp only [Bool.not_eq_true', List.isEmpty_eq_false]
          exact List.length_pos.mp hlen
        · have := ih [] (groups ++ [(defaultResolveKey groups g.group 0).1])
            (by rw [wfDedupMap])
          rwa [groups_append_not_root] at this
      · rw [if_neg hlen]
        exact h
    · simp only [hc, Bool.false_eq_true, if_false]
      exact ih _ _ (OverwriteHandler.wfDedup_resolveValues_ow uniq g.attrs groups h)

theorem IgnoreHandler.wfDedup_createAttrTree_ig :
    ∀ (goas : List groupOrAttrs) (uniq : UniqMap) (groups : List String),
    wfDedupMap groups.isEmpty uniq = true →
    wfDedupMap groups.isEmpty
      (IgnoreHandler.createAttrTree defaultResolveKey uniq goas groups) = true := by
  intro goas
  induction goas with
  | nil =>
    intro uniq groups h
    rwa [IgnoreHandler.createAttrTree]
  | cons g rest ih =>
    intro uniq groups h
    rw [IgnoreHandler.createAttrTree]
    by_cases hc : (g.group != "" && (defaultResolveKey groups g.group 0).2) = true
    · simp only [hc, if_true]
      by_cases hlen : 0 < (IgnoreHandler.createAttrTree defaultResolveKey [] rest
          (groups ++ [(defaultResolveKey groups g.group 0).1])).length
      · rw [if_pos hlen]
        apply wfDedupMap_putIfAbsent _ _ _ _ h
        rw [wfDedupVal]
        simp only [Bool.and_eq_true]
        refine ⟨⟨⟨?_, ?_⟩, ?_⟩, ?_⟩
        · have hg : g.group ≠ "" := by
            simp only [Bool.and_eq_true, bne_iff_ne, ne_eq] at hc
            exact hc.1
          have hne : (defaultResolveKey groups g.group 0).1 ≠ "" := by
            rcases defaultResolveKey_fst_eq_or_ne_empty groups g.group 0 with hk | hk
            · rw [hk]; exact hg
            · exact hk
          simpa using hne
        · rw [defaultResolveKey_okKey groups g.group 0]
          rfl
        · simp only [Bool.not_eq_true', List.isEmpty_eq_false]
          exact List.length_pos.mp hlen
        · have := ih [] (groups ++ [(defaultResolveKey groups g.group 0).1])
            (by rw [wfDedupMap])
          rwa [groups_append_not_root] at this
      · rw [if_neg hlen]
        exact h
    · simp only [hc, Bool.false_eq_true, if_false]
      exact ih _ _ (IgnoreHandler.wfDedup_resolveValues_ig uniq g.attrs groups h)

theorem IncrementHandler.wfDedup_createAttrTree_inc :
    ∀ (goas : List groupOrAttrs) (uniq : UniqMap) (groups : List String),
    wfDedupMap groups.isEmpty uniq = true →
    wfDedupMap groups.isEmpty
      (IncrementHandler.createAttrTree defaultResolveKey uniq goas groups) = true := by
  intro goas
  induction goas with
  | nil =>
    intro uniq groups h
    rwa [IncrementHandler.createAttrTree]
  | cons g rest ih =>
    intro uniq groups h
    rw [IncrementHandler.createAttrTree]
    by_cases hc : (g.group != "" && (resolveIncrementKey defaultResolveKey uniq groups g.group).2) = true
    · simp only [hc, if_true]
      by_cases hlen : 0 < (IncrementHandler.createAttrTree defaultResolveKey [] rest
          (groups ++ [(resolveIncrementKey defaultResolveKey uniq groups g.group).1])).length
      · rw [if_pos hlen]
        apply wfDedupMap_set _ _ _ _ h
        rw [wfDedupVal]
        simp only [Bool.and_eq_true]
        obtain ⟨j, hj⟩ := resolveIncrementKey_mem_range defaultResolveKey uniq groups g.group
        refine ⟨⟨⟨?_, ?_⟩, ?_⟩, ?_⟩
        · have hg : g.group ≠ "" := by
            simp only [Bool.and_eq_true, bne_iff_ne, ne_eq] at hc
            exact hc.1
          have hne : (resolveIncrementKey defaultResolveKey uniq groups g.group).1 ≠ "" := by
            rw [congrArg Prod.fst hj]
            rcases defaultResolveKey_fst_eq_or_ne_empty groups g.group j with hk | hk
            · rw [hk]; exact hg
            · exact hk
          simpa using hne
        · rw [congrArg Prod.fst hj, defaultResolveKey_okKey groups g.group j]
          rfl
        · simp only [Bool.not_eq_true', List.isEmpty_eq_false]
          exact List.length_pos.mp hlen
        · have := ih [] (groups ++ [(resolveIncrementKey defaultResolveKey uniq groups g.group).1])
            (by rw [wfDedupMap])
          rwa [groups_append_not_root] at this
      · rw [if_neg hlen]
        exact h
    · simp only [hc, Bool.false_eq_true, if_false]
      exact ih _ _ (IncrementHandler.wfDedup_resolveValues_inc uniq g.attrs groups h)

theorem wfDedupVal_attr_elim (root : Bool) (k ak : String) (av : Value)
    (h : wfDedupVal root k (.attr (.mk ak av)) = true) :
    ak = k ∧ av.isGroup = false ∧ (Attr.mk ak av).isEmpty = false ∧
      (root && DoesBuiltinKeyConflict k) = false := by
  rw [wfDedupVal] at h
  simp only [Bool.and_eq_true] at h
  obtain ⟨⟨⟨h1, h2⟩, h3⟩, h4⟩ := h
  exact ⟨by simpa using h1, by simpa using h2, by simpa using h3,
    by rwa [Bool.not_eq_true'] at h4⟩

theorem wfDedupVal_tree_elim (root : Bool) (k : String) (t : UniqMap)
    (h : wfDedupVal root k (.tree t) = true) :
    k ≠ "" ∧ (root && DoesBuiltinKeyConflict k) = false ∧ 0 < t.length ∧
      wfDedupMap false t = true := by
  rw [wfDedupVal] at h
  simp only [Bool.and_eq_true] at h
  obtain ⟨⟨⟨h1, h2⟩, h3⟩, h4⟩ := h
  refine ⟨by simpa using h1, by rwa [Bool.not_eq_true'] at h2, ?_, h4⟩
  have h3' : t.isEmpty = false := by simpa using h3
  rw [List.isEmpty_eq_false] at h3'
  exact List.length_pos.mpr h3'

theorem wfDedupMap_append_cons_elim (root : Bool) (m0 : UniqMap) (k : String)
    (v : TreeVal) (rest : UniqMap)
    (h : wfDedupMap root (m0 ++ (k, v) :: rest) = true) :
    wfDedupVal root k v = true ∧ (∀ p ∈ m0, strLt p.1 k = true) ∧ SortedMap m0 := by
  rw [wfDedupMap_iff_parts] at h
  obtain ⟨hs, hall⟩ := h
  have hs' : List.Pairwise (fun p q => strLt p.1 q.1 = true) (m0 ++ (k, v) :: rest) := hs
  rw [List.pairwise_append] at hs'
  exact ⟨hall (k, v) (by simp), fun p hp => hs'.2.2 p hp (k, v) (by simp), hs'.1⟩

theorem OverwriteHandler.resolveValues_attrsOfMap_ow :
    ∀ (m m0 : UniqMap) (groups : List String),
    wfDedupMap groups.isEmpty (m0 ++ m) = true →
    OverwriteHandler.resolveValues defaultResolveKey m0 (attrsOfMap m) groups = m0 ++ m := by
  intro m
  induction m using attrsOfMap.induct with
  | case1 =>
    intro m0 groups h
    rw [attrsOfMap, OverwriteHandler.resolveValues]
    simp
  | case2 k a rest ih =>
    intro m0 groups h
    obtain ⟨hval, hlt, hsor⟩ := wfDedupMap_append_cons_elim _ _ _ _ _ h
    obtain ⟨ak, av⟩ := a
    obtain ⟨hak, hgr, hemp, hbni⟩ := wfDedupVal_attr_elim _ _ _ _ hval
    rw [← hak] at hlt hbni h
    rw [← hak]
    simp only [attrsOfMap]
    rw [OverwriteHandler.resolveValues]
    simp only [Attr.key, Attr.value, Value.resolve]
    rw [if_neg (by simp [hemp] : ¬ (Attr.mk ak av).isEmpty = true)]
    have hkeep : ¬ (!(defaultResolveKey groups ak 0).2) = true := by
      rw [defaultResolveKey_keep]
      simp
    simp only [hkeep, Bool.false_eq_true, if_false]
    split
    · rename_i gAttrs
      simp [Value.isGroup] at hgr
    · have hfst : (defaultResolveKey groups ak 0).1 = ak :=
        congrArg Prod.fst (defaultResolveKey_zero_id groups ak hbni)
      rw [hfst, BTree.set_append m0 ak _ hlt]
      have hrecomb : (m0 ++ [(ak, TreeVal.attr (Attr.mk ak av))]) ++ rest
          = m0 ++ (ak, TreeVal.attr (Attr.mk ak av)) :: rest := by simp
      rw [← hrecomb] at h ⊢
      exact ih (m0 ++ [(ak, TreeVal.attr (Attr.mk ak av))]) groups h
  | case3 k t rest iht ih =>
    intro m0 groups h
    obtain ⟨hval, hlt, hsor⟩ := wfDedupMap_append_cons_elim _ _ _ _ _ h
    obtain ⟨hne, hbni, hlen, hwft⟩ := wfDedupVal_tree_elim _ _ _ hval
    simp only [attrsOfMap]
    rw [OverwriteHandler.resolveValues]
    simp only [Attr.key, Attr.value, Value.resolve]
    rw [if_neg (by simp [Attr.isEmpty] :
      ¬ (Attr.mk k (Value.group (attrsOfMap t))).isEmpty = true)]
    have hkeep : ¬ (!(defaultResolveKey groups k 0).2) = true := by
      rw [defaultResolveKey_keep]
      simp
    simp only [hkeep, Bool.false_eq_true, if_false]
    have hfst : (defaultResolveKey groups k 0).1 = k :=
      congrArg Prod.fst (defaultResolveKey_zero_id groups k hbni)
    rw [hfst]
    rw [if_neg hne]
    have hsub : OverwriteHandler.resolveValues defaultResolveKey [] (attrsOfMap t)
        (groups ++ [k]) = t := by
      have := iht [] (groups ++ [k]) (by rw [groups_append_not_root]; simpa using hwft)
      simpa using this
    rw [hsub, if_pos hlen, BTree.set_append m0 k _ hlt]
    have hrecomb : (m0 ++ [(k, TreeVal.tree t)]) ++ rest
        = m0 ++ (k, TreeVal.tree t) :: rest := by simp
    rw [← hrecomb] at h ⊢
    exact ih (m0 ++ [(k, TreeVal.tree t)]) groups h
  | case4 k vs rest ih =>
    intro m0 groups h
    obtain ⟨hval, _, _⟩ := wfDedupMap_append_cons_elim _ _ _ _ _ h
    rw [wfDedupVal] at hval
    exact absurd hval (by simp)

theorem IgnoreHandler.resolveValues_attrsOfMap_ig :
    ∀ (m m0 : UniqMap) (groups : List String),
    wfDedupMap groups.isEmpty (m0 ++ m) = true →
    IgnoreHandler.resolveValues defaultResolveKey m0 (attrsOfMap m) groups = m0 ++ m := by
  intro m
  induction m using attrsOfMap.induct with
  | case1 =>
    intro m0 groups h
    rw [attrsOfMap, IgnoreHandler.resolveValues]
    simp
  | case2 k a rest ih =>
    intro m0 groups h
    obtain ⟨hval, hlt, hsor⟩ := wfDedupMap_append_cons_elim _ _ _ _ _ h
    obtain ⟨ak, av⟩ := a
    obtain ⟨hak, hgr, hemp, hbni⟩ := wfDedupVal_attr_elim _ _ _ _ hval
    rw [← hak] at hlt hbni h
    rw [← hak]
    simp only [attrsOfMap]
    rw [IgnoreHandler.resolveValues]
    simp only [Attr.key, Attr.value, Value.resolve]
    rw [if_neg (by simp [hemp] : ¬ (Attr.mk ak av).isEmpty = true)]
    have hkeep : ¬ (!(defaultResolveKey groups ak 0).2) = true := by
      rw [defaultResolveKey_keep]
      simp
    simp only [hkeep, Bool.false_eq_true, if_false]
    split
    · rename_i gAttrs
      simp [Value.isGroup] at hgr
    · have hfst : (defaultResolveKey groups ak 0).1 = ak :=
        congrArg Prod.fst (defaultResolveKey_zero_id groups ak hbni)
      rw [hfst, IgnoreHandler.putIfAbsent_append m0 ak _ hlt]
      have hrecomb : (m0 ++ [(ak, TreeVal.attr (Attr.mk ak av))]) ++ rest
          = m0 ++ (ak, TreeVal.attr (Attr.mk ak av)) :: rest := by simp
      rw [← hrecomb] at h ⊢
      exact ih (m0 ++ [(ak, TreeVal.attr (Attr.mk ak av))]) groups h
  | case3 k t rest iht ih =>
    intro m0 groups h
    obtain ⟨hval, hlt, hsor⟩ := wfDedupMap_append_cons_elim _ _ _ _ _ h
    obtain ⟨hne, hbni, hlen, hwft⟩ := wfDedupVal_tree_elim _ _ _ hval
    simp only [attrsOfMap]
    rw [IgnoreHandler.resolveValues]
    simp only [Attr.key, Attr.value, Value.resolve]
    rw [if_neg (by simp [Attr.isEmpty] :
      ¬ (Attr.mk k (Value.group (attrsOfMap t))).isEmpty = true)]
    have hkeep : ¬ (!(defaultResolveKey groups k 0).2) = true := by
      rw [defaultResolveKey_keep]
      simp
    simp only [hkeep, Bool.false_eq_true, if_false]
    have hfst : (defaultResolveKey groups k 0).1 = k :=
      congrArg Prod.fst (defaultResolveKey_zero_id groups k hbni)
    rw [hfst]
    rw [if_neg hne]
    have hsub : IgnoreHandler.resolveValues defaultResolveKey [] (attrsOfMap t)
        (groups ++ [k]) = t := by
      have := iht [] (groups ++ [k]) (by rw [groups_append_not_root]; simpa using hwft)
      simpa using this
    rw [hsub, if_pos hlen, IgnoreHandler.putIfAbsent_append m0 k _ hlt]
    have hrecomb : (m0 ++ [(k, TreeVal.tree t)]) ++ rest
        = m0 ++ (k, TreeVal.tree t) :: rest := by simp
    rw [← hrecomb] at h ⊢
    exact ih (m0 ++ [(k, TreeVal.tree t)]) groups h
  | case4 k vs rest ih =>
    intro m0 groups h
    obtain ⟨hval, _, _⟩ := wfDedupMap_append_cons_elim _ _ _ _ _ h
    rw [wfDedupVal] at hval
    exact absurd hval (by simp)

theorem IncrementHandler.resolveValues_attrsOfMap_inc :
    ∀ (m m0 : UniqMap) (groups : List String),
    wfDedupMap groups.isEmpty (m0 ++ m) = true →
    IncrementHandler.resolveValues defaultResolveKey m0 (attrsOfMap m) groups = m0 ++ m := by
  intro m
  induction m using attrsOfMap.induct with
  | case1 =>
    intro m0 groups h
    rw [attrsOfMap, IncrementHandler.resolveValues]
    simp
  | case2 k a rest ih =>
    intro m0 groups h
    obtain ⟨hval, hlt, hsor⟩ := wfDedupMap_append_cons_elim _ _ _ _ _ h
    obtain ⟨ak, av⟩ := a
    obtain ⟨hak, hgr, hemp, hbni⟩ := wfDedupVal_attr_elim _ _ _ _ hval
    rw [← hak] at hlt hbni h
    rw [← hak]
    simp only [attrsOfMap]
    rw [IncrementHandler.resolveValues]
    simp only [Attr.key, Attr.value, Value.resolve]
    rw [if_neg (by simp [hemp] : ¬ (Attr.mk ak av).isEmpty = true)]
    have hrik : resolveIncrementKey defaultResolveKey m0 groups ak = (ak, true) := by
      rw [← defaultResolveKey_zero_id groups ak hbni]
      apply resolveIncrementKey_of_all_lt defaultResolveKey m0 groups ak hsor
      intro p hp
      simpa [defaultResolveKey_zero_id groups ak hbni] using hlt p hp
    have hkeep : ¬ (!(resolveIncrementKey defaultResolveKey m0 groups ak).2) = true := by
      rw [hrik]
      simp
    simp only [hkeep, Bool.false_eq_true, if_false]
    split
    · rename_i gAttrs
      simp [Value.isGroup] at hgr
    · have hfst : (resolveIncrementKey defaultResolveKey m0 groups ak).1 = ak :=
        congrArg Prod.fst hrik
      rw [hfst, BTree.set_append m0 ak _ hlt]
      have hrecomb : (m0 ++ [(ak, TreeVal.attr (Attr.mk ak av))]) ++ rest
          = m0 ++ (ak, TreeVal.attr (Attr.mk ak av)) :: rest := by simp
      rw [← hrecomb] at h ⊢
      exact ih (m0 ++ [(ak, TreeVal.attr (Attr.mk ak av))]) groups h
  | case3 k t rest iht ih =>
    intro m0 groups h
    obtain ⟨hval, hlt, hsor⟩ := wfDedupMap_append_cons_elim _ _ _ _ _ h
    obtain ⟨hne, hbni, hlen, hwft⟩ := wfDedupVal_tree_elim _ _ _ hval
    simp only [attrsOfMap]
    rw [IncrementHandler.resolveValues]
    simp only [Attr.key, Attr.value, Value.resolve]
    rw [if_neg (by simp [Attr.isEmpty] :
      ¬ (Attr.mk k (Value.group (attrsOfMap t))).isEmpty = true)]
    have hrik : resolveIncrementKey defaultResolveKey m0 groups k = (k, true) := by
      rw [← defaultResolveKey_zero_id groups k hbni]
      apply resolveIncrementKey_of_all_lt defaultResolveKey m0 groups k hsor
      intro p hp
      simpa [defaultResolveKey_zero_id groups k hbni] using hlt p hp
    have hkeep : ¬ (!(resolveIncrementKey defaultResolveKey m0 groups k).2) = true := by
      rw [hrik]
      simp
    simp only [hkeep, Bool.false_eq_true, if_false]
    have hfst : (resolveIncrementKey defaultResolveKey m0 groups k).1 = k :=
      congrArg Prod.fst hrik
    rw [hfst]
    rw [if_neg hne]
    have hsub : IncrementHandler.resolveValues defaultResolveKey [] (attrsOfMap t)
        (groups ++ [k]) = t := by
      have := iht [] (groups ++ [k]) (by rw [groups_append_not_root]; simpa using hwft)
      simpa using this
    rw [hsub, if_pos hlen, BTree.set_append m0 k _ hlt]
    have hrecomb : (m0 ++ [(k, TreeVal.tree t)]) ++ rest
        = m0 ++ (k, TreeVal.tree t) :: rest := by simp
    rw [← hrecomb] at h ⊢
    exact ih (m0 ++ [(k, TreeVal.tree t)]) groups h
  | case4 k vs rest ih =>
    intro m0 groups h
    obtain ⟨hval, _, _⟩ := wfDedupMap_append_cons_elim _ _ _ _ _ h
    rw [wfDedupVal] at hval
    exact absurd hval (by simp)

theorem buildAttrs_eq_attrsOfMap :
    ∀ (m : UniqMap) (root : Bool), wfDedupMap root m = true →
    buildAttrs m = some (attrsOfMap m) := by
  intro m
  induction m using attrsOfMap.induct with
  | case1 =>
    intro root h
    rw [attrsOfMap, buildAttrs]
  | case2 k a rest ih =>
    intro root h
    rw [wfDedupMap, Bool.and_eq_true, Bool.and_eq_true] at h
    obtain ⟨⟨hval, hlt⟩, hrest⟩ := h
    rw [attrsOfMap, buildAttrs, ih root hrest]
    rfl
  | case3 k t rest iht ih =>
    intro root h
    rw [wfDedupMap, Bool.and_eq_true, Bool.and_eq_true] at h
    obtain ⟨⟨hval, hlt⟩, hrest⟩ := h
    obtain ⟨_, _, _, hwft⟩ := wfDedupVal_tree_elim _ _ _ hval
    rw [attrsOfMap, buildAttrs, iht false hwft, ih root hrest]
    rfl
  | case4 k vs rest ih =>
    intro root h
    rw [wfDedupMap, Bool.and_eq_true, Bool.and_eq_true] at h
    obtain ⟨⟨hval, _⟩, _⟩ := h
    rw [wfDedupVal] at hval
    exact absurd hval (by simp)

theorem OverwriteHandler.rebuild_createAttrTree_ow (goas : List groupOrAttrs) :
    buildAttrs (OverwriteHandler.createAttrTree defaultResolveKey [] goas [])
      = some (attrsOfMap (OverwriteHandler.createAttrTree defaultResolveKey [] goas [])) ∧
    OverwriteHandler.createAttrTree defaultResolveKey []
        [⟨"", attrsOfMap (OverwriteHandler.createAttrTree defaultResolveKey [] goas [])⟩] []
      = OverwriteHandler.createAttrTree defaultResolveKey [] goas [] := by
  have hwf : wfDedupMap true
      (OverwriteHandler.createAttrTree defaultResolveKey [] goas []) = true := by
    have := OverwriteHandler.wfDedup_createAttrTree_ow goas [] [] (by rw [wfDedupMap])
    simpa using this
  refine ⟨buildAttrs_eq_attrsOfMap _ true hwf, ?_⟩
  rw [OverwriteHandler.createAttrTree]
  simp only [bne_self_eq_false, Bool.false_and, Bool.false_eq_true, if_false]
  rw [OverwriteHandler.createAttrTree]
  have := OverwriteHandler.resolveValues_attrsOfMap_ow
    (OverwriteHandler.createAttrTree defaultResolveKey [] goas []) [] [] (by simpa using hwf)
  simpa using this

theorem IgnoreHandler.rebuild_createAttrTree_ig (goas : List groupOrAttrs) :
    buildAttrs (IgnoreHandler.createAttrTree defaultResolveKey [] goas [])
      = some (attrsOfMap (IgnoreHandler.createAttrTree defaultResolveKey [] goas [])) ∧
    IgnoreHandler.createAttrTree defaultResolveKey []
        [⟨"", attrsOfMap (IgnoreHandler.createAttrTree defaultResolveKey [] goas [])⟩] []
      = IgnoreHandler.createAttrTree defaultResolveKey [] goas [] := by
  have hwf : wfDedupMap true
      (IgnoreHandler.createAttrTree defaultResolveKey [] goas []) = true := by
    have := IgnoreHandler.wfDedup_createAttrTree_ig goas [] [] (by rw [wfDedupMap])
    simpa using this
  refine ⟨buildAttrs_eq_attrsOfMap _ true hwf, ?_⟩
  rw [IgnoreHandler.createAttrTree]
  simp only [bne_self_eq_false, Bool.false_and, Bool.false_eq_true, if_false]
  rw [IgnoreHandler.createAttrTree]
  have := IgnoreHandler.resolveValues_attrsOfMap_ig
    (IgnoreHandler.createAttrTree defaultResolveKey [] goas []) [] [] (by simpa using hwf)
  simpa using this

theorem IncrementHandler.rebuild_createAttrTree_inc (goas : List groupOrAttrs) :
    buildAttrs (IncrementHandler.createAttrTree defaultResolveKey [] goas [])
      = some (attrsOfMap (IncrementHandler.createAttrTree defaultResolveKey [] goas [])) ∧
    IncrementHandler.createAttrTree defaultResolveKey []
        [⟨"", attrsOfMap (IncrementHandler.createAttrTree defaultResolveKey [] goas [])⟩] []
      = IncrementHandler.createAttrTree defaultResolveKey [] goas [] := by
  have hwf : wfDedupMap true
      (IncrementHandler.createAttrTree defaultResolveKey [] goas []) = true := by
    have := IncrementHandler.wfDedup_createAttrTree_inc goas [] [] (by rw [wfDedupMap])
    simpa using this
  refine ⟨buildAttrs_eq_attrsOfMap _ true hwf, ?_⟩
  rw [IncrementHandler.createAttrTree]
  simp only [bne_self_eq_false, Bool.false_and, Bool.false_eq_true, if_false]
  rw [IncrementHandler.createAttrTree]
  have := IncrementHandler.resolveValues_attrsOfMap_inc
    (IncrementHandler.createAttrTree defaultResolveKey [] goas []) [] [] (by simpa using hwf)
  simpa using this

/-- C9: for the Overwrite, Ignore and Increment handlers under the default key
resolution, tree building is idempotent: for every input chain, rebuilding the
attributes of the output map (which always succeeds) and feeding them back
through the same handler's `createAttrTree` as a single flat batch reproduces
the output map exactly — no key is renamed, dropped, or re-valued. -/
theorem c9_rebuild_idempotent (goas : List groupOrAttrs) :
    (∃ as, buildAttrs (OverwriteHandler.createAttrTree defaultResolveKey [] goas []) = some as ∧
      OverwriteHandler.createAttrTree defaultResolveKey [] [⟨"", as⟩] []
        = OverwriteHandler.createAttrTree defaultResolveKey [] goas []) ∧
    (∃ as, buildAttrs (IgnoreHandler.createAttrTree defaultResolveKey [] goas []) = some as ∧
      IgnoreHandler.createAttrTree defaultResolveKey [] [⟨"", as⟩] []
        = IgnoreHandler.createAttrTree defaultResolveKey [] goas []) ∧
    (∃ as, buildAttrs (IncrementHandler.createAttrTree defaultResolveKey [] goas []) = some as ∧
      IncrementHandler.createAttrTree defaultResolveKey [] [⟨"", as⟩] []
        = IncrementHandler.createAttrTree defaultResolveKey [] goas []) :=
  ⟨⟨_, (OverwriteHandler.rebuild_createAttrTree_ow goas).1,
      (OverwriteHandler.rebuild_createAttrTree_ow goas).2⟩,
   ⟨_, (IgnoreHandler.rebuild_createAttrTree_ig goas).1,
      (IgnoreHandler.rebuild_createAttrTree_ig goas).2⟩,
   ⟨_, (IncrementHandler.rebuild_createAttrTree_inc goas).1,
      (IncrementHandler.rebuild_createAttrTree_inc goas).2⟩⟩

theorem BTree.length_set_of_not_mem (m : UniqMap) (k : String) (v : TreeVal)
    (h : k ∉ mapKeys m) : (BTree.set m k v).length = m.length + 1 := by
  induction m with
  | nil => simp [BTree.set]
  | cons p rest ih =>
    obtain ⟨k', v'⟩ := p
    simp only [mapKeys, List.map_cons, List.mem_cons] at h
    push_neg at h
    rw [BTree.set, if_neg (by simpa using h.1)]
    by_cases hlt : strLt k k' = true
    · rw [if_pos hlt]
      simp
    · rw [if_neg hlt]
      simp only [List.length_cons]
      rw [ih h.2]

theorem IncrementHandler.resolveValues_cons_step (m0 : UniqMap) (a : Attr)
    (rest : List Attr) (hemp : (Attr.mk a.key a.value.resolve).isEmpty = false)
    (hgr : a.value.isGroup = false) (K : String)
    (hr : resolveIncrementKey defaultResolveKey m0 [] a.key = (K, true)) :
    IncrementHandler.resolveValues defaultResolveKey m0 (a :: rest) []
      = IncrementHandler.resolveValues defaultResolveKey
          (BTree.set m0 K (.attr (Attr.mk K a.value))) rest [] := by
  rw [IncrementHandler.resolveValues]
  rw [if_neg (by simp [hemp] : ¬ (Attr.mk a.key a.value.resolve).isEmpty = true)]
  have hkeep : ¬ (!(resolveIncrementKey defaultResolveKey m0 [] a.key).2) = true := by
    rw [hr]
    simp
  simp only [hkeep, Bool.false_eq_true, if_false]
  simp only [Value.resolve]
  split
  · rename_i gAttrs heq
    rw [heq] at hgr
    simp [Value.isGroup] at hgr
  · rw [congrArg Prod.fst hr]

theorem IncrementHandler.resolveValues_assign :
    ∀ (attrs : List Attr) (m0 : UniqMap) (cnt : String → Nat),
    (∀ a ∈ attrs, a.value.isGroup = false) →
    (∀ a ∈ attrs, (Attr.mk a.key a.value).isEmpty = false) →
    (∀ a ∈ attrs, DoesBuiltinKeyConflict a.key = false) →
    (∀ a ∈ attrs, cnt a.key + attrs.countP (fun b => b.key == a.key) ≤ 100) →
    SortedMap m0 →
    (∀ a ∈ attrs, ∀ j < cnt a.key, IncrementKeyName a.key j ∈ mapKeys m0) →
    (∀ p ∈ specIncrementAssign attrs cnt, p.1 ∉ mapKeys m0) →
    ((specIncrementAssign attrs cnt).map Prod.fst).Nodup →
    SortedMap (IncrementHandler.resolveValues defaultResolveKey m0 attrs []) ∧
    (IncrementHandler.resolveValues defaultResolveKey m0 attrs []).length
      = m0.length + attrs.length ∧
    (∀ p ∈ specIncrementAssign attrs cnt,
      BTree.get (IncrementHandler.resolveValues defaultResolveKey m0 attrs []) p.1
        = some (.attr (Attr.mk p.1 p.2.value))) ∧
    (∀ k, k ∉ (specIncrementAssign attrs cnt).map Prod.fst →
      BTree.get (IncrementHandler.resolveValues defaultResolveKey m0 attrs []) k
        = BTree.get m0 k) := by
  intro attrs
  induction attrs with
  | nil =>
    intro m0 cnt _ _ _ _ hs _ _ _
    rw [IncrementHandler.resolveValues]
    refine ⟨hs, by simp, ?_, fun k _ => rfl⟩
    intro p hp
    simp [specIncrementAssign] at hp
  | cons a rest ih =>
    intro m0 cnt hflat hne hnb hcnt hs hA hFresh hND
    have hassign : specIncrementAssign (a :: rest) cnt
        = (IncrementKeyName a.key (cnt a.key), a) ::
          specIncrementAssign rest (fun k => if k = a.key then cnt k + 1 else cnt k) := by
      rw [specIncrementAssign]
    have hbni : DoesBuiltinKeyConflict a.key = false := hnb a (List.mem_cons_self _ _)
    have hc99 : cnt a.key ≤ 99 := by
      have h0 := hcnt a (List.mem_cons_self _ _)
      have hpos : 0 < (a :: rest).countP (fun b => b.key == a.key) :=
        List.countP_pos.mpr ⟨a, List.mem_cons_self _ _, by simp⟩
      omega
    have hKfresh : IncrementKeyName a.key (cnt a.key) ∉ mapKeys m0 :=
      hFresh _ (by rw [hassign]; exact List.mem_cons_self _ _)
    have hrik : resolveIncrementKey defaultResolveKey m0 [] a.key
        = (IncrementKeyName a.key (cnt a.key), true) := by
      rw [← defaultResolveKey_not_builtin_root a.key hbni (cnt a.key)]
      apply resolveIncrementKey_spec defaultResolveKey m0 [] a.key (cnt a.key) hs
      · intro i1 i2 h12 h2c
        rw [congrArg Prod.fst (defaultResolveKey_not_builtin_root a.key hbni i1),
            congrArg Prod.fst (defaultResolveKey_not_builtin_root a.key hbni i2)]
        exact IncrementKeyName_mono a.key h12 (by omega)
      · intro j hj
        rw [congrArg Prod.fst (defaultResolveKey_not_builtin_root a.key hbni j)]
        exact hA a (List.mem_cons_self _ _) j hj
      · rw [congrArg Prod.fst (defaultResolveKey_not_builtin_root a.key hbni (cnt a.key))]
        exact hKfresh
    rw [hassign] at hND
    simp only [List.map_cons] at hND
    obtain ⟨hKnotin, hNDtail⟩ := List.nodup_cons.mp hND
    rw [IncrementHandler.resolveValues_cons_step m0 a rest
      (hne a (List.mem_cons_self _ _)) (hflat a (List.mem_cons_self _ _))
      (IncrementKeyName a.key (cnt a.key)) hrik]
    have hs' : SortedMap (BTree.set m0 (IncrementKeyName a.key (cnt a.key))
        (TreeVal.attr (Attr.mk (IncrementKeyName a.key (cnt a.key)) a.value))) :=
      BTree.sorted_set _ _ _ hs
    have hcnt' : ∀ b ∈ rest, (fun k => if k = a.key then cnt k + 1 else cnt k) b.key
        + rest.countP (fun x => x.key == b.key) ≤ 100 := by
      intro b hb
      have h0 := hcnt b (List.mem_cons_of_mem _ hb)
      simp only [List.countP_cons] at h0
      show (if b.key = a.key then cnt b.key + 1 else cnt b.key)
          + rest.countP (fun x => x.key == b.key) ≤ 100
      by_cases hbk : b.key = a.key
      · rw [if_pos hbk]
        have ha : (a.key == b.key) = true := by rw [hbk]; simp
        rw [ha] at h0
        simp at h0
        omega
      · rw [if_neg hbk]
        have ha : (a.key == b.key) = false := by
          rw [beq_eq_false_iff_ne]
          exact fun hh => hbk hh.symm
        rw [ha] at h0
        simp at h0
        omega
    have hA' : ∀ b ∈ rest, ∀ j < (fun k => if k = a.key then cnt k + 1 else cnt k) b.key,
        IncrementKeyName b.key j ∈ mapKeys (BTree.set m0
          (IncrementKeyName a.key (cnt a.key))
          (TreeVal.attr (Attr.mk (IncrementKeyName a.key (cnt a.key)) a.value))) := by
      intro b hb j hj
      rw [BTree.mem_keys_set]
      by_cases hbk : b.key = a.key
      · rw [hbk] at hj ⊢
        have hj' : j < cnt a.key + 1 := by simpa using hj
        rcases Nat.lt_or_ge j (cnt a.key) with hlt | hge
        · exact Or.inr (hA a (List.mem_cons_self _ _) j hlt)
        · have hje : j = cnt a.key := by omega
          subst hje
          exact Or.inl rfl
      · have hj' : j < cnt b.key := by simpa [hbk] using hj
        exact Or.inr (hA b (List.mem_cons_of_mem _ hb) j hj')
    have hFresh' : ∀ p ∈ specIncrementAssign rest
        (fun k => if k = a.key then cnt k + 1 else cnt k),
        p.1 ∉ mapKeys (BTree.set m0 (IncrementKeyName a.key (cnt a.key))
          (TreeVal.attr (Attr.mk (IncrementKeyName a.key (cnt a.key)) a.value))) := by
      intro p hp
      rw [BTree.mem_keys_set]
      push_neg
      constructor
      · intro hcontra
        apply hKnotin
        rw [← hcontra]
        exact List.mem_map_of_mem Prod.fst hp
      · exact hFresh p (by rw [hassign]; exact List.mem_cons_of_mem _ hp)
    obtain ⟨ihs, ihlen, ihget, ihother⟩ :=
      ih (BTree.set m0 (IncrementKeyName a.key (cnt a.key))
            (TreeVal.attr (Attr.mk (IncrementKeyName a.key (cnt a.key)) a.value)))
        (fun k => if k = a.key then cnt k + 1 else cnt k)
        (fun b hb => hflat b (List.mem_cons_of_mem _ hb))
        (fun b hb => hne b (List.mem_cons_of_mem _ hb))
        (fun b hb => hnb b (List.mem_cons_of_mem _ hb))
        hcnt' hs' hA' hFresh' hNDtail
    refine ⟨ihs, ?_, ?_, ?_⟩
    · rw [ihlen, BTree.length_set_of_not_mem m0 _ _ hKfresh]
      simp only [List.length_cons]
      omega
    · intro p hp
      rw [hassign] at hp
      rcases List.mem_cons.mp hp with heq | hp2
      · subst heq
        have h1 := ihother (IncrementKeyName a.key (cnt a.key)) hKnotin
        rw [BTree.get_set, if_pos rfl] at h1
        exact h1
      · exact ihget p hp2
    · intro k hk
      rw [hassign] at hk
      simp only [List.map_cons, List.mem_cons] at hk
      push_neg at hk
      rw [ihother k hk.2, BTree.get_set, if_neg hk.1]

/-- C3 counterexample: on the batch `[a, a#01, a]` the claimed per-key
assignment gives the second occurrence of `a` the key `a#01`, which collides
with the literal input key `a#01` (so the claimed output keys are not
distinct), while the handler actually probes past the occupied `a#01` and
stores the occurrence under `a#02`. -/
theorem c3_counterexample :
    ((specIncrementAssign
        [Attr.mk "a" (.scalar (.str "1")), Attr.mk "a#01" (.scalar (.str "2")),
         Attr.mk "a" (.scalar (.str "3"))] (fun _ => 0)).map Prod.fst
      = ["a", "a#01", "a#01"]) ∧
    ¬ (["a", "a#01", "a#01"] : List String).Nodup ∧
    (IncrementHandler.resolveValues defaultResolveKey []
        [Attr.mk "a" (.scalar (.str "1")), Attr.mk "a#01" (.scalar (.str "2")),
         Attr.mk "a" (.scalar (.str "3"))] []
      = [("a", .attr (Attr.mk "a" (.scalar (.str "1")))),
         ("a#01", .attr (Attr.mk "a#01" (.scalar (.str "2")))),
         ("a#02", .attr (Attr.mk "a#02" (.scalar (.str "3"))))]) ∧
    ("a#02" : String) ≠ "a#01" := by
  refine ⟨by decide, by decide, ?_, by decide⟩
  rw [IncrementHandler.resolveValues_cons_step []
    (Attr.mk "a" (Value.scalar (Scalar.str "1")))
    [Attr.mk "a#01" (Value.scalar (Scalar.str "2")),
     Attr.mk "a" (Value.scalar (Scalar.str "3"))]
    rfl rfl "a" rfl]
  show IncrementHandler.resolveValues defaultResolveKey
    [("a", TreeVal.attr (Attr.mk "a" (Value.scalar (Scalar.str "1"))))]
    [Attr.mk "a#01" (Value.scalar (Scalar.str "2")),
     Attr.mk "a" (Value.scalar (Scalar.str "3"))] [] = _
  rw [IncrementHandler.resolveValues_cons_step
    [("a", TreeVal.attr (Attr.mk "a" (Value.scalar (Scalar.str "1"))))]
    (Attr.mk "a#01" (Value.scalar (Scalar.str "2")))
    [Attr.mk "a" (Value.scalar (Scalar.str "3"))]
    rfl rfl "a#01" rfl]
  show IncrementHandler.resolveValues defaultResolveKey
    [("a", TreeVal.attr (Attr.mk "a" (Value.scalar (Scalar.str "1")))),
     ("a#01", TreeVal.attr (Attr.mk "a#01" (Value.scalar (Scalar.str "2"))))]
    [Attr.mk "a" (Value.scalar (Scalar.str "3"))] [] = _
  rw [IncrementHandler.resolveValues_cons_step
    [("a", TreeVal.attr (Attr.mk "a" (Value.scalar (Scalar.str "1")))),
     ("a#01", TreeVal.attr (Attr.mk "a#01" (Value.scalar (Scalar.str "2"))))]
    (Attr.mk "a" (Value.scalar (Scalar.str "3")))
    [] rfl rfl "a#02" rfl]
  rw [IncrementHandler.resolveValues]
  rfl

/-- C3 (amended): for a flat batch of non-sentinel, non-group attributes with
non-builtin keys, at most 100 occurrences per key, and such that the claimed
assigned keys (`k, k#01, k#02, ...` per occurrence of each original key `k`)
are pairwise distinct, the Increment handler's level has exactly one entry per
input occurrence, its keys are pairwise distinct, and every occurrence is
stored, with its value, under its claim-assigned key. -/
theorem c3_increment_per_occurrence (attrs : List Attr)
    (hflat : ∀ a ∈ attrs, a.value.isGroup = false)
    (hne : ∀ a ∈ attrs, (Attr.mk a.key a.value).isEmpty = false)
    (hnb : ∀ a ∈ attrs, DoesBuiltinKeyConflict a.key = false)
    (hcnt : ∀ a ∈ attrs, attrs.countP (fun b => b.key == a.key) ≤ 100)
    (hND : ((specIncrementAssign attrs (fun _ => 0)).map Prod.fst).Nodup) :
    (IncrementHandler.resolveValues defaultResolveKey [] attrs []).length = attrs.length ∧
    (mapKeys (IncrementHandler.resolveValues defaultResolveKey [] attrs [])).Nodup ∧
    (∀ p ∈ specIncrementAssign attrs (fun _ => 0),
      BTree.get (IncrementHandler.resolveValues defaultResolveKey [] attrs []) p.1
        = some (.attr (Attr.mk p.1 p.2.value))) := by
  obtain ⟨hs, hlen, hget, _⟩ :=
    IncrementHandler.resolveValues_assign attrs [] (fun _ => 0)
      hflat hne hnb
      (fun a ha => by simpa using hcnt a ha)
      List.Pairwise.nil
      (fun a ha j hj => absurd hj (Nat.not_lt_zero j))
      (fun p hp => by simp [mapKeys])
      hND
  exact ⟨by simpa using hlen, sortedMap_keys_nodup _ hs, hget⟩

/-- Witness for the amended C3 theorem at the concrete batch
`[(a,1), (b,2), (a,3)]`: the claim-assigned keys are `a`, `b`, `a#01`. -/
theorem c3_increment_per_occurrence_witness :
    ((∀ a ∈ [Attr.mk "a" (.scalar (.str "1")), Attr.mk "b" (.scalar (.str "2")),
        Attr.mk "a" (.scalar (.str "3"))], a.value.isGroup = false) ∧
     (∀ a ∈ [Attr.mk "a" (.scalar (.str "1")), Attr.mk "b" (.scalar (.str "2")),
        Attr.mk "a" (.scalar (.str "3"))], (Attr.mk a.key a.value).isEmpty = false) ∧
     (∀ a ∈ [Attr.mk "a" (.scalar (.str "1")), Attr.mk "b" (.scalar (.str "2")),
        Attr.mk "a" (.scalar (.str "3"))], DoesBuiltinKeyConflict a.key = false) ∧
     (∀ a ∈ [Attr.mk "a" (.scalar (.str "1")), Attr.mk "b" (.scalar (.str "2")),
        Attr.mk "a" (.scalar (.str "3"))],
        ([Attr.mk "a" (.scalar (.str "1")), Attr.mk "b" (.scalar (.str "2")),
          Attr.mk "a" (.scalar (.str "3"))].countP (fun b => b.key == a.key)) ≤ 100) ∧
     ((specIncrementAssign [Attr.mk "a" (.scalar (.str "1")),
        Attr.mk "b" (.scalar (.str "2")), Attr.mk "a" (.scalar (.str "3"))]
        (fun _ => 0)).map Prod.fst).Nodup) ∧
    ((IncrementHandler.resolveValues defaultResolveKey []
        [Attr.mk "a" (.scalar (.str "1")), Attr.mk "b" (.scalar (.str "2")),
         Attr.mk "a" (.scalar (.str "3"))] []).length
      = [Attr.mk "a" (.scalar (.str "1")), Attr.mk "b" (.scalar (.str "2")),
         Attr.mk "a" (.scalar (.str "3"))].length ∧
     (mapKeys (IncrementHandler.resolveValues defaultResolveKey []
        [Attr.mk "a" (.scalar (.str "1")), Attr.mk "b" (.scalar (.str "2")),
         Attr.mk "a" (.scalar (.str "3"))] [])).Nodup ∧
     (∀ p ∈ specIncrementAssign [Attr.mk "a" (.scalar (.str "1")),
        Attr.mk "b" (.scalar (.str "2")), Attr.mk "a" (.scalar (.str "3"))] (fun _ => 0),
      BTree.get (IncrementHandler.resolveValues defaultResolveKey []
        [Attr.mk "a" (.scalar (.str "1")), Attr.mk "b" (.scalar (.str "2")),
         Attr.mk "a" (.scalar (.str "3"))] []) p.1
        = some (.attr (Attr.mk p.1 p.2.value)))) :=
  ⟨⟨by decide, by decide, by decide, by decide, by decide⟩,
   c3_increment_per_occurrence
     [Attr.mk "a" (.scalar (.str "1")), Attr.mk "b" (.scalar (.str "2")),
      Attr.mk "a" (.scalar (.str "3"))]
     (by decide) (by decide) (by decide) (by decide) (by decide)⟩
